import Mathlib

/-! Layer pipeline of `project.cpp` / `p.c`.

A shallow embedding of the two source variants of the process-per-layer,
thread-per-neuron simulator, and theorems about it.

Conventions of the embedding.

* `double` values are elements of a type `α` that carries the operations the
  source applies to them (`0.0`, `+`, `*`, ...).  Nothing is assumed about
  these operations unless a theorem says so, hence the statements hold for
  IEEE arithmetic as well as for exact arithmetic (`ℚ`).
* A buffer is a `List`; a read outside a buffer has no defined result in C and
  is `none` here.
* A `FILE *` opened on `input.txt` is a state `σ` with the one operation the
  stages use on it, `parse_double_with_comma`; the character-level tokenizer
  instantiates it with `σ = List Char`.
* A pipe is the list of bytes written to it and not yet read.  A stage of a
  run reads its pipe as its writer has left it (`read_from_pipe`);
  `read_from_pipe_at` is the same function on a pipe of bounded capacity
  whose writer is still running.
* A process that calls `exit(1)` returns `Except.error`.
* The part of `main` that runs the stages is given twice: by the stages it
  runs and the data that flows between them (`run_passes`), and by the system
  calls of the parent (`pipeline_calls`), which `run_calls` executes on the
  pipes; `run_calls_stages` shows that the two agree.
-/

set_option autoImplicit false

namespace Pipeline

/-! ## Constants -/

/-- The constant `MAX_NEURONS` of the source. -/
def MAX_NEURONS : Nat := 100

/-- The constant `INPUT_NEURONS` of the source. -/
def INPUT_NEURONS : Nat := 2

/-! ## The neuron threads -/

/-- The `ComputeThread` record handed to one neuron thread.  `output_array`
and `sync_lock` are the shared results buffer and its mutex; the buffer is
passed explicitly to `execute_neuron_task`. -/
structure ComputeThread (α : Type) where
  thread_id : Nat
  input_size : Nat
  layer_inputs : List α
  neuron_weights : List α

/-- The loop `for (j = 0; j < input_size; j++) sum += layer_inputs[j] * neuron_weights[j]`
of `execute_neuron_task`, started from `sum = 0.0`. -/
def weighted_sum {α : Type} [Zero α] [Add α] [Mul α] (task : ComputeThread α) : Option α :=
  (List.range task.input_size).foldlM
    (fun sum j =>
      match task.layer_inputs[j]?, task.neuron_weights[j]? with
      | some x, some w => some (sum + x * w)
      | _, _ => none)
    (0 : α)

/-- One neuron thread: compute the weighted sum, then store it (under the
mutex) at `output_array[thread_id]`.  A cell of the results buffer is `none`
until it has been written. -/
def execute_neuron_task {α : Type} [Zero α] [Add α] [Mul α]
    (task : ComputeThread α) (output_array : List (Option α)) : Option (List (Option α)) :=
  match weighted_sum task with
  | none => none
  | some sum =>
    if task.thread_id < output_array.length then
      some (output_array.set task.thread_id (some sum))
    else none

/-- The parameters `task_params[i]` that `launch_neuron_threads` fills in for
neuron `i`; `&weights[i * input_size]` is the weight array from that index on. -/
def task_params {α : Type} (input_size : Nat) (input_data weights : List α) (i : Nat) :
    ComputeThread α :=
  { thread_id := i
    input_size := input_size
    layer_inputs := input_data
    neuron_weights := weights.drop (i * input_size) }

/-- The threads of one layer, their stores into the results buffer taking
place in the order `order` (the mutex makes the stores atomic; the sums read
only the immutable inputs).  The buffer comes from `malloc`: `num_neurons`
cells, none of them written. -/
def run_neuron_threads {α : Type} [Zero α] [Add α] [Mul α] (order : List Nat)
    (num_neurons input_size : Nat) (input_data weights : List α) : Option (List (Option α)) :=
  order.foldlM
    (fun results i => execute_neuron_task (task_params input_size input_data weights i) results)
    (List.replicate num_neurons none)

/-- The results buffer as the caller reads it after the joins: every cell must
have been written. -/
def read_results {α : Type} : List (Option α) → Option (List α)
  | [] => some []
  | none :: _ => none
  | some v :: rest =>
    match read_results rest with
    | none => none
    | some vs => some (v :: vs)

/-- The function `launch_neuron_threads`: create one thread per neuron, for `i = 0, 1, ...`,
join them all and return the results buffer. -/
def launch_neuron_threads {α : Type} [Zero α] [Add α] [Mul α]
    (num_neurons input_size : Nat) (input_data weights : List α) : Option (List α) :=
  match run_neuron_threads (List.range num_neurons) num_neurons input_size input_data weights with
  | none => none
  | some results => read_results results

/-- The sum the spec assigns to neuron `i`: `x[j] * W[i*w + j]` added to an
accumulator that starts at `0`, for `j = 0, 1, ..., w - 1` in this order. -/
def dot_row {α : Type} [Zero α] [Add α] [Mul α] (w : Nat) (x W : List α) (i : Nat) : α :=
  (List.range w).foldl (fun sum j => sum + x.getD j 0 * W.getD (i * w + j) 0) 0

/-! ## The tokenizer -/

/-- The library call `fscanf(fp, "%lf", value)`, which the source does not
define: from the stream, the converted value (`none` when the conversion
fails) and the stream that is left. -/
abbrev Scanf (α : Type) := List Char → Option α × List Char

/-- The loop `while (c == ',' || c == ' ' || c == '\t') c = fgetc(fp);` of
`project.cpp`, with the `ungetc` of the first other character. -/
def skip_trailing : List Char → List Char
  | [] => []
  | c :: fp => if c = ',' ∨ c = ' ' ∨ c = '\t' then skip_trailing fp else c :: fp

/-- The function `parse_double_with_comma` of `project.cpp`: the value read (`none` for the
return value 0) and the stream left. -/
def parse_double_with_comma {α : Type} (scanf : Scanf α) : List Char → Option α × List Char
  | [] => (none, [])
  | c :: fp =>
    if c = ' ' ∨ c = '\t' ∨ c = '\n' ∨ c = '\r' then parse_double_with_comma scanf fp
    else if c = ',' then parse_double_with_comma scanf fp
    else
      match scanf (c :: fp) with
      | (some value, fp) => (some value, skip_trailing fp)
      | (none, fp) => (none, fp)

/-- The stream operation the stages use: one call of the tokenizer on the
stage's own `FILE *`, giving the value (if any) and the new stream state. -/
abbrev Tokenizer (σ α : Type) := σ → Option α × σ

/-- A call `parse_double_with_comma(input_fp, &dummy);` whose result is ignored. -/
def discard {σ α : Type} (parse : Tokenizer σ α) (input_fp : σ) : σ := (parse input_fp).2

/-- The weight loop of every stage,
`for (i = 0; i < n; i++) if (!parse_double_with_comma(input_fp, &weights[i])) exit(1);`:
`none` when a call fails. -/
def read_weights {σ α : Type} (parse : Tokenizer σ α) : Nat → σ → Option (List α × σ)
  | 0, input_fp => some ([], input_fp)
  | n + 1, input_fp =>
    match parse input_fp with
    | (none, _) => none
    | (some value, input_fp) =>
      match read_weights parse n input_fp with
      | none => none
      | some (weights, input_fp) => some (value :: weights, input_fp)

/-- The successive calls of the tokenizer on `fp` return the values `ts`, in
this order, and leave the stream at `fp'`. -/
def Tokens {σ α : Type} (parse : Tokenizer σ α) : σ → List α → σ → Prop
  | fp, [], fp' => fp' = fp
  | fp, t :: ts, fp' => ∃ fp1, parse fp = (some t, fp1) ∧ Tokens parse fp1 ts fp'

/-! ## The skip code of the stages of `project.cpp`

Each stage opens `input.txt` itself and discards the tokens of the stages
before it.  The code is written over the step `next` (one discarding call), so
that the same definition runs on a stream and counts its calls. -/

section Skip
variable {σ : Type}

/-- The two leading calls and the loop over `INPUT_NEURONS * num_neurons`. -/
def skip_input_layer (next : σ → σ) (num_neurons : Nat) (input_fp : σ) : σ :=
  next^[INPUT_NEURONS * num_neurons] (next (next input_fp))

/-- A nested loop `for i < layers: for j < num_neurons * num_neurons`. -/
def skip_layers (next : σ → σ) (layers num_neurons : Nat) (input_fp : σ) : σ :=
  (next^[num_neurons * num_neurons])^[layers] input_fp

/-- Lines 262-275, `hidden_layer_process`. -/
def hidden_layer_skip (next : σ → σ) (layer_num num_neurons : Nat) (input_fp : σ) : σ :=
  skip_layers next (layer_num - 1) num_neurons (skip_input_layer next num_neurons input_fp)

/-- Lines 351-364, `output_layer_process`. -/
def output_layer_skip (next : σ → σ) (num_neurons total_hidden_layers : Nat) (input_fp : σ) : σ :=
  skip_layers next total_hidden_layers num_neurons (skip_input_layer next num_neurons input_fp)

/-- Lines 472-486, `second_input_layer_process`. -/
def second_input_layer_skip (next : σ → σ) (num_neurons total_hidden_layers : Nat)
    (input_fp : σ) : σ :=
  next^[num_neurons * num_neurons]
    (skip_layers next total_hidden_layers num_neurons (skip_input_layer next num_neurons input_fp))

/-- Lines 556-581, `second_hidden_layer_process`. -/
def second_hidden_layer_skip (next : σ → σ) (layer_num num_neurons total_hidden_layers : Nat)
    (input_fp : σ) : σ :=
  skip_layers next (layer_num - 1) num_neurons
    (next^[num_neurons * num_neurons]
      (next^[num_neurons * num_neurons]
        (skip_layers next total_hidden_layers num_neurons
          (skip_input_layer next num_neurons input_fp))))

/-- Lines 650-675, `second_output_layer_process`. -/
def second_output_layer_skip (next : σ → σ) (num_neurons total_hidden_layers : Nat)
    (input_fp : σ) : σ :=
  skip_layers next total_hidden_layers num_neurons
    (next^[num_neurons * num_neurons]
      (next^[num_neurons * num_neurons]
        (skip_layers next total_hidden_layers num_neurons
          (skip_input_layer next num_neurons input_fp))))

end Skip

/-- The number of discarding calls a skip routine makes: run it on a counter. -/
def calls (skip : (Nat → Nat) → Nat → Nat) : Nat := skip Nat.succ 0

/-! ## Pipes -/

/-- The object representations of `int` and `double`, which the source leaves
to the platform: 4 bytes (`sizeof(int)`) and 8 bytes (`sizeof(double)`) of a
byte type `β`, and what a `read` into an `int` or a `double` makes of them. -/
structure ObjRep (α β : Type) where
  int_bytes : Int → List β
  bytes_int : List β → Int
  double_bytes : α → List β
  bytes_double : List β → α
  int_bytes_length : ∀ n, (int_bytes n).length = 4
  double_bytes_length : ∀ v, (double_bytes v).length = 8
  bytes_int_bytes : ∀ n : Int, -2147483648 ≤ n → n ≤ 2147483647 → bytes_int (int_bytes n) = n
  bytes_double_bytes : ∀ v, bytes_double (double_bytes v) = v

/-- The bytes of the first `count` cells of `data`; `none` when `data` has
fewer cells. -/
def doubles_bytes {α β : Type} (R : ObjRep α β) (data : List α) (count : Nat) : Option (List β) :=
  if count ≤ data.length then some ((data.take count).flatMap R.double_bytes) else none

/-- The function `write_to_pipe`: the bytes the two `write` calls put into the pipe, the
count and then `count * sizeof(double)` bytes of `data`.  Both calls write in
full (the reader of the pipe is alive), so the return value is 1; the result
is `none` only when `data` has fewer than `count` cells. -/
def write_to_pipe {α β : Type} (R : ObjRep α β) (data : List α) (count : Nat) : Option (List β) :=
  match doubles_bytes R data count with
  | none => none
  | some bytes => some (R.int_bytes (count : Int) ++ bytes)

/-- The `n` doubles stored in `n * sizeof(double)` bytes. -/
def bytes_doubles {α β : Type} (R : ObjRep α β) (n : Nat) (bytes : List β) : List α :=
  (List.range n).map (fun i => R.bytes_double ((bytes.drop (8 * i)).take 8))

/-- The function `read_from_pipe` on a pipe holding `pipe`: `(data, count)` on success
(return value 1), and the bytes left in the pipe.  A `read` returns the bytes
available, up to the number asked for; `malloc` fails for a negative `n` (the
size wraps to more than the address space) and succeeds otherwise. -/
def read_from_pipe {α β : Type} (R : ObjRep α β) (pipe : List β) :
    Option (List α × Nat) × List β :=
  if (pipe.take 4).length ≠ 4 then (none, pipe.drop 4)
  else
    let n : Int := R.bytes_int (pipe.take 4)
    let pipe := pipe.drop 4
    if n < 0 then (none, pipe)
    else if (pipe.take (n.toNat * 8)).length ≠ n.toNat * 8 then (none, pipe.drop (n.toNat * 8))
    else (some (bytes_doubles R n.toNat (pipe.take (n.toNat * 8)), n.toNat),
          pipe.drop (n.toNat * 8))

/-! ## The stages of `project.cpp` -/

/-- The messages with which a stage calls `exit(1)`. -/
inductive Fatal where
  /-- The message "Failed to read initial input values". -/
  | initial_inputs
  /-- The message "Insufficient weight data". -/
  | insufficient_weights
  /-- The messages "Failed to read from pipe" and "Failed to read backward data". -/
  | pipe_read
  /-- A read outside a buffer: no defined behaviour in C. -/
  | out_of_bounds
  deriving DecidableEq, Repr

/-- A line a stage prints to `output.txt`; the values are kept, not their
`%.6f` rendering. -/
inductive ReportLine (α : Type) where
  /-- A fixed line of text. -/
  | text (s : String)
  /-- A header line with the layer number. -/
  | layer_text (s : String) (layer_num : Nat)
  /-- The line "Input: [%.6f, %.6f]". -/
  | input (v0 v1 : α)
  /-- The line "  Neuron[%d] = %.6f". -/
  | neuron (i : Nat) (value : α)
  /-- The line "  Output[%d] = %.6f". -/
  | output (i : Nat) (value : α)
  /-- The line "  Neuron[%d]: f(x1)=%.6f | f(x2)=%.6f". -/
  | backward (i : Nat) (fx1 fx2 : α)
  deriving DecidableEq, Repr

/-- The buffers of a stage when it reaches `exit(0)`, what it has appended to
`output.txt` and what it has written to its pipe. -/
structure StageExit (α β σ : Type) where
  input_fp : σ
  input_data : List α
  weights : List α
  output : List α
  backward_data : List α
  report : List (ReportLine α)
  sent : List β

/-- Formula 1 of `output_layer_process`. -/
def fx1 {α : Type} [Add α] [Mul α] [Div α] [OfScientific α] (val : α) : α :=
  ((val * val) + val + 1.0) / 2.0

/-- Formula 2 of `output_layer_process`. -/
def fx2 {α : Type} [Sub α] [Mul α] [Div α] [OfScientific α] (val : α) : α :=
  ((val * val) - val) / 2.0

/-- The loops `for (i = 0; i < num_neurons; i++) fprintf(..., i, output[i])`;
`output` is the buffer of `num_neurons` cells that `launch_neuron_threads`
returns, so the loop visits its cells. -/
def value_lines {α : Type} (line : Nat → α → ReportLine α) (output : List α) :
    List (ReportLine α) :=
  output.enum.map (fun p => line p.1 p.2)

/-- The record of `input_layer_process`. -/
def input_record {α : Type} (v0 v1 : α) (output : List α) : List (ReportLine α) :=
  [.text "FORWARD PASS 1 - INPUT LAYER COMPUTATION", .input v0 v1, .text "Output:"]
    ++ value_lines .neuron output ++ [.text ""]

/-- The record of `hidden_layer_process`. -/
def hidden_record {α : Type} (layer_num : Nat) (output : List α) : List (ReportLine α) :=
  [.layer_text "FORWARD PASS 1 - HIDDEN LAYER %d COMPUTATION" layer_num, .text "Output:"]
    ++ value_lines .neuron output ++ [.text ""]

/-- The two records of `output_layer_process`: its outputs, then both
formulas applied to every output. -/
def output_record {α : Type} [Add α] [Sub α] [Mul α] [Div α] [OfScientific α]
    (output : List α) : List (ReportLine α) :=
  [.text "FORWARD PASS 1 - OUTPUT LAYER COMPUTATION", .text "Output:"]
    ++ value_lines .output output ++ [.text ""]
    ++ [.text "BACKWARD PASS COMPUTATION", .text "Formula 1: f(x1) = (x^2 + x + 1) / 2",
        .text "Formula 2: f(x2) = (x^2 - x) / 2", .text "Results:"]
    ++ value_lines (fun i val => .backward i (fx1 val) (fx2 val)) output ++ [.text ""]

/-- The record of `second_input_layer_process`. -/
def second_input_record {α : Type} (output : List α) : List (ReportLine α) :=
  [.text "FORWARD PASS 2 - LAYER 1 OUTPUT", .text "Output:"]
    ++ value_lines .neuron output ++ [.text ""]

/-- The record of `second_hidden_layer_process`. -/
def second_hidden_record {α : Type} (layer_num : Nat) (output : List α) : List (ReportLine α) :=
  [.layer_text "FORWARD PASS 2 - LAYER %d OUTPUT" layer_num, .text "Output:"]
    ++ value_lines .neuron output ++ [.text ""]

/-- The record of `second_output_layer_process`. -/
def second_output_record {α : Type} (output : List α) : List (ReportLine α) :=
  [.text "FORWARD PASS 2 - FINAL OUTPUT LAYER", .text "Final Output:"]
    ++ value_lines .output output ++ [.text "", .text "SIMULATION COMPLETED SUCCESSFULLY"]

section Stages
variable {α β σ : Type} [Zero α] [Add α] [Mul α]

/-- The common tail of the stages that have a next stage: read the weights,
run the neuron threads, append the record, send the output. -/
def compute_and_send (parse : Tokenizer σ α) (R : ObjRep α β) (num_neurons input_count : Nat)
    (input_data : List α) (input_fp : σ)
    (record : List α → List (ReportLine α)) : Except Fatal (StageExit α β σ) :=
  match read_weights parse (input_count * num_neurons) input_fp with
  | none => .error .insufficient_weights
  | some (weights, input_fp) =>
    match launch_neuron_threads num_neurons input_count input_data weights with
    | none => .error .out_of_bounds
    | some output =>
      match write_to_pipe R output num_neurons with
      | none => .error .out_of_bounds
      | some sent =>
        .ok { input_fp := input_fp, input_data := input_data, weights := weights,
              output := output, backward_data := [], report := record output, sent := sent }

/-- The process `input_layer_process(num_neurons, neurons_per_layer, write_fd, layer_id)`;
`input_txt` is `input.txt` as `fopen` gives it. -/
def input_layer_process (parse : Tokenizer σ α) (R : ObjRep α β) (num_neurons : Nat)
    (input_txt : σ) : Except Fatal (StageExit α β σ) :=
  match parse input_txt with
  | (none, _) => .error .initial_inputs
  | (some v0, input_fp) =>
    match parse input_fp with
    | (none, _) => .error .initial_inputs
    | (some v1, input_fp) =>
      compute_and_send parse R num_neurons INPUT_NEURONS [v0, v1] input_fp (input_record v0 v1)

/-- The process `hidden_layer_process(layer_num, num_neurons, read_fd, write_fd, total_hidden_layers)`;
`read_fd` is the content of the pipe it reads. -/
def hidden_layer_process (parse : Tokenizer σ α) (R : ObjRep α β) (layer_num num_neurons : Nat)
    (read_fd : List β) (input_txt : σ) : Except Fatal (StageExit α β σ) :=
  let input_fp := hidden_layer_skip (discard parse) layer_num num_neurons input_txt
  match read_from_pipe R read_fd with
  | (none, _) => .error .pipe_read
  | (some (input_data, input_count), _) =>
    compute_and_send parse R num_neurons input_count input_data input_fp (hidden_record layer_num)

/-- The process `output_layer_process(layer_num, num_neurons, read_fd, backward_write_fd,
total_hidden_layers)`. -/
def output_layer_process [Sub α] [Div α] [OfScientific α]
    (parse : Tokenizer σ α) (R : ObjRep α β) (num_neurons : Nat)
    (read_fd : List β) (input_txt : σ) (total_hidden_layers : Nat) :
    Except Fatal (StageExit α β σ) :=
  let input_fp := output_layer_skip (discard parse) num_neurons total_hidden_layers input_txt
  match read_from_pipe R read_fd with
  | (none, _) => .error .pipe_read
  | (some (input_data, input_count), _) =>
    match read_weights parse (input_count * num_neurons) input_fp with
    | none => .error .insufficient_weights
    | some (weights, input_fp) =>
      match launch_neuron_threads num_neurons input_count input_data weights with
      | none => .error .out_of_bounds
      | some output =>
        let backward_data := output.map fx1
        match write_to_pipe R backward_data num_neurons with
        | none => .error .out_of_bounds
        | some sent =>
          .ok { input_fp := input_fp, input_data := input_data, weights := weights,
                output := output, backward_data := backward_data,
                report := output_record output, sent := sent }

/-- The process `second_input_layer_process(num_neurons, neurons_per_layer, read_backward_fd, write_fd,
total_hidden_layers)`. -/
def second_input_layer_process (parse : Tokenizer σ α) (R : ObjRep α β) (num_neurons : Nat)
    (read_backward_fd : List β) (input_txt : σ) (total_hidden_layers : Nat) :
    Except Fatal (StageExit α β σ) :=
  let input_fp := second_input_layer_skip (discard parse) num_neurons total_hidden_layers input_txt
  match read_from_pipe R read_backward_fd with
  | (none, _) => .error .pipe_read
  | (some (backward_data, backward_count), _) =>
    compute_and_send parse R num_neurons backward_count backward_data input_fp
      second_input_record

/-- The process `second_hidden_layer_process(layer_num, num_neurons, read_fd, write_fd,
total_hidden_layers)`. -/
def second_hidden_layer_process (parse : Tokenizer σ α) (R : ObjRep α β)
    (layer_num num_neurons : Nat) (read_fd : List β) (input_txt : σ)
    (total_hidden_layers : Nat) : Except Fatal (StageExit α β σ) :=
  let input_fp :=
    second_hidden_layer_skip (discard parse) layer_num num_neurons total_hidden_layers input_txt
  match read_from_pipe R read_fd with
  | (none, _) => .error .pipe_read
  | (some (input_data, input_count), _) =>
    compute_and_send parse R num_neurons input_count input_data input_fp
      (second_hidden_record layer_num)

/-- The process `second_output_layer_process(layer_num, num_neurons, read_fd,
total_hidden_layers)`: the last stage, which sends nothing. -/
def second_output_layer_process (parse : Tokenizer σ α) (R : ObjRep α β) (num_neurons : Nat)
    (read_fd : List β) (input_txt : σ) (total_hidden_layers : Nat) :
    Except Fatal (StageExit α β σ) :=
  let input_fp := second_output_layer_skip (discard parse) num_neurons total_hidden_layers input_txt
  match read_from_pipe R read_fd with
  | (none, _) => .error .pipe_read
  | (some (input_data, input_count), _) =>
    match read_weights parse (input_count * num_neurons) input_fp with
    | none => .error .insufficient_weights
    | some (weights, input_fp) =>
      match launch_neuron_threads num_neurons input_count input_data weights with
      | none => .error .out_of_bounds
      | some output =>
        .ok { input_fp := input_fp, input_data := input_data, weights := weights,
              output := output, backward_data := [], report := second_output_record output,
              sent := [] }

/-! ## The two passes of `main` -/

/-- What the reader of a pipe finds once its writer has terminated: the frame
sent, or nothing (end of file) when the writer called `exit(1)`. -/
def pipe_of (r : Except Fatal (StageExit α β σ)) : List β :=
  match r with
  | .ok s => s.sent
  | .error _ => []

/-- The loop of `main` that forks the hidden layers `i + 1`, for
`i = first, first + 1, ...` (`count` of them); each reads the pipe its
predecessor writes.  Returns the stages and the content of the last pipe. -/
def fork_hidden_layers (stage : Nat → List β → Except Fatal (StageExit α β σ)) :
    Nat → Nat → List β → List (Except Fatal (StageExit α β σ)) × List β
  | _, 0, pipe => ([], pipe)
  | i, count + 1, pipe =>
    let r := stage (i + 1) pipe
    let rest := fork_hidden_layers stage (i + 1) count (pipe_of r)
    (r :: rest.1, rest.2)

/-- The stages of one forward pass. -/
structure Pass (α β σ : Type) where
  input : Except Fatal (StageExit α β σ)
  hidden : List (Except Fatal (StageExit α β σ))
  output : Except Fatal (StageExit α β σ)

/-- The part of `main` after the configuration has been accepted: the first
forward pass, then the second, each stage started on a freshly opened
`input.txt`. -/
def run_passes [Sub α] [Div α] [OfScientific α] (parse : Tokenizer σ α) (R : ObjRep α β)
    (input_txt : σ) (layers_count neurons_count : Nat) : Pass α β σ × Pass α β σ :=
  let input := input_layer_process parse R neurons_count input_txt
  let hidden := fork_hidden_layers
    (fun layer_num pipe => hidden_layer_process parse R layer_num neurons_count pipe input_txt)
    0 layers_count (pipe_of input)
  let output := output_layer_process parse R neurons_count hidden.2 input_txt layers_count
  let input2 :=
    second_input_layer_process parse R neurons_count (pipe_of output) input_txt layers_count
  let hidden2 := fork_hidden_layers
    (fun layer_num pipe =>
      second_hidden_layer_process parse R layer_num neurons_count pipe input_txt layers_count)
    0 layers_count (pipe_of input2)
  let output2 := second_output_layer_process parse R neurons_count hidden2.2 input_txt layers_count
  ({ input := input, hidden := hidden.1, output := output },
   { input := input2, hidden := hidden2.1, output := output2 })

end Stages

/-! ## Segments -/

/-- The frame of a vector: its length as an `int`, then its values. -/
def frame {α β : Type} (R : ObjRep α β) (data : List α) : List β :=
  R.int_bytes (data.length : Int) ++ data.flatMap R.double_bytes

/-- The global order of the weight segments as the spec lists it (4.2), with
the token count of each: first-pass input, first-pass hidden `1..H`,
first-pass output, second-pass input, second-pass hidden `1..H`, second-pass
output. -/
def spec_segments (H N : Nat) : List Nat :=
  [2 * N] ++ List.replicate H (N * N) ++ [N * N] ++ [N * N] ++ List.replicate H (N * N) ++ [N * N]

/-- The spec's offset of the segment at position `i` of the global order: the
sum of the token counts of the segments before it. -/
def spec_offset (H N i : Nat) : Nat := ((spec_segments H N).take i).sum

/-- The spec's total token requirement (4.2). -/
def spec_total (H N : Nat) : Nat := 2 * N + (H + 2) * N ^ 2 + (H + 1) * N ^ 2

/-- The segment `(offset, length)` of every stage of `project.cpp`, in the
order in which `main` forks them, read off the code: the offset is the number
of discarding calls after the two leading ones (none in the first input
stage), the length is the bound of the weight loop, where `input_count` is the
`num_neurons` its predecessor sends. -/
def stage_segments (H N : Nat) : List (Nat × Nat) :=
  [(0, INPUT_NEURONS * N)]
    ++ (List.range H).map (fun i => (calls (fun next => hidden_layer_skip next (i + 1) N) - 2, N * N))
    ++ [(calls (fun next => output_layer_skip next N H) - 2, N * N)]
    ++ [(calls (fun next => second_input_layer_skip next N H) - 2, N * N)]
    ++ (List.range H).map
        (fun i => (calls (fun next => second_hidden_layer_skip next (i + 1) N H) - 2, N * N))
    ++ [(calls (fun next => second_output_layer_skip next N H) - 2, N * N)]

/-- The number of weight tokens the stages request from the source: the
largest `offset + length`. -/
def total_requested (H N : Nat) : Nat :=
  ((stage_segments H N).map (fun seg => seg.1 + seg.2)).foldr max 0

/-- The stages of a run in the order in which `main` forks them. -/
def all_stages {α β σ : Type} (run : Pass α β σ × Pass α β σ) :
    List (Except Fatal (StageExit α β σ)) :=
  [run.1.input] ++ run.1.hidden ++ [run.1.output] ++ [run.2.input] ++ run.2.hidden
    ++ [run.2.output]

/-! ## A reference platform

An instance of the parameters, on which the definitions can be evaluated. -/

/-- A byte of the reference platform: a byte of the little-endian
two's-complement image of an `int`, or byte `k` of the image of a `double`
(the image of a `double` is determined by its value and is kept symbolic). -/
inductive RefByte (α : Type) where
  | int_byte (b : Nat)
  | double_byte (v : α) (k : Nat)
  deriving DecidableEq, Repr

/-- The four bytes of an `int`. -/
def ref_int_bytes {α : Type} (n : Int) : List (RefByte α) :=
  let u := (n % 4294967296).toNat
  [.int_byte (u % 256), .int_byte (u / 256 % 256), .int_byte (u / 65536 % 256),
   .int_byte (u / 16777216 % 256)]

/-- The numeric value of a byte read as part of an `int`. -/
def ref_byte_value {α : Type} : RefByte α → Nat
  | .int_byte b => b
  | .double_byte _ _ => 0

/-- The `int` stored in four bytes. -/
def ref_bytes_int {α : Type} (bytes : List (RefByte α)) : Int :=
  let u : Nat := bytes.foldr (fun b acc => ref_byte_value b + 256 * acc) 0
  if u < 2147483648 then (u : Int) else (u : Int) - 4294967296

/-- The eight bytes of a `double`. -/
def ref_double_bytes {α : Type} (v : α) : List (RefByte α) :=
  (List.range 8).map (fun k => .double_byte v k)

/-- The `double` stored in eight bytes. -/
def ref_bytes_double {α : Type} [Zero α] : List (RefByte α) → α
  | .double_byte v _ :: _ => v
  | _ => 0

/-- The reference platform. -/
def ref_rep {α : Type} [Zero α] : ObjRep α (RefByte α) where
  int_bytes := ref_int_bytes
  bytes_int := ref_bytes_int
  double_bytes := ref_double_bytes
  bytes_double := ref_bytes_double
  int_bytes_length := fun _ => rfl
  double_bytes_length := fun _ => rfl
  bytes_int_bytes := by
    intro n h1 h2
    simp only [ref_int_bytes, ref_bytes_int, List.foldr_cons, List.foldr_nil, ref_byte_value]
    split <;> omega
  bytes_double_bytes := fun _ => rfl

/-- The value of a run of decimal digits. -/
def digits_value (digits : List Char) : Nat :=
  digits.foldl (fun n c => 10 * n + (c.toNat - 48)) 0

/-- A scanner for the reference platform: the maximal run of decimal digits
at the head of the stream is converted, and a stream that does not start with
a digit is a matching failure that consumes nothing.  This is what `%lf` does
on an unsigned decimal integer that is followed by a separator or by the end
of the file; the other forms `fscanf` accepts (sign, fraction, exponent,
hexadecimal, infinity, NaN) are not part of it. -/
def scan_decimal {α : Type} [NatCast α] : Scanf α := fun fp =>
  match fp.takeWhile Char.isDigit with
  | [] => (none, fp)
  | d :: ds => (some ((digits_value (d :: ds) : Nat) : α), fp.dropWhile Char.isDigit)


/-! ## The reference computation -/

/-- The tokens `[off, off + len)` of the weight sequence `W`. -/
def slice {α : Type} (W : List α) (off len : Nat) : List α := (W.drop off).take len

/-- The outputs of a layer of `N` neurons on the input vector `x` with the
weights `ws` (row-major by neuron). -/
def layer_output {α : Type} [Zero α] [Add α] [Mul α] (N : Nat) (x ws : List α) : List α :=
  (List.range N).map (dot_row x.length x ws)

/-- The vector that leaves hidden layer `i + count` when `x` enters hidden
layer `i + 1`; the segment of hidden layer `1` starts at `base`. -/
def hidden_chain {α : Type} [Zero α] [Add α] [Mul α] (W : List α) (N base : Nat) :
    Nat → Nat → List α → List α
  | _, 0, x => x
  | i, count + 1, x =>
    hidden_chain W N base (i + 1) count (layer_output N x (slice W (base + i * (N * N)) (N * N)))

/-- The reference output of the first-pass input layer, on the input pair
`x0, x1` and the weight sequence `W`. -/
def pass1_input_out {α : Type} [Zero α] [Add α] [Mul α] (W : List α) (N : Nat) (x0 x1 : α) :
    List α :=
  layer_output N [x0, x1] (slice W 0 (2 * N))

/-- The reference output of the last first-pass hidden layer. -/
def pass1_hidden_out {α : Type} [Zero α] [Add α] [Mul α] (W : List α) (H N : Nat) (x0 x1 : α) :
    List α :=
  hidden_chain W N (2 * N) 0 H (pass1_input_out W N x0 x1)

/-- The reference output of the first-pass output layer. -/
def pass1_out {α : Type} [Zero α] [Add α] [Mul α] (W : List α) (H N : Nat) (x0 x1 : α) :
    List α :=
  layer_output N (pass1_hidden_out W H N x0 x1) (slice W (2 * N + H * (N * N)) (N * N))

/-- The reference output of the second-pass input layer, whose input is `fx1`
of the first-pass output. -/
def pass2_input_out {α : Type} [Zero α] [Add α] [Mul α] [Div α] [OfScientific α]
    (W : List α) (H N : Nat) (x0 x1 : α) : List α :=
  layer_output N ((pass1_out W H N x0 x1).map fx1) (slice W (2 * N + (H + 1) * (N * N)) (N * N))

/-- The reference output of the last second-pass hidden layer. -/
def pass2_hidden_out {α : Type} [Zero α] [Add α] [Mul α] [Div α] [OfScientific α]
    (W : List α) (H N : Nat) (x0 x1 : α) : List α :=
  hidden_chain W N (2 * N + (H + 2) * (N * N)) 0 H (pass2_input_out W H N x0 x1)

/-- The reference output of the second-pass output layer. -/
def pass2_out {α : Type} [Zero α] [Add α] [Mul α] [Div α] [OfScientific α]
    (W : List α) (H N : Nat) (x0 x1 : α) : List α :=
  layer_output N (pass2_hidden_out W H N x0 x1) (slice W (2 * N + (2 * H + 2) * (N * N)) (N * N))

/-- A stage has reached `exit(0)` having received `x`, read the weights `ws`,
computed the layer output and sent its frame. -/
def StageSpec {α β σ : Type} [Zero α] [Add α] [Mul α] (R : ObjRep α β) (N : Nat)
    (x ws : List α) (r : Except Fatal (StageExit α β σ)) : Prop :=
  ∃ s, r = .ok s ∧ s.input_data = x ∧ s.weights = ws ∧ s.output = layer_output N x ws
    ∧ s.sent = frame R s.output

/-! ## Rows, schedules, literal streams and `main` -/

/-- The weight array whose row `i` (of width `w`) is row `s i` of `W`, for
`n` rows. -/
def permute_rows {α : Type} (w : Nat) (W : List α) (s : Nat → Nat) (n : Nat) : List α :=
  (List.range n).flatMap (fun i => (W.drop (s i * w)).take w)

/-- The results buffer once the threads listed in `l` have stored their sums
(in any order, any number of times): the cells of the other neurons are still
unwritten. -/
def stored {α : Type} [Zero α] [Add α] [Mul α] (w : Nat) (x W : List α) (n : Nat)
    (l : List Nat) : List (Option α) :=
  (List.range n).map (fun i => if i ∈ l then some (dot_row w x W i) else none)

/-- The separator characters: the ones the leading loop of
`parse_double_with_comma` skips (space, tab, newline, carriage return, comma). -/
def is_separator (c : Char) : Prop := c = ' ' ∨ c = '\t' ∨ c = '\n' ∨ c = '\r' ∨ c = ','

instance : DecidablePred is_separator := fun c => by unfold is_separator; infer_instance

/-- The stream after all its leading separators, in the words of the spec. -/
def skip_leading : List Char → List Char
  | [] => []
  | c :: fp => if is_separator c then skip_leading fp else c :: fp

/-- The two lines `c = fgetc(fp); if (c != ',') ungetc(c, fp);` of `p.c`. -/
def PC.skip_one_comma : List Char → List Char
  | [] => []
  | c :: fp => if c = ',' then fp else c :: fp

/-- The function `parse_double_with_comma` of `p.c`. -/
def PC.parse_double_with_comma {α : Type} (scanf : Scanf α) : List Char → Option α × List Char
  | [] => (none, [])
  | c :: fp =>
    if c = ' ' ∨ c = '\t' ∨ c = '\n' ∨ c = '\r' then PC.parse_double_with_comma scanf fp
    else if c = ',' then PC.parse_double_with_comma scanf fp
    else
      match scanf (c :: fp) with
      | (some value, fp) => (some value, PC.skip_one_comma fp)
      | (none, fp) => (none, fp)

/-- The characters `lit` are a floating-point literal of value `v` for the
conversion `scanf`: they do not start with a separator, and on every stream
made of `lit` followed by the end of the file or by a separator the conversion
succeeds with `v` and leaves what follows `lit`. -/
def IsLiteral {α : Type} (scanf : Scanf α) (lit : List Char) (v : α) : Prop :=
  (∃ c cs, lit = c :: cs ∧ ¬ is_separator c)
    ∧ ∀ rest : List Char, (∀ c ∈ rest.head?, is_separator c) → scanf (lit ++ rest) = (some v, rest)

/-- Every character of `seps` is a separator. -/
def AllSeparators (seps : List Char) : Prop := ∀ c ∈ seps, is_separator c

/-- A stream of literals: leading separators, then every literal followed by
its run of separators. -/
def literal_stream {α : Type} (lead : List Char) (items : List (List Char × α × List Char)) :
    List Char :=
  lead ++ items.flatMap (fun item => item.1 ++ item.2.2)

/-- The items of a stream are well formed: each is a literal with its value,
followed by separators only, at least one of them when another literal
follows. -/
def WellFormedItems {α : Type} (scanf : Scanf α) : List (List Char × α × List Char) → Prop
  | [] => True
  | item :: items =>
    IsLiteral scanf item.1 item.2.1 ∧ AllSeparators item.2.2
      ∧ (items ≠ [] → item.2.2 ≠ []) ∧ WellFormedItems scanf items

/-- A scanner for the reference platform that also converts a fraction: the
maximal run of decimal digits, then, if a point follows, the point and the
maximal run of digits after it; at least one digit is required.  This is what
the conversion `%lf` does on an unsigned decimal literal without exponent
that is followed by a separator or by the end of the file. -/
def scan_fixed_point : Scanf ℚ := fun fp =>
  let whole := fp.takeWhile Char.isDigit
  match fp.dropWhile Char.isDigit with
  | '.' :: after_point =>
    let fraction := after_point.takeWhile Char.isDigit
    if whole = [] ∧ fraction = [] then (none, fp)
    else
      (some ((digits_value whole : ℚ) + (digits_value fraction : ℚ) / 10 ^ fraction.length),
        after_point.dropWhile Char.isDigit)
  | rest => if whole = [] then (none, fp) else (some (digits_value whole : ℚ), rest)

/-- What `main` leaves behind: its exit status and, when it has accepted the
configuration, the stages of the two passes. -/
structure MainExit (α β σ : Type) where
  status : Nat
  passes : Option (Pass α β σ × Pass α β σ)

/-- The function `main`, from the two configuration values that `scanf` has
read: the two range checks (`exit(1)`), then the two passes, then `return 0`.
The `waitpid` calls pass `NULL` for the status, so no exit status of a stage
reaches `main`. -/
def main {α β σ : Type} [Zero α] [Add α] [Mul α] [Sub α] [Div α] [OfScientific α]
    (parse : Tokenizer σ α) (R : ObjRep α β) (input_txt : σ)
    (layers_count neurons_count : Int) : MainExit α β σ :=
  if layers_count < 1 ∨ layers_count > 9 then { status := 1, passes := none }
  else if neurons_count < 1 ∨ neurons_count > 100 then { status := 1, passes := none }
  else
    { status := 0,
      passes := some (run_passes parse R input_txt layers_count.toNat neurons_count.toNat) }

/-- The stages of a run that write a frame: all but the second-pass output
stage, in the order in which `main` forks them. -/
def sending_stages {α β σ : Type} (run : Pass α β σ × Pass α β σ) :
    List (Except Fatal (StageExit α β σ)) :=
  [run.1.input] ++ run.1.hidden ++ [run.1.output] ++ [run.2.input] ++ run.2.hidden

/-- The last line of the record of the last stage. -/
def success_line {α : Type} : ReportLine α := .text "SIMULATION COMPLETED SUCCESSFULLY"

/-- A stage that terminates normally has sent a frame of exactly `N` values. -/
def SendsFrame {α β σ : Type} (R : ObjRep α β) (N : Nat)
    (r : Except Fatal (StageExit α β σ)) : Prop :=
  ∀ s, r = .ok s → ∃ values : List α, values.length = N ∧ s.sent = frame R values

/-! ## The reference composition of the spec -/

/-- The matrix that the spec reads from the segment of `N * w` tokens starting
at token `off` of the weight sequence `W`, row-major by neuron: entry `(i, j)`
is the weight of neuron `i` for input `j`. -/
def segment_matrix (W : List ℚ) (off N w : Nat) : Matrix (Fin N) (Fin w) ℚ :=
  Matrix.of (fun i j => W.getD (off + i.val * w + j.val) 0)

/-- The product `M_H * ... * M_1 * x` of the spec, for the `H` hidden matrices
whose segments start at token `base`: `M_1` is applied first. -/
def spec_hidden (W : List ℚ) (N base H : Nat) (x : Fin N → ℚ) : Fin N → ℚ :=
  (List.range H).foldl
    (fun v k => (segment_matrix W (base + k * (N * N)) N N).mulVec v) x

/-- The pass-1 output `v = M_out * M_H * ... * M_1 * M_in * x` of the spec. -/
def spec_pass1 (W : List ℚ) (H N : Nat) (x0 x1 : ℚ) : Fin N → ℚ :=
  (segment_matrix W (2 * N + H * (N * N)) N N).mulVec
    (spec_hidden W N (2 * N) H ((segment_matrix W 0 N 2).mulVec ![x0, x1]))

/-- The vector `u` of the spec: `fx1` applied elementwise to `v`. -/
def spec_backward (W : List ℚ) (H N : Nat) (x0 x1 : ℚ) : Fin N → ℚ :=
  fun i => fx1 (spec_pass1 W H N x0 x1 i)

/-- The final output `M'_out * M'_H * ... * M'_1 * M'_in * u` of the spec. -/
def spec_final (W : List ℚ) (H N : Nat) (x0 x1 : ℚ) : Fin N → ℚ :=
  (segment_matrix W (2 * N + (2 * H + 2) * (N * N)) N N).mulVec
    (spec_hidden W N (2 * N + (H + 2) * (N * N)) H
      ((segment_matrix W (2 * N + (H + 1) * (N * N)) N N).mulVec (spec_backward W H N x0 x1)))

/-! ## The stages by position -/

/-- The stage that `main` forks at position `i` of the order of `all_stages`,
for `1 ≤ i ≤ 2H + 3` (the hidden layers `1..H`, the output layer, the second
input layer, the second hidden layers `1..H`, the second output layer), as a
function of the content of the pipe it reads. -/
def stage_at {α β σ : Type} [Zero α] [Add α] [Mul α] [Sub α] [Div α] [OfScientific α]
    (parse : Tokenizer σ α) (R : ObjRep α β) (input_txt : σ) (H N i : Nat) (pipe : List β) :
    Except Fatal (StageExit α β σ) :=
  if i ≤ H then hidden_layer_process parse R i N pipe input_txt
  else if i = H + 1 then output_layer_process parse R N pipe input_txt H
  else if i = H + 2 then second_input_layer_process parse R N pipe input_txt H
  else if i ≤ 2 * H + 2 then second_hidden_layer_process parse R (i - (H + 2)) N pipe input_txt H
  else second_output_layer_process parse R N pipe input_txt H

/-- A scanner for the reference platform that also converts a sign: an
optional `+` or `-`, then the maximal run of decimal digits.  When the sign is
not followed by a digit the conversion fails and the sign has been consumed:
the input item of a conversion is the longest run of characters that is an
initial part of a matching sequence, and only the character after it stays
unread
(C11 7.21.6.2, paragraphs 9 and 10). -/
def scan_signed : Scanf ℚ := fun fp =>
  match fp with
  | '-' :: rest =>
    match (scan_decimal : Scanf ℚ) rest with
    | (some v, rest) => (some (-v), rest)
    | (none, rest) => (none, rest)
  | '+' :: rest => (scan_decimal : Scanf ℚ) rest
  | _ => (scan_decimal : Scanf ℚ) fp

/-! ## The system calls of `main`

The part of `main` after the configuration has been accepted, as the sequence
of the calls `pipe`, `fork`, `close` and `waitpid` that the parent makes (all
of them succeed), and what they do to the pipes.  A child runs the stage
function it was forked for; it reads what has been written to its pipe, or
finds the end of the file when the writer has terminated without writing. -/

/-- The pipes of `main`: `forward_pipes[i]`, `backward_pipe` and
`second_forward_pipes[i]`. -/
inductive PipeId where
  | forward_pipes (i : Nat)
  | backward_pipe
  | second_forward_pipes (i : Nat)
  deriving DecidableEq, Repr

/-- A file descriptor of a pipe `p`: `p[0]` is the read end and `p[1]` the
write end. -/
structure Fd where
  pipe : PipeId
  side : Nat
  deriving DecidableEq, Repr

/-- The process ids that `main` keeps. -/
inductive Pid where
  | input_pid
  | hidden_pids (i : Nat)
  | output_pid
  | second_input_pid
  | second_hidden_pids (i : Nat)
  | second_output_pid
  deriving DecidableEq, Repr

/-- A call of a stage function with the arguments that `main` passes. -/
inductive StageCall where
  | input_layer_process (num_neurons neurons_per_layer : Nat) (write_fd : Fd) (layer_id : Nat)
  | hidden_layer_process (layer_num num_neurons : Nat) (read_fd write_fd : Fd)
      (total_hidden_layers : Nat)
  | output_layer_process (layer_num num_neurons : Nat) (read_fd backward_write_fd : Fd)
      (total_hidden_layers : Nat)
  | second_input_layer_process (num_neurons neurons_per_layer : Nat)
      (read_backward_fd write_fd : Fd) (total_hidden_layers : Nat)
  | second_hidden_layer_process (layer_num num_neurons : Nat) (read_fd write_fd : Fd)
      (total_hidden_layers : Nat)
  | second_output_layer_process (layer_num num_neurons : Nat) (read_fd : Fd)
      (total_hidden_layers : Nat)
  deriving DecidableEq, Repr

/-- A system call of the parent; `fork` carries the stage function that the
child runs. -/
inductive SysCall where
  | pipe (p : PipeId)
  | fork (pid : Pid) (child : StageCall)
  | close (fd : Fd)
  | waitpid (pid : Pid)
  deriving DecidableEq, Repr

/-- The descriptor a stage reads its input vector from, if it has one. -/
def StageCall.read_fd : StageCall → Option Fd
  | .input_layer_process _ _ _ _ => none
  | .hidden_layer_process _ _ read_fd _ _ => some read_fd
  | .output_layer_process _ _ read_fd _ _ => some read_fd
  | .second_input_layer_process _ _ read_backward_fd _ _ => some read_backward_fd
  | .second_hidden_layer_process _ _ read_fd _ _ => some read_fd
  | .second_output_layer_process _ _ read_fd _ => some read_fd

/-- The descriptor a stage writes its frame to, if it has one. -/
def StageCall.write_fd : StageCall → Option Fd
  | .input_layer_process _ _ write_fd _ => some write_fd
  | .hidden_layer_process _ _ _ write_fd _ => some write_fd
  | .output_layer_process _ _ _ backward_write_fd _ => some backward_write_fd
  | .second_input_layer_process _ _ _ write_fd _ => some write_fd
  | .second_hidden_layer_process _ _ _ write_fd _ => some write_fd
  | .second_output_layer_process _ _ _ _ => none

/-- Lines 796-874 of `project.cpp` (the same calls as in `p.c`): the pipes of
the first pass and the backward pipe, the forks of the first pass with the
closes of the parent, and the waits. -/
def first_pass_calls (layers_count neurons_count : Nat) : List SysCall :=
  (List.range (layers_count + 2)).map (fun i => .pipe (.forward_pipes i))
    ++ [.pipe .backward_pipe]
    ++ [.fork .input_pid
          (.input_layer_process neurons_count neurons_count ⟨.forward_pipes 0, 1⟩ 0),
        .close ⟨.forward_pipes 0, 1⟩]
    ++ (List.range layers_count).flatMap (fun i =>
        [.fork (.hidden_pids i)
          (.hidden_layer_process (i + 1) neurons_count ⟨.forward_pipes i, 0⟩
            ⟨.forward_pipes (i + 1), 1⟩ layers_count),
         .close ⟨.forward_pipes i, 0⟩, .close ⟨.forward_pipes (i + 1), 1⟩])
    ++ [.fork .output_pid
          (.output_layer_process (layers_count + 1) neurons_count
            ⟨.forward_pipes layers_count, 0⟩ ⟨.backward_pipe, 1⟩ layers_count),
        .close ⟨.forward_pipes layers_count, 0⟩, .close ⟨.backward_pipe, 1⟩]
    ++ [.waitpid .input_pid]
    ++ (List.range layers_count).map (fun i => .waitpid (.hidden_pids i))
    ++ [.waitpid .output_pid]

/-- Lines 882-943 of `project.cpp`: the pipes, the forks and the waits of the
second pass. -/
def second_pass_calls (layers_count neurons_count : Nat) : List SysCall :=
  (List.range (layers_count + 2)).map (fun i => .pipe (.second_forward_pipes i))
    ++ [.fork .second_input_pid
          (.second_input_layer_process neurons_count neurons_count ⟨.backward_pipe, 0⟩
            ⟨.second_forward_pipes 0, 1⟩ layers_count),
        .close ⟨.backward_pipe, 0⟩, .close ⟨.second_forward_pipes 0, 1⟩]
    ++ (List.range layers_count).flatMap (fun i =>
        [.fork (.second_hidden_pids i)
          (.second_hidden_layer_process (i + 1) neurons_count ⟨.second_forward_pipes i, 0⟩
            ⟨.second_forward_pipes (i + 1), 1⟩ layers_count),
         .close ⟨.second_forward_pipes i, 0⟩, .close ⟨.second_forward_pipes (i + 1), 1⟩])
    ++ [.fork .second_output_pid
          (.second_output_layer_process (layers_count + 1) neurons_count
            ⟨.second_forward_pipes layers_count, 0⟩ layers_count),
        .close ⟨.second_forward_pipes layers_count, 0⟩]
    ++ [.waitpid .second_input_pid]
    ++ (List.range layers_count).map (fun i => .waitpid (.second_hidden_pids i))
    ++ [.waitpid .second_output_pid]

/-- Lines 945-954 of `project.cpp`: the closes of the cleanup. -/
def cleanup_calls (layers_count : Nat) : List SysCall :=
  (List.range (layers_count + 2)).flatMap (fun i =>
      [.close ⟨.forward_pipes i, 0⟩, .close ⟨.forward_pipes i, 1⟩,
       .close ⟨.second_forward_pipes i, 0⟩, .close ⟨.second_forward_pipes i, 1⟩])
    ++ [.close ⟨.backward_pipe, 0⟩, .close ⟨.backward_pipe, 1⟩]

/-- The calls of `main` once it has accepted the configuration. -/
def pipeline_calls (layers_count neurons_count : Nat) : List SysCall :=
  first_pass_calls layers_count neurons_count ++ second_pass_calls layers_count neurons_count
    ++ cleanup_calls layers_count

/-- The calls of `main`, from the two configuration values that `scanf` has
read: none when a range check calls `exit(1)`. -/
def main_calls (layers_count neurons_count : Int) : List SysCall :=
  if layers_count < 1 ∨ layers_count > 9 then []
  else if neurons_count < 1 ∨ neurons_count > 100 then []
  else pipeline_calls layers_count.toNat neurons_count.toNat

/-- The pipes (the bytes written to each and not yet read) and the children
that have been forked, in this order, with the way each has terminated. -/
structure Kernel (α β σ : Type) where
  pipes : PipeId → List β
  exits : List (Pid × Except Fatal (StageExit α β σ))

/-- What a `read` on a descriptor finds: the content of the pipe on a read
end, nothing on a write end. -/
def readable {β : Type} (pipes : PipeId → List β) (fd : Fd) : List β :=
  if fd.side = 0 then pipes fd.pipe else []

section Exec
variable {α β σ : Type} [Zero α] [Add α] [Mul α] [Sub α] [Div α] [OfScientific α]

/-- The child of a `fork`: the stage function of the call, on `input.txt` and
on what its read descriptor holds. -/
def run_child (parse : Tokenizer σ α) (R : ObjRep α β) (input_txt : σ)
    (pipes : PipeId → List β) : StageCall → Except Fatal (StageExit α β σ)
  | .input_layer_process num_neurons _ _ _ =>
    Pipeline.input_layer_process parse R num_neurons input_txt
  | .hidden_layer_process layer_num num_neurons read_fd _ _ =>
    Pipeline.hidden_layer_process parse R layer_num num_neurons (readable pipes read_fd) input_txt
  | .output_layer_process _ num_neurons read_fd _ total_hidden_layers =>
    Pipeline.output_layer_process parse R num_neurons (readable pipes read_fd) input_txt
      total_hidden_layers
  | .second_input_layer_process num_neurons _ read_backward_fd _ total_hidden_layers =>
    Pipeline.second_input_layer_process parse R num_neurons (readable pipes read_backward_fd)
      input_txt total_hidden_layers
  | .second_hidden_layer_process layer_num num_neurons read_fd _ total_hidden_layers =>
    Pipeline.second_hidden_layer_process parse R layer_num num_neurons (readable pipes read_fd)
      input_txt total_hidden_layers
  | .second_output_layer_process _ num_neurons read_fd total_hidden_layers =>
    Pipeline.second_output_layer_process parse R num_neurons (readable pipes read_fd) input_txt
      total_hidden_layers

/-- The pipes after a child has run: what `read_from_pipe` has taken is gone
from the pipe it reads, and what it has sent is in the pipe it writes. -/
def pipes_after (R : ObjRep α β) (pipes : PipeId → List β) (child : StageCall)
    (r : Except Fatal (StageExit α β σ)) : PipeId → List β :=
  let pipes :=
    match child.read_fd with
    | none => pipes
    | some fd =>
      if fd.side = 0 then
        Function.update pipes fd.pipe (read_from_pipe (α := α) R (pipes fd.pipe)).2
      else pipes
  match child.write_fd with
  | none => pipes
  | some fd => if fd.side = 1 then Function.update pipes fd.pipe (pipes fd.pipe ++ pipe_of r)
    else pipes

/-- One call of the parent. -/
def sys_call (parse : Tokenizer σ α) (R : ObjRep α β) (input_txt : σ) (k : Kernel α β σ) :
    SysCall → Kernel α β σ
  | .pipe p => { k with pipes := Function.update k.pipes p [] }
  | .fork pid child =>
    let r := run_child parse R input_txt k.pipes child
    { pipes := pipes_after R k.pipes child r, exits := k.exits ++ [(pid, r)] }
  | .close _ => k
  | .waitpid _ => k

/-- The calls of `main`, run from the start: no pipe, no child. -/
def run_calls (parse : Tokenizer σ α) (R : ObjRep α β) (input_txt : σ)
    (calls : List SysCall) : Kernel α β σ :=
  calls.foldl (sys_call parse R input_txt) { pipes := fun _ => [], exits := [] }

end Exec

/-- The first pass (1) or the second pass (2), by process id. -/
def Pid.pass : Pid → Nat
  | .input_pid => 1
  | .hidden_pids _ => 1
  | .output_pid => 1
  | .second_input_pid => 2
  | .second_hidden_pids _ => 2
  | .second_output_pid => 2

/-- The stage calls of the forks of a sequence of calls, in order. -/
def forked (calls : List SysCall) : List StageCall :=
  calls.filterMap (fun c => match c with
    | .fork _ child => some child
    | _ => none)

/-- The pipes created by a sequence of calls, in order. -/
def created (calls : List SysCall) : List PipeId :=
  calls.filterMap (fun c => match c with
    | .pipe p => some p
    | _ => none)

/-! ## Pipes of bounded capacity -/

/-- The function `read_from_pipe` on a pipe whose writer may still be running:
`held` is what the pipe holds when `read` is called for the count, `later`
what it holds when `read` is called for the values (what the first call left
and what the writer has added since).  Each call returns the bytes the pipe
holds, up to the number asked for, exactly as in `read_from_pipe`, which is
the case `later = held.drop 4` of a writer that has terminated. -/
def read_from_pipe_at {α β : Type} (R : ObjRep α β) (held later : List β) :
    Option (List α × Nat) :=
  if (held.take 4).length ≠ 4 then none
  else
    let n : Int := R.bytes_int (held.take 4)
    if n < 0 then none
    else if (later.take (n.toNat * 8)).length ≠ n.toNat * 8 then none
    else some (bytes_doubles R n.toNat (later.take (n.toNat * 8)), n.toNat)

/-- A pipe of `capacity` bytes can hold `held` when `taken` bytes of the
stream `written` have been read from it: `held` are the next bytes of the
stream, as far as the writer has got, and no more than `capacity` of them
(the kernel fixes the capacity; it is 65536 bytes for a pipe of Linux). -/
def pipe_holds {β : Type} (capacity : Nat) (written : List β) (taken : Nat) (held : List β) :
    Prop :=
  held.length ≤ capacity ∧ held = (written.drop taken).take held.length

instance {β : Type} [DecidableEq β] (capacity : Nat) (written : List β) (taken : Nat)
    (held : List β) : Decidable (pipe_holds capacity written taken held) := by
  unfold pipe_holds; infer_instance

/-! ## The white space that `fscanf` skips -/

/-- The white-space characters of C, those that `isspace` accepts: space, tab,
newline, vertical tab, form feed and carriage return. -/
def is_white_space (c : Char) : Prop :=
  c = ' ' ∨ c = '\t' ∨ c = '\n' ∨ c = '\x0b' ∨ c = '\x0c' ∨ c = '\r'

instance : DecidablePred is_white_space := fun c => by unfold is_white_space; infer_instance

/-- The first step of the conversion `%lf`: the white-space characters at the
head of the stream are skipped (C11 7.21.6.2, paragraph 8). -/
def skip_white_space : List Char → List Char
  | [] => []
  | c :: fp => if is_white_space c then skip_white_space fp else c :: fp

/-- The call `fscanf(fp, "%lf", value)` in its two steps: the white space at
the head of the stream is skipped, then `convert` converts the input item that
follows. -/
def scan_lf {α : Type} (convert : Scanf α) : Scanf α := fun fp => convert (skip_white_space fp)

/-- The stream begins with a decimal digit: it begins with one of the literals
that `scan_decimal` converts. -/
def begins_with_digit : List Char → Prop
  | [] => False
  | c :: _ => c.isDigit = true

instance : DecidablePred begins_with_digit := fun fp => by
  cases fp <;> unfold begins_with_digit <;> infer_instance

/-- The stream begins with a floating-point literal of C, in any of the forms
that `%lf` accepts (the subject sequence of `strtod`, C11 7.22.1.3): after an
optional sign, a digit (a hexadecimal literal begins with the digit `0`), or a
point and a digit, or `inf` or `nan` in any case. -/
def begins_with_literal (fp : List Char) : Bool :=
  let body :=
    match fp with
    | '+' :: rest => rest
    | '-' :: rest => rest
    | _ => fp
  match body with
  | [] => false
  | c :: rest =>
    c.isDigit
      || (c == '.' && (match rest with
                        | d :: _ => d.isDigit
                        | [] => false))
      || (body.take 3).map Char.toLower == ['i', 'n', 'f']
      || (body.take 3).map Char.toLower == ['n', 'a', 'n']

/-! ## Lemmas: the neuron threads -/

section Compute
variable {α : Type} [Zero α] [Add α] [Mul α]

theorem foldlM_reads (xs ws : List α) (l : List Nat) (acc : α)
    (h : ∀ j ∈ l, j < xs.length ∧ j < ws.length) :
    l.foldlM (fun sum j =>
      match xs[j]?, ws[j]? with
      | some x, some w => some (sum + x * w)
      | _, _ => none) acc
      = some (l.foldl (fun sum j => sum + xs.getD j 0 * ws.getD j 0) acc) := by
  induction l generalizing acc with
  | nil => rfl
  | cons j l ih =>
    have hj := h j (List.mem_cons_self _ _)
    have hx : xs[j]? = some (xs.getD j 0) := by
      rw [List.getD_eq_getElem?_getD, List.getElem?_eq_getElem hj.1]; rfl
    have hw : ws[j]? = some (ws.getD j 0) := by
      rw [List.getD_eq_getElem?_getD, List.getElem?_eq_getElem hj.2]; rfl
    simp only [List.foldlM_cons, List.foldl_cons, hx, hw]
    exact ih _ (fun k hk => h k (List.mem_cons_of_mem _ hk))

theorem weighted_sum_task_params (n w : Nat) (x W : List α) (i : Nat)
    (hx : x.length = w) (hW : W.length = n * w) (hi : i < n) :
    weighted_sum (task_params w x W i) = some (dot_row w x W i) := by
  unfold weighted_sum task_params dot_row
  simp only
  rw [foldlM_reads]
  · congr 1
    apply List.foldl_ext
    intro acc j hj
    simp [List.getD_eq_getElem?_getD, List.getElem?_drop]
  · intro j hj
    rw [List.mem_range] at hj
    refine ⟨by omega, ?_⟩
    rw [List.length_drop, hW]
    have : (i + 1) * w ≤ n * w := Nat.mul_le_mul_right w hi
    have : (i + 1) * w = i * w + w := by ring
    omega

omit [Zero α] [Add α] [Mul α] in
theorem read_results_map_some (l : List α) : read_results (l.map some) = some l := by
  induction l with
  | nil => rfl
  | cons a l ih => simp [read_results, ih]

theorem run_neuron_threads_range (n w : Nat) (x W : List α)
    (hx : x.length = w) (hW : W.length = n * w) (k : Nat) (hk : k ≤ n) :
    (List.range k).foldlM
      (fun results i => execute_neuron_task (task_params w x W i) results)
      (List.replicate n none)
      = some (((List.range k).map (fun i => some (dot_row w x W i)))
          ++ List.replicate (n - k) none) := by
  induction k with
  | zero => simp
  | succ k ih =>
    rw [List.range_succ, List.foldlM_append, ih (by omega)]
    simp only [Option.bind_eq_bind, Option.some_bind, List.foldlM_cons, List.foldlM_nil]
    unfold execute_neuron_task
    rw [weighted_sum_task_params n w x W k hx hW (by omega)]
    have hlen : (task_params w x W k).thread_id <
        (List.map (fun i => some (dot_row w x W i)) (List.range k)
          ++ List.replicate (n - k) none).length := by
      simp [task_params]; omega
    simp only [hlen, if_true]
    simp only [task_params, Option.bind_some, Option.some.injEq, Option.pure_def]
    have hnk : n - k = (n - (k + 1)) + 1 := by omega
    rw [hnk, List.replicate_succ, List.set_append_right _ _ (by simp)]
    simp

theorem launch_neuron_threads_eq (n w : Nat) (x W : List α)
    (hx : x.length = w) (hW : W.length = n * w) :
    launch_neuron_threads n w x W = some ((List.range n).map (dot_row w x W)) := by
  unfold launch_neuron_threads run_neuron_threads
  rw [run_neuron_threads_range n w x W hx hW n (le_refl n)]
  simp only [Nat.sub_self, List.replicate_zero, List.append_nil]
  have : List.map (fun i => some (dot_row w x W i)) (List.range n)
      = ((List.range n).map (dot_row w x W)).map some := by
    simp [List.map_map, Function.comp_def]
  rw [this, read_results_map_some]

end Compute

/-! ## Lemmas: tokens and skipping -/

section TokensLemmas
variable {σ α : Type}

theorem Tokens_append (parse : Tokenizer σ α) (a b : List α) (fp fp' : σ) :
    Tokens parse fp (a ++ b) fp' ↔ ∃ mid, Tokens parse fp a mid ∧ Tokens parse mid b fp' := by
  induction a generalizing fp with
  | nil =>
    constructor
    · intro h; exact ⟨fp, rfl, h⟩
    · rintro ⟨mid, h1, h2⟩
      simp only [Tokens] at h1
      subst h1; exact h2
  | cons t a ih =>
    simp only [List.cons_append, Tokens]
    constructor
    · rintro ⟨fp1, h1, h2⟩
      obtain ⟨mid, h3, h4⟩ := (ih fp1).1 h2
      exact ⟨mid, ⟨fp1, h1, h3⟩, h4⟩
    · rintro ⟨mid, ⟨fp1, h1, h3⟩, h4⟩
      exact ⟨fp1, h1, (ih fp1).2 ⟨mid, h3, h4⟩⟩

theorem Tokens_read_weights (parse : Tokenizer σ α) (ts : List α) (fp fp' : σ)
    (h : Tokens parse fp ts fp') : read_weights parse ts.length fp = some (ts, fp') := by
  induction ts generalizing fp with
  | nil => simp only [Tokens] at h; subst h; rfl
  | cons t ts ih =>
    obtain ⟨fp1, h1, h2⟩ := h
    simp only [List.length_cons, read_weights, h1, ih fp1 h2]

theorem Tokens_discard (parse : Tokenizer σ α) (ts : List α) (fp fp' : σ)
    (h : Tokens parse fp ts fp') : (discard parse)^[ts.length] fp = fp' := by
  induction ts generalizing fp with
  | nil => simp only [Tokens] at h; subst h; rfl
  | cons t ts ih =>
    obtain ⟨fp1, h1, h2⟩ := h
    simp only [List.length_cons, Function.iterate_succ, Function.comp_apply]
    have : discard parse fp = fp1 := by simp [discard, h1]
    rw [this]; exact ih fp1 h2

theorem Tokens_of_read_weights (parse : Tokenizer σ α) (ts : List α) (fp fp' : σ)
    (h : read_weights parse ts.length fp = some (ts, fp')) : Tokens parse fp ts fp' := by
  induction ts generalizing fp with
  | nil =>
    simp only [List.length_nil, read_weights, Option.some.injEq, Prod.mk.injEq, true_and] at h
    exact h.symm
  | cons t ts ih =>
    simp only [List.length_cons, read_weights] at h
    split at h
    · cases h
    · rename_i v fp1 hp
      split at h
      · cases h
      · rename_i ws fp2 hrec
        simp only [Option.some.injEq, Prod.mk.injEq, List.cons.injEq] at h
        obtain ⟨⟨hv, hws⟩, hfp⟩ := h
        subst hv hws hfp
        exact ⟨fp1, hp, ih fp1 hrec⟩

/-- Splitting a token sequence at `off` and `off + len`. -/
theorem Tokens_slice (parse : Tokenizer σ α) (ts : List α) (fp fp' : σ) (off len : Nat)
    (h : Tokens parse fp ts fp') (hlen : off + len ≤ ts.length) :
    ∃ mid mid', (discard parse)^[off] fp = mid
      ∧ read_weights parse len mid = some ((ts.drop off).take len, mid') := by
  have hsplit : ts = ts.take off ++ ((ts.drop off).take len ++ (ts.drop off).drop len) := by
    rw [List.take_append_drop, List.take_append_drop]
  rw [hsplit, Tokens_append] at h
  obtain ⟨mid, h1, h2⟩ := h
  rw [Tokens_append] at h2
  obtain ⟨mid', h3, _⟩ := h2
  refine ⟨mid, mid', ?_, ?_⟩
  · have := Tokens_discard parse _ _ _ h1
    rwa [List.length_take, Nat.min_eq_left (by omega)] at this
  · have := Tokens_read_weights parse _ _ _ h3
    rwa [List.length_take, List.length_drop, Nat.min_eq_left (by omega)] at this

/-- The weight loop fails when the source ends before its last token. -/
theorem read_weights_short (parse : Tokenizer σ α) (ts : List α) (fp fp' : σ) (n : Nat)
    (h : Tokens parse fp ts fp') (hend : (parse fp').1 = none) (hn : ts.length < n) :
    read_weights parse n fp = none := by
  induction ts generalizing fp n with
  | nil =>
    simp only [Tokens] at h; subst h
    obtain ⟨m, rfl⟩ : ∃ m, n = m + 1 := ⟨n - 1, by simp at hn; omega⟩
    rcases hp : parse fp' with ⟨r, s⟩
    rw [hp] at hend
    simp only at hend
    subst hend
    simp [read_weights, hp]
  | cons t ts ih =>
    obtain ⟨fp1, h1, h2⟩ := h
    obtain ⟨m, rfl⟩ : ∃ m, n = m + 1 := ⟨n - 1, by simp at hn; omega⟩
    simp only [read_weights, h1, ih fp1 m h2 (by simpa using hn)]

end TokensLemmas

section SkipLemmas
variable {σ : Type}

theorem skip_input_layer_eq (next : σ → σ) (N : Nat) (fp : σ) :
    skip_input_layer next N fp = next^[2 + 2 * N] fp := by
  unfold skip_input_layer INPUT_NEURONS
  rw [Nat.add_comm 2, Function.iterate_add_apply]
  rfl

theorem skip_layers_eq (next : σ → σ) (l N : Nat) (fp : σ) :
    skip_layers next l N fp = next^[l * (N * N)] fp := by
  unfold skip_layers
  rw [Nat.mul_comm l, Function.iterate_mul next (N * N) l]

theorem hidden_layer_skip_eq (next : σ → σ) (k N : Nat) (fp : σ) :
    hidden_layer_skip next k N fp = next^[2 + (2 * N + (k - 1) * (N * N))] fp := by
  unfold hidden_layer_skip
  rw [skip_layers_eq, skip_input_layer_eq, ← Function.iterate_add_apply]
  congr 1; omega

theorem output_layer_skip_eq (next : σ → σ) (N H : Nat) (fp : σ) :
    output_layer_skip next N H fp = next^[2 + (2 * N + H * (N * N))] fp := by
  unfold output_layer_skip
  rw [skip_layers_eq, skip_input_layer_eq, ← Function.iterate_add_apply]
  congr 1; omega

theorem second_input_layer_skip_eq (next : σ → σ) (N H : Nat) (fp : σ) :
    second_input_layer_skip next N H fp = next^[2 + (2 * N + (H + 1) * (N * N))] fp := by
  unfold second_input_layer_skip
  rw [skip_layers_eq, skip_input_layer_eq, ← Function.iterate_add_apply,
    ← Function.iterate_add_apply]
  congr 1; ring

theorem second_hidden_layer_skip_eq (next : σ → σ) (k N H : Nat) (fp : σ) :
    second_hidden_layer_skip next k N H fp
      = next^[2 + (2 * N + (H + 2) * (N * N) + (k - 1) * (N * N))] fp := by
  unfold second_hidden_layer_skip
  rw [skip_layers_eq, skip_layers_eq, skip_input_layer_eq, ← Function.iterate_add_apply,
    ← Function.iterate_add_apply, ← Function.iterate_add_apply, ← Function.iterate_add_apply]
  congr 1; ring

theorem second_output_layer_skip_eq (next : σ → σ) (N H : Nat) (fp : σ) :
    second_output_layer_skip next N H fp
      = next^[2 + (2 * N + (2 * H + 2) * (N * N))] fp := by
  unfold second_output_layer_skip
  rw [skip_layers_eq, skip_layers_eq, skip_input_layer_eq, ← Function.iterate_add_apply,
    ← Function.iterate_add_apply, ← Function.iterate_add_apply, ← Function.iterate_add_apply]
  congr 1; ring

theorem succ_iterate_zero (n : Nat) : Nat.succ^[n] 0 = n := by
  rw [Nat.succ_iterate]; simp

end SkipLemmas

/-! ## Lemmas: segments -/

theorem spec_segments_eq (H N : Nat) :
    spec_segments H N = (2 * N) :: List.replicate (2 * H + 3) (N * N) := by
  unfold spec_segments
  simp only [List.singleton_append, List.cons_append, List.nil_append, List.append_assoc,
    List.cons.injEq, true_and]
  apply List.eq_replicate_iff.2
  constructor
  · simp; omega
  · intro b hb
    simp only [List.mem_append, List.mem_cons, List.mem_replicate, List.mem_singleton] at hb
    rcases hb with hb | hb | hb | hb | hb
    · exact hb.2
    · exact hb
    · exact hb
    · exact hb.2
    · simpa using hb

theorem spec_offset_succ (H N i : Nat) (hi : i ≤ 2 * H + 3) :
    spec_offset H N (i + 1) = 2 * N + i * (N * N) := by
  unfold spec_offset
  rw [spec_segments_eq, List.take_succ_cons, List.sum_cons, List.take_replicate,
    List.sum_replicate, Nat.min_eq_left hi]
  rfl

theorem calls_hidden (k N : Nat) :
    calls (fun next => hidden_layer_skip next k N) = 2 + (2 * N + (k - 1) * (N * N)) := by
  unfold calls; simp only [hidden_layer_skip_eq, succ_iterate_zero]

theorem calls_output (N H : Nat) :
    calls (fun next => output_layer_skip next N H) = 2 + (2 * N + H * (N * N)) := by
  unfold calls; simp only [output_layer_skip_eq, succ_iterate_zero]

theorem calls_second_input (N H : Nat) :
    calls (fun next => second_input_layer_skip next N H) = 2 + (2 * N + (H + 1) * (N * N)) := by
  unfold calls; simp only [second_input_layer_skip_eq, succ_iterate_zero]

theorem calls_second_hidden (k N H : Nat) :
    calls (fun next => second_hidden_layer_skip next k N H)
      = 2 + (2 * N + (H + 2) * (N * N) + (k - 1) * (N * N)) := by
  unfold calls; simp only [second_hidden_layer_skip_eq, succ_iterate_zero]

theorem calls_second_output (N H : Nat) :
    calls (fun next => second_output_layer_skip next N H)
      = 2 + (2 * N + (2 * H + 2) * (N * N)) := by
  unfold calls; simp only [second_output_layer_skip_eq, succ_iterate_zero]

/-- The segments of the stages in closed form. -/
theorem stage_segments_eq (H N : Nat) :
    stage_segments H N =
      [(0, 2 * N)]
        ++ (List.range H).map (fun i => (2 * N + i * (N * N), N * N))
        ++ [(2 * N + H * (N * N), N * N)]
        ++ [(2 * N + (H + 1) * (N * N), N * N)]
        ++ (List.range H).map (fun i => (2 * N + (H + 2) * (N * N) + i * (N * N), N * N))
        ++ [(2 * N + (2 * H + 2) * (N * N), N * N)] := by
  unfold stage_segments
  simp only [calls_hidden, calls_output, calls_second_input, calls_second_hidden,
    calls_second_output, Nat.add_sub_cancel_left, Nat.add_sub_cancel, INPUT_NEURONS]

theorem stage_segments_length (H N : Nat) : (stage_segments H N).length = 2 * (H + 2) := by
  rw [stage_segments_eq]; simp; omega

/-- The segment of the stage at position `i` of the fork order. -/
theorem stage_segments_get (H N i : Nat) (hi : i < 2 * (H + 2)) :
    (stage_segments H N)[i]? =
      some (if i = 0 then (0, 2 * N) else (2 * N + (i - 1) * (N * N), N * N)) := by
  rw [stage_segments_eq]
  by_cases h0 : i = 0
  · subst h0; simp
  simp only [h0, if_false]
  have e1 : ([(0, 2 * N)] ++ (List.range H).map (fun i => (2 * N + i * (N * N), N * N))).length
      = H + 1 := by simp
  by_cases h1 : i ≤ H
  · rw [List.append_assoc, List.append_assoc, List.append_assoc,
      List.getElem?_append_left (by rw [e1]; omega)]
    rw [List.getElem?_append_right (by simp; omega)]
    simp only [List.length_singleton]
    rw [List.getElem?_map, List.getElem?_range (by omega)]
    rfl
  by_cases h2 : i = H + 1
  · subst h2
    rw [List.append_assoc, List.append_assoc, List.append_assoc,
      List.getElem?_append_right (by rw [e1])]
    simp [e1]
  by_cases h3 : i = H + 2
  · subst h3
    rw [List.append_assoc, List.append_assoc, List.append_assoc,
      List.getElem?_append_right (by rw [e1]; omega)]
    simp [e1]
  by_cases h4 : i = 2 * H + 3
  · subst h4
    rw [List.getElem?_append_right (by simp; omega)]
    have : 2 * H + 3 - ([(0, 2 * N)] ++ List.map (fun i => (2 * N + i * (N * N), N * N)) (List.range H) ++
              [(2 * N + H * (N * N), N * N)] ++
            [(2 * N + (H + 1) * (N * N), N * N)] ++
          List.map (fun i => (2 * N + (H + 2) * (N * N) + i * (N * N), N * N)) (List.range H)).length = 0 := by
      simp; omega
    rw [this]; simp
  · rw [List.getElem?_append_left (by simp; omega),
      List.getElem?_append_right (by simp; omega)]
    simp only [List.length_append, List.length_singleton, List.length_map, List.length_range,
      List.length_cons, List.length_nil]
    rw [List.getElem?_map, List.getElem?_range (by omega)]
    simp only [Option.map_some', Option.some.injEq, Prod.mk.injEq, and_true]
    have : i - 1 = (H + 2) + (i - (0 + 1 + H + 1 + 1)) := by omega
    rw [this]; ring

theorem foldr_max_eq (l : List Nat) (m : Nat) (hm : m ∈ l) (hle : ∀ x ∈ l, x ≤ m) :
    l.foldr max 0 = m := by
  apply Nat.le_antisymm
  · clear hm
    induction l with
    | nil => simp
    | cons a l ih =>
      simp only [List.foldr_cons]
      exact Nat.max_le.2 ⟨hle a (List.mem_cons_self _ _),
        ih (fun x hx => hle x (List.mem_cons_of_mem _ hx))⟩
  · clear hle
    induction l with
    | nil => cases hm
    | cons a l ih =>
      simp only [List.foldr_cons]
      rcases List.mem_cons.1 hm with h | h
      · subst h; exact Nat.le_max_left _ _
      · exact Nat.le_trans (ih h) (Nat.le_max_right _ _)

theorem total_requested_eq (H N : Nat) :
    total_requested H N = 2 * N + (2 * H + 3) * (N * N) := by
  unfold total_requested
  apply foldr_max_eq
  · rw [List.mem_map]
    refine ⟨(2 * N + (2 * H + 2) * (N * N), N * N), ?_, by simp only; ring⟩
    rw [stage_segments_eq]; simp
  · intro x hx
    rw [List.mem_map] at hx
    obtain ⟨seg, hseg, rfl⟩ := hx
    obtain ⟨i, hget⟩ := List.mem_iff_getElem?.1 hseg
    have hi : i < (stage_segments H N).length := (List.getElem?_eq_some.1 hget).1
    rw [stage_segments_length] at hi
    rw [stage_segments_get H N i hi] at hget
    injection hget with hget
    subst hget
    by_cases h0 : i = 0
    · simp only [h0, if_true]
      have : 0 ≤ (2 * H + 3) * (N * N) := Nat.zero_le _
      omega
    · simp only [h0, if_false]
      have h1 : (i - 1) * (N * N) + N * N = i * (N * N) := by
        have : i = (i - 1) + 1 := by omega
        conv_rhs => rw [this, Nat.add_mul, Nat.one_mul]
      have h2 : i * (N * N) ≤ (2 * H + 3) * (N * N) := Nat.mul_le_mul_right _ (by omega)
      omega

/-! ## Lemmas: pipes -/

section PipeLemmas
variable {α β : Type}

theorem length_flatMap_double_bytes (R : ObjRep α β) (data : List α) :
    (data.flatMap R.double_bytes).length = data.length * 8 := by
  induction data with
  | nil => rfl
  | cons a data ih =>
    rw [List.flatMap_cons, List.length_append, ih, R.double_bytes_length, List.length_cons]
    omega

theorem frame_length (R : ObjRep α β) (data : List α) :
    (frame R data).length = 4 + 8 * data.length := by
  unfold frame
  rw [List.length_append, R.int_bytes_length, length_flatMap_double_bytes]
  omega

theorem write_to_pipe_self (R : ObjRep α β) (data : List α) :
    write_to_pipe R data data.length = some (frame R data) := by
  simp [write_to_pipe, doubles_bytes, frame]

theorem write_to_pipe_length (R : ObjRep α β) (data : List α) (n : Nat) (h : data.length = n) :
    write_to_pipe R data n = some (frame R data) := by
  subst h; exact write_to_pipe_self R data

theorem bytes_doubles_flatMap (R : ObjRep α β) (data : List α) (rest : List β) :
    bytes_doubles R data.length (data.flatMap R.double_bytes ++ rest) = data := by
  induction data with
  | nil => rfl
  | cons a data ih =>
    unfold bytes_doubles at ih ⊢
    rw [List.length_cons, List.range_succ_eq_map, List.map_cons, List.map_map]
    congr 1
    · simp only [Nat.mul_zero, List.drop_zero, List.flatMap_cons, List.append_assoc]
      rw [List.take_append_of_le_length (by rw [R.double_bytes_length]),
        List.take_of_length_le (by rw [R.double_bytes_length])]
      exact R.bytes_double_bytes a
    · conv_rhs => rw [← ih]
      apply List.map_congr_left
      intro i _
      simp only [Function.comp_apply, List.flatMap_cons, List.append_assoc]
      have h8 : 8 * (i + 1) = (R.double_bytes a).length + 8 * i := by
        rw [R.double_bytes_length]; omega
      rw [Nat.succ_eq_add_one, h8, List.drop_append]

theorem read_from_pipe_frame (R : ObjRep α β) (data : List α) (rest : List β)
    (hlen : data.length ≤ 2147483647) :
    read_from_pipe R (frame R data ++ rest) = (some (data, data.length), rest) := by
  have h4 : (R.int_bytes (data.length : Int)).length = 4 := R.int_bytes_length _
  have htake : (frame R data ++ rest).take 4 = R.int_bytes (data.length : Int) := by
    unfold frame
    rw [List.append_assoc, List.take_append_of_le_length (by omega),
      List.take_of_length_le (by omega)]
  have hdrop : (frame R data ++ rest).drop 4 = data.flatMap R.double_bytes ++ rest := by
    unfold frame
    rw [List.append_assoc, ← h4, List.drop_left]
  have hint : R.bytes_int (R.int_bytes (data.length : Int)) = (data.length : Int) :=
    R.bytes_int_bytes _ (by omega) (by omega)
  have hbody : (data.flatMap R.double_bytes ++ rest).take (data.length * 8)
      = data.flatMap R.double_bytes := by
    rw [← length_flatMap_double_bytes R data, List.take_left]
  have hrest : (data.flatMap R.double_bytes ++ rest).drop (data.length * 8) = rest := by
    rw [← length_flatMap_double_bytes R data, List.drop_left]
  unfold read_from_pipe
  simp only [htake, hdrop, hint, h4, ne_eq, not_true_eq_false, if_false, Int.toNat_ofNat,
    hbody, hrest, length_flatMap_double_bytes]
  have hneg : ¬ ((data.length : Int) < 0) := by omega
  simp only [hneg, if_false]
  have := bytes_doubles_flatMap R data []
  rw [List.append_nil] at this
  rw [this]

/-- A pipe whose writer sent nothing gives a failed read. -/
theorem read_from_pipe_nil (R : ObjRep α β) : (read_from_pipe R ([] : List β)).1 = none := by
  simp [read_from_pipe]

/-- Once the writer has terminated nothing is added between the two calls, and
`read_from_pipe_at` is `read_from_pipe`. -/
theorem read_from_pipe_at_terminated (R : ObjRep α β) (pipe : List β) :
    read_from_pipe_at R pipe (pipe.drop 4) = (read_from_pipe R pipe).1 := by
  unfold read_from_pipe_at read_from_pipe
  simp only []
  split_ifs <;> rfl

/-- What `read_from_pipe` makes of the frame of `d` while it passes through a
pipe: it succeeds, with `d`, exactly when the pipe holds the 4 bytes of the
count at the first `read` and all the `8 * d.length` bytes of the values at
the second. -/
theorem read_from_pipe_at_frame (R : ObjRep α β) (capacity : Nat) (d : List α)
    (held later : List β) (hint : d.length ≤ 2147483647)
    (hh : pipe_holds capacity (frame R d) 0 held)
    (hl : pipe_holds capacity (frame R d) 4 later) :
    read_from_pipe_at R held later
      = if 4 ≤ held.length ∧ 8 * d.length ≤ later.length then some (d, d.length) else none := by
  have h4 : (R.int_bytes (d.length : Int)).length = 4 := R.int_bytes_length _
  have hb : (d.flatMap R.double_bytes).length = d.length * 8 := length_flatMap_double_bytes R d
  obtain ⟨_, hh2⟩ := hh
  obtain ⟨_, hl2⟩ := hl
  rw [List.drop_zero] at hh2
  have hdrop : (frame R d).drop 4 = d.flatMap R.double_bytes := by
    unfold frame
    rw [← h4, List.drop_left]
  rw [hdrop] at hl2
  unfold read_from_pipe_at
  by_cases c1 : 4 ≤ held.length
  · have htake : held.take 4 = R.int_bytes (d.length : Int) := by
      rw [hh2, List.take_take, Nat.min_eq_left c1]
      unfold frame
      rw [List.take_append_of_le_length (by omega), List.take_of_length_le (by omega)]
    have hn : R.bytes_int (R.int_bytes (d.length : Int)) = (d.length : Int) :=
      R.bytes_int_bytes _ (by omega) (by omega)
    rw [htake, hn, if_neg (by rw [h4]; exact fun h => h rfl)]
    simp only [Int.toNat_ofNat]
    rw [if_neg (by omega)]
    by_cases c2 : 8 * d.length ≤ later.length
    · have hlater : later = d.flatMap R.double_bytes := by
        rw [hl2, List.take_of_length_le (by rw [hb]; omega)]
      have ht : later.take (d.length * 8) = d.flatMap R.double_bytes := by
        rw [hlater, List.take_of_length_le (by rw [hb])]
      have := bytes_doubles_flatMap R d []
      rw [List.append_nil] at this
      rw [ht, if_neg (by rw [hb]; exact fun h => h rfl), this, if_pos ⟨c1, c2⟩]
    · have hshort : (later.take (d.length * 8)).length ≠ d.length * 8 := by
        rw [List.length_take]; omega
      rw [if_pos hshort, if_neg (fun h => c2 h.2)]
  · have hlen4 : (held.take 4).length ≠ 4 := by rw [List.length_take]; omega
    rw [if_pos hlen4, if_neg (fun h => c1 h.1)]

end PipeLemmas

/-! ## Lemmas: the stages -/

section StageLemmas
variable {α β σ : Type} [Zero α] [Add α] [Mul α]

omit [Zero α] [Add α] [Mul α] in
theorem read_weights_length (parse : Tokenizer σ α) (n : Nat) (fp fp' : σ) (ws : List α)
    (h : read_weights parse n fp = some (ws, fp')) : ws.length = n := by
  induction n generalizing fp fp' ws with
  | zero => simp only [read_weights, Option.some.injEq, Prod.mk.injEq] at h; rw [← h.1]; rfl
  | succ n ih =>
    simp only [read_weights] at h
    split at h
    · cases h
    · split at h
      · cases h
      · rename_i hrec
        simp only [Option.some.injEq, Prod.mk.injEq] at h
        rw [← h.1, List.length_cons, ih _ _ _ hrec]

theorem layer_output_length (N : Nat) (x ws : List α) : (layer_output N x ws).length = N := by
  simp [layer_output]

theorem launch_neuron_threads_layer (N : Nat) (x ws : List α) (h : ws.length = x.length * N) :
    launch_neuron_threads N x.length x ws = some (layer_output N x ws) :=
  launch_neuron_threads_eq N x.length x ws rfl (by rw [h, Nat.mul_comm])

theorem compute_and_send_ok (parse : Tokenizer σ α) (R : ObjRep α β) (N : Nat) (x ws : List α)
    (fp fp' : σ) (record : List α → List (ReportLine α))
    (hr : read_weights parse (x.length * N) fp = some (ws, fp')) :
    compute_and_send parse R N x.length x fp record =
      .ok { input_fp := fp', input_data := x, weights := ws, output := layer_output N x ws,
            backward_data := [], report := record (layer_output N x ws),
            sent := frame R (layer_output N x ws) } := by
  unfold compute_and_send
  simp only [hr]
  rw [launch_neuron_threads_layer N x ws (read_weights_length parse _ _ _ _ hr)]
  simp only
  rw [write_to_pipe_length R _ N (layer_output_length N x ws)]

/-- A stage that skips `2 + off` tokens, reads the frame of `x` and then runs
the common tail. -/
theorem reader_stage_ok (parse : Tokenizer σ α) (R : ObjRep α β) (N : Nat) (x W : List α)
    (x0 x1 : α) (file fpe : σ) (off : Nat) (record : List α → List (ReportLine α))
    (hT : Tokens parse file (x0 :: x1 :: W) fpe) (hoff : off + x.length * N ≤ W.length)
    (hx : x.length ≤ 2147483647) :
    ∃ fp', (match read_from_pipe R (frame R x) with
      | (none, _) => (.error .pipe_read : Except Fatal (StageExit α β σ))
      | (some (input_data, input_count), _) =>
        compute_and_send parse R N input_count input_data
          ((discard parse)^[2 + off] file) record) =
      .ok { input_fp := fp', input_data := x, weights := slice W off (x.length * N),
            output := layer_output N x (slice W off (x.length * N)),
            backward_data := [],
            report := record (layer_output N x (slice W off (x.length * N))),
            sent := frame R (layer_output N x (slice W off (x.length * N))) } := by
  obtain ⟨mid, mid', h1, h2⟩ := Tokens_slice parse (x0 :: x1 :: W) file fpe (2 + off)
    (x.length * N) hT (by simp only [List.length_cons]; omega)
  have hs : ((x0 :: x1 :: W).drop (2 + off)).take (x.length * N) = slice W off (x.length * N) := by
    unfold slice
    rw [Nat.add_comm 2 off]
    rfl
  rw [hs] at h2
  refine ⟨mid', ?_⟩
  have hpipe := read_from_pipe_frame R x [] hx
  rw [List.append_nil] at hpipe
  rw [hpipe, h1]
  exact compute_and_send_ok parse R N x _ mid mid' record h2

end StageLemmas

section StageSpecs
variable {α β σ : Type} [Zero α] [Add α] [Mul α]

theorem StageSpec.pipe_of {R : ObjRep α β} {N : Nat} {x ws : List α}
    {r : Except Fatal (StageExit α β σ)} (h : StageSpec R N x ws r) :
    Pipeline.pipe_of r = frame R (layer_output N x ws) := by
  obtain ⟨s, rfl, _, _, ho, hs⟩ := h
  simp only [Pipeline.pipe_of, hs, ho]

theorem input_layer_process_spec (parse : Tokenizer σ α) (R : ObjRep α β) (N : Nat)
    (W : List α) (x0 x1 : α) (file fpe : σ)
    (hT : Tokens parse file (x0 :: x1 :: W) fpe) (hW : 2 * N ≤ W.length) :
    StageSpec R N [x0, x1] (slice W 0 (2 * N)) (input_layer_process parse R N file) := by
  obtain ⟨fp1, h1, fp2, h2, h3⟩ := hT
  have hsplit : W = W.take (2 * N) ++ W.drop (2 * N) := (List.take_append_drop _ _).symm
  rw [hsplit, Tokens_append] at h3
  obtain ⟨mid, h4, _⟩ := h3
  have hr := Tokens_read_weights parse _ _ _ h4
  rw [List.length_take, Nat.min_eq_left hW] at hr
  unfold input_layer_process
  simp only [h1, h2]
  have := compute_and_send_ok parse R N [x0, x1] (W.take (2 * N)) fp2 mid (input_record x0 x1) hr
  exact ⟨_, this, rfl, by simp [slice], by simp [slice], rfl⟩

theorem hidden_layer_process_spec (parse : Tokenizer σ α) (R : ObjRep α β) (k N : Nat)
    (x W : List α) (x0 x1 : α) (file fpe : σ)
    (hT : Tokens parse file (x0 :: x1 :: W) fpe)
    (hW : 2 * N + (k - 1) * (N * N) + x.length * N ≤ W.length) (hx : x.length ≤ 2147483647) :
    StageSpec R N x (slice W (2 * N + (k - 1) * (N * N)) (x.length * N))
      (hidden_layer_process parse R k N (frame R x) file) := by
  unfold hidden_layer_process
  simp only [hidden_layer_skip_eq]
  obtain ⟨fp', h⟩ := reader_stage_ok parse R N x W x0 x1 file fpe _ (hidden_record k) hT hW hx
  exact ⟨_, h, rfl, rfl, rfl, rfl⟩

theorem second_input_layer_process_spec (parse : Tokenizer σ α) (R : ObjRep α β) (N H : Nat)
    (x W : List α) (x0 x1 : α) (file fpe : σ)
    (hT : Tokens parse file (x0 :: x1 :: W) fpe)
    (hW : 2 * N + (H + 1) * (N * N) + x.length * N ≤ W.length) (hx : x.length ≤ 2147483647) :
    StageSpec R N x (slice W (2 * N + (H + 1) * (N * N)) (x.length * N))
      (second_input_layer_process parse R N (frame R x) file H) := by
  unfold second_input_layer_process
  simp only [second_input_layer_skip_eq]
  obtain ⟨fp', h⟩ := reader_stage_ok parse R N x W x0 x1 file fpe _ second_input_record hT hW hx
  exact ⟨_, h, rfl, rfl, rfl, rfl⟩

theorem second_hidden_layer_process_spec (parse : Tokenizer σ α) (R : ObjRep α β) (k N H : Nat)
    (x W : List α) (x0 x1 : α) (file fpe : σ)
    (hT : Tokens parse file (x0 :: x1 :: W) fpe)
    (hW : 2 * N + (H + 2) * (N * N) + (k - 1) * (N * N) + x.length * N ≤ W.length)
    (hx : x.length ≤ 2147483647) :
    StageSpec R N x (slice W (2 * N + (H + 2) * (N * N) + (k - 1) * (N * N)) (x.length * N))
      (second_hidden_layer_process parse R k N (frame R x) file H) := by
  unfold second_hidden_layer_process
  simp only [second_hidden_layer_skip_eq]
  obtain ⟨fp', h⟩ := reader_stage_ok parse R N x W x0 x1 file fpe _ (second_hidden_record k) hT hW hx
  exact ⟨_, h, rfl, rfl, rfl, rfl⟩

omit [Zero α] [Add α] [Mul α] in
/-- The weight loop of a stage that has skipped `2 + off` tokens. -/
theorem read_after_skip (parse : Tokenizer σ α) (W : List α) (x0 x1 : α) (file fpe : σ)
    (off len : Nat) (hT : Tokens parse file (x0 :: x1 :: W) fpe) (hW : off + len ≤ W.length) :
    ∃ fp', read_weights parse len ((discard parse)^[2 + off] file) = some (slice W off len, fp') := by
  obtain ⟨mid, mid', h1, h2⟩ := Tokens_slice parse (x0 :: x1 :: W) file fpe (2 + off) len hT
    (by simp only [List.length_cons]; omega)
  have hs : ((x0 :: x1 :: W).drop (2 + off)).take len = slice W off len := by
    unfold slice
    rw [Nat.add_comm 2 off]
    rfl
  rw [hs] at h2
  exact ⟨mid', by rw [h1]; exact h2⟩

omit [Zero α] [Add α] [Mul α] in
/-- The weight loop of a stage that has skipped `2 + off` tokens of a source
that ends before token `off + len`. -/
theorem read_after_skip_short (parse : Tokenizer σ α) (W : List α) (x0 x1 : α) (file fpe : σ)
    (off len : Nat) (hT : Tokens parse file (x0 :: x1 :: W) fpe) (hend : (parse fpe).1 = none)
    (hoff : off ≤ W.length) (hW : W.length < off + len) :
    read_weights parse len ((discard parse)^[2 + off] file) = none := by
  have hsplit : x0 :: x1 :: W = (x0 :: x1 :: W).take (2 + off) ++ (x0 :: x1 :: W).drop (2 + off) :=
    (List.take_append_drop _ _).symm
  rw [hsplit, Tokens_append] at hT
  obtain ⟨mid, h1, h2⟩ := hT
  have hd := Tokens_discard parse _ _ _ h1
  rw [List.length_take, Nat.min_eq_left (by simp only [List.length_cons]; omega)] at hd
  rw [hd]
  apply read_weights_short parse _ mid fpe len h2 hend
  rw [List.length_drop]
  simp only [List.length_cons]
  omega

theorem fork_hidden_layers_spec (R : ObjRep α β) (N : Nat) (W : List α) (base : Nat)
    (stage : Nat → List β → Except Fatal (StageExit α β σ)) (count : Nat) :
    ∀ (i : Nat) (x : List α), x.length = N →
    (∀ k y, i < k → k ≤ i + count → y.length = N →
      StageSpec R N y (slice W (base + (k - 1) * (N * N)) (N * N)) (stage k (frame R y))) →
    (fork_hidden_layers stage i count (frame R x)).2 = frame R (hidden_chain W N base i count x)
    ∧ (fork_hidden_layers stage i count (frame R x)).1.length = count
    ∧ ∀ j, j < count → ∃ r, (fork_hidden_layers stage i count (frame R x)).1[j]? = some r
        ∧ StageSpec R N (hidden_chain W N base i j x)
            (slice W (base + (i + j) * (N * N)) (N * N)) r := by
  induction count with
  | zero =>
    intro i x _ _
    exact ⟨rfl, rfl, fun j hj => absurd hj (Nat.not_lt_zero j)⟩
  | succ count ih =>
    intro i x hx hstage
    have h0 := hstage (i + 1) x (by omega) (by omega) hx
    rw [Nat.add_sub_cancel] at h0
    have hp := h0.pipe_of
    obtain ⟨ih1, ih2, ih3⟩ := ih (i + 1) (layer_output N x (slice W (base + i * (N * N)) (N * N)))
      (layer_output_length _ _ _)
      (fun k y hk1 hk2 hy => hstage k y (by omega) (by omega) hy)
    simp only [fork_hidden_layers, hp, hidden_chain]
    refine ⟨ih1, by rw [List.length_cons, ih2], ?_⟩
    intro j hj
    cases j with
    | zero => exact ⟨stage (i + 1) (frame R x), by simp, by simpa [hidden_chain] using h0⟩
    | succ j =>
      obtain ⟨r, hr1, hr2⟩ := ih3 j (by omega)
      refine ⟨r, by simpa using hr1, ?_⟩
      have e : i + 1 + j = i + (j + 1) := by omega
      rw [e] at hr2
      simpa [hidden_chain] using hr2

end StageSpecs

section RunLemmas
variable {α β σ : Type} [Zero α] [Add α] [Mul α] [Sub α] [Div α] [OfScientific α]

theorem output_layer_process_ok (parse : Tokenizer σ α) (R : ObjRep α β) (N H : Nat)
    (x W : List α) (x0 x1 : α) (file fpe : σ)
    (hT : Tokens parse file (x0 :: x1 :: W) fpe)
    (hW : 2 * N + H * (N * N) + x.length * N ≤ W.length) (hx : x.length ≤ 2147483647) :
    ∃ fp', output_layer_process parse R N (frame R x) file H = .ok
      { input_fp := fp', input_data := x,
        weights := slice W (2 * N + H * (N * N)) (x.length * N),
        output := layer_output N x (slice W (2 * N + H * (N * N)) (x.length * N)),
        backward_data := (layer_output N x (slice W (2 * N + H * (N * N)) (x.length * N))).map fx1,
        report := output_record (layer_output N x (slice W (2 * N + H * (N * N)) (x.length * N))),
        sent := frame R
          ((layer_output N x (slice W (2 * N + H * (N * N)) (x.length * N))).map fx1) } := by
  obtain ⟨fp', hr⟩ := read_after_skip parse W x0 x1 file fpe _ _ hT hW
  refine ⟨fp', ?_⟩
  have hpipe := read_from_pipe_frame R x [] hx
  rw [List.append_nil] at hpipe
  unfold output_layer_process
  simp only [output_layer_skip_eq, hpipe, hr]
  rw [launch_neuron_threads_layer N x _ (read_weights_length parse _ _ _ _ hr)]
  simp only
  rw [write_to_pipe_length R _ N (by rw [List.length_map, layer_output_length])]

omit [Sub α] [Div α] [OfScientific α] in
theorem second_output_layer_process_ok (parse : Tokenizer σ α) (R : ObjRep α β) (N H : Nat)
    (x W : List α) (x0 x1 : α) (file fpe : σ)
    (hT : Tokens parse file (x0 :: x1 :: W) fpe)
    (hW : 2 * N + (2 * H + 2) * (N * N) + x.length * N ≤ W.length)
    (hx : x.length ≤ 2147483647) :
    ∃ fp', second_output_layer_process parse R N (frame R x) file H = .ok
      { input_fp := fp', input_data := x,
        weights := slice W (2 * N + (2 * H + 2) * (N * N)) (x.length * N),
        output := layer_output N x (slice W (2 * N + (2 * H + 2) * (N * N)) (x.length * N)),
        backward_data := [],
        report := second_output_record
          (layer_output N x (slice W (2 * N + (2 * H + 2) * (N * N)) (x.length * N))),
        sent := [] } := by
  obtain ⟨fp', hr⟩ := read_after_skip parse W x0 x1 file fpe _ _ hT hW
  refine ⟨fp', ?_⟩
  have hpipe := read_from_pipe_frame R x [] hx
  rw [List.append_nil] at hpipe
  unfold second_output_layer_process
  simp only [second_output_layer_skip_eq, hpipe, hr]
  rw [launch_neuron_threads_layer N x _ (read_weights_length parse _ _ _ _ hr)]

omit [Sub α] [Div α] [OfScientific α] in
theorem second_output_layer_process_short (parse : Tokenizer σ α) (R : ObjRep α β) (N H : Nat)
    (x W : List α) (x0 x1 : α) (file fpe : σ)
    (hT : Tokens parse file (x0 :: x1 :: W) fpe) (hend : (parse fpe).1 = none)
    (hoff : 2 * N + (2 * H + 2) * (N * N) ≤ W.length)
    (hW : W.length < 2 * N + (2 * H + 2) * (N * N) + x.length * N)
    (hx : x.length ≤ 2147483647) :
    second_output_layer_process parse R N (frame R x) file H = .error .insufficient_weights := by
  have hr := read_after_skip_short parse W x0 x1 file fpe _ _ hT hend hoff hW
  have hpipe := read_from_pipe_frame R x [] hx
  rw [List.append_nil] at hpipe
  unfold second_output_layer_process
  simp only [second_output_layer_skip_eq, hpipe, hr]

omit [Zero α] [Add α] [Mul α] [Sub α] [Div α] [OfScientific α] in
theorem mul_le_of_le (k H M : Nat) (h : 1 ≤ k) (hk : k ≤ H) : (k - 1) * M + M ≤ H * M := by
  have : (k - 1) * M + M = k * M := by
    have hk' : k = (k - 1) + 1 := by omega
    conv_rhs => rw [hk', Nat.add_mul, Nat.one_mul]
  rw [this]
  exact Nat.mul_le_mul_right M hk

omit [Sub α] [Div α] [OfScientific α] in
theorem hidden_chain_length (W : List α) (N base count : Nat) :
    ∀ (i : Nat) (x : List α), x.length = N → (hidden_chain W N base i count x).length = N := by
  induction count with
  | zero => intro i x hx; exact hx
  | succ count ih =>
    intro i x _
    simp only [hidden_chain]
    exact ih _ _ (layer_output_length _ _ _)

/-- The first pass on a source that holds the tokens of the first pass. -/
theorem pass1_spec (parse : Tokenizer σ α) (R : ObjRep α β) (H N : Nat) (W : List α)
    (x0 x1 : α) (file fpe : σ) (hT : Tokens parse file (x0 :: x1 :: W) fpe)
    (hN : N ≤ 2147483647) (hW : 2 * N + (H + 1) * (N * N) ≤ W.length) :
    StageSpec R N [x0, x1] (slice W 0 (2 * N)) (run_passes parse R file H N).1.input
    ∧ (run_passes parse R file H N).1.hidden.length = H
    ∧ (∀ j, j < H → ∃ r, (run_passes parse R file H N).1.hidden[j]? = some r
        ∧ StageSpec R N (hidden_chain W N (2 * N) 0 j (pass1_input_out W N x0 x1))
            (slice W (2 * N + j * (N * N)) (N * N)) r)
    ∧ ∃ fp', (run_passes parse R file H N).1.output = .ok
        { input_fp := fp', input_data := pass1_hidden_out W H N x0 x1,
          weights := slice W (2 * N + H * (N * N)) (N * N),
          output := pass1_out W H N x0 x1,
          backward_data := (pass1_out W H N x0 x1).map fx1,
          report := output_record (pass1_out W H N x0 x1),
          sent := frame R ((pass1_out W H N x0 x1).map fx1) } := by
  have hHN : H * (N * N) + N * N = (H + 1) * (N * N) := by ring
  have h1 := input_layer_process_spec parse R N W x0 x1 file fpe hT (by omega) (β := β)
  have hp1 : pipe_of (input_layer_process parse R N file) = frame R (pass1_input_out W N x0 x1) :=
    h1.pipe_of
  have hlen1 : (pass1_input_out W N x0 x1).length = N := layer_output_length _ _ _
  obtain ⟨c1, c2, c3⟩ := fork_hidden_layers_spec R N W (2 * N)
    (fun layer_num pipe => hidden_layer_process parse R layer_num N pipe file) H 0
    (pass1_input_out W N x0 x1) hlen1
    (fun k y hk1 hk2 hy => by
      have := hidden_layer_process_spec parse R k N y W x0 x1 file fpe hT
        (by rw [hy]; have := mul_le_of_le k H (N * N) hk1 (by omega); omega) (by omega) (β := β)
      rwa [hy] at this)
  have hlenH : (pass1_hidden_out W H N x0 x1).length = N :=
    hidden_chain_length W N (2 * N) H 0 _ hlen1
  obtain ⟨fp', ho⟩ := output_layer_process_ok parse R N H (pass1_hidden_out W H N x0 x1) W x0 x1
    file fpe hT (by rw [hlenH]; omega) (by omega)
  rw [hlenH] at ho
  refine ⟨h1, ?_, ?_, fp', ?_⟩
  · simpa only [run_passes, hp1] using c2
  · intro j hj
    obtain ⟨r, hr1, hr2⟩ := c3 j hj
    refine ⟨r, ?_, by simpa using hr2⟩
    simpa only [run_passes, hp1] using hr1
  · simp only [run_passes, hp1, c1]
    exact ho

/-- What the second-pass input stage finds in the backward pipe. -/
theorem pipe_of_pass1_output (parse : Tokenizer σ α) (R : ObjRep α β) (H N : Nat) (W : List α)
    (x0 x1 : α) (file fpe : σ) (hT : Tokens parse file (x0 :: x1 :: W) fpe)
    (hN : N ≤ 2147483647) (hW : 2 * N + (H + 1) * (N * N) ≤ W.length) :
    pipe_of (run_passes parse R file H N).1.output = frame R ((pass1_out W H N x0 x1).map fx1) := by
  obtain ⟨_, _, _, fp', ho⟩ := pass1_spec parse R H N W x0 x1 file fpe hT hN hW
  rw [ho]; rfl

/-- The second pass, up to its last hidden layer, on a source that holds the
tokens of these stages. -/
theorem pass2_spec (parse : Tokenizer σ α) (R : ObjRep α β) (H N : Nat) (W : List α)
    (x0 x1 : α) (file fpe : σ) (hT : Tokens parse file (x0 :: x1 :: W) fpe)
    (hN : N ≤ 2147483647) (hW : 2 * N + (2 * H + 2) * (N * N) ≤ W.length) :
    StageSpec R N ((pass1_out W H N x0 x1).map fx1)
      (slice W (2 * N + (H + 1) * (N * N)) (N * N)) (run_passes parse R file H N).2.input
    ∧ (run_passes parse R file H N).2.hidden.length = H
    ∧ (∀ j, j < H → ∃ r, (run_passes parse R file H N).2.hidden[j]? = some r
        ∧ StageSpec R N
            (hidden_chain W N (2 * N + (H + 2) * (N * N)) 0 j (pass2_input_out W H N x0 x1))
            (slice W (2 * N + (H + 2) * (N * N) + j * (N * N)) (N * N)) r)
    ∧ (run_passes parse R file H N).2.output
        = second_output_layer_process parse R N (frame R (pass2_hidden_out W H N x0 x1)) file H
    ∧ (pass2_hidden_out W H N x0 x1).length = N := by
  have e1 : (2 * H + 2) * (N * N) = (H + 1) * (N * N) + (H + 1) * (N * N) := by ring
  have e2 : (H + 2) * (N * N) = (H + 1) * (N * N) + N * N := by ring
  have e3 : (2 * H + 2) * (N * N) = (H + 2) * (N * N) + H * (N * N) := by ring
  have hpb := pipe_of_pass1_output parse R H N W x0 x1 file fpe hT hN
    (by have := Nat.zero_le ((H + 1) * (N * N)); omega) (β := β)
  have hlenv : ((pass1_out W H N x0 x1).map fx1).length = N := by
    rw [List.length_map]; exact layer_output_length _ _ _
  have h1 := second_input_layer_process_spec parse R N H ((pass1_out W H N x0 x1).map fx1) W
    x0 x1 file fpe hT
    (by rw [hlenv]; have := Nat.zero_le (H * (N * N)); omega) (by omega) (β := β)
  rw [hlenv] at h1
  have hp1 := h1.pipe_of
  have hlen1 : (pass2_input_out W H N x0 x1).length = N := layer_output_length _ _ _
  obtain ⟨c1, c2, c3⟩ := fork_hidden_layers_spec R N W (2 * N + (H + 2) * (N * N))
    (fun layer_num pipe => second_hidden_layer_process parse R layer_num N pipe file H) H 0
    (pass2_input_out W H N x0 x1) hlen1
    (fun k y hk1 hk2 hy => by
      have := second_hidden_layer_process_spec parse R k N H y W x0 x1 file fpe hT
        (by rw [hy]; have := mul_le_of_le k H (N * N) hk1 (by omega); omega) (by omega) (β := β)
      rwa [hy] at this)
  have hlenH : (pass2_hidden_out W H N x0 x1).length = N :=
    hidden_chain_length W N _ H 0 _ hlen1
  refine ⟨?_, ?_, ?_, ?_, hlenH⟩
  · simp only [run_passes] at hpb ⊢
    rw [hpb]
    exact h1
  · have := c2
    simp only [run_passes] at hpb ⊢
    rw [hpb]
    simpa only [pass2_input_out, hp1] using this
  · intro j hj
    obtain ⟨r, hr1, hr2⟩ := c3 j hj
    refine ⟨r, ?_, by simpa using hr2⟩
    simp only [run_passes] at hpb ⊢
    rw [hpb]
    simpa only [pass2_input_out, hp1] using hr1
  · simp only [run_passes] at hpb ⊢
    rw [hpb]
    simp only [pass2_input_out] at hp1 c1
    rw [hp1, c1]
    rfl

end RunLemmas

/-! ## Lemmas: the stages of a run by position -/

theorem six_part_get {γ : Type} (a o a2 o2 : γ) (l1 l2 : List γ) (H : Nat)
    (h1 : l1.length = H) (h2 : l2.length = H) (i : Nat) :
    ([a] ++ l1 ++ [o] ++ [a2] ++ l2 ++ [o2])[i]? =
      if i = 0 then some a
      else if i ≤ H then l1[i - 1]?
      else if i = H + 1 then some o
      else if i = H + 2 then some a2
      else if i ≤ 2 * H + 2 then l2[i - (H + 3)]?
      else if i = 2 * H + 3 then some o2
      else none := by
  by_cases c0 : i = 0
  · subst c0; simp
  by_cases c1 : i ≤ H
  · simp only [c0, c1, if_true, if_false]
    rw [List.append_assoc, List.append_assoc, List.append_assoc, List.append_assoc,
      List.getElem?_append_right (by simp; omega),
      List.getElem?_append_left (by simp; omega)]
    simp
  by_cases c2 : i = H + 1
  · subst c2
    simp only [c0, c1, if_true, if_false]
    rw [List.append_assoc, List.append_assoc, List.append_assoc,
      List.getElem?_append_right (by simp; omega)]
    simp [h1]
  by_cases c3 : i = H + 2
  · subst c3
    simp only [c0, c1, c2, if_true, if_false]
    rw [List.append_assoc, List.append_assoc,
      List.getElem?_append_right (by simp; omega)]
    simp [h1]
  by_cases c4 : i ≤ 2 * H + 2
  · simp only [c0, c1, c2, c3, c4, if_true, if_false]
    rw [List.append_assoc,
      List.getElem?_append_right (by simp; omega),
      List.getElem?_append_left (by simp; omega)]
    congr 1
    simp [h1]
  by_cases c5 : i = 2 * H + 3
  · subst c5
    simp only [c0, c1, c2, c3, c4, if_true, if_false]
    rw [List.getElem?_append_right (by simp; omega)]
    have : 2 * H + 3 - ([a] ++ l1 ++ [o] ++ [a2] ++ l2).length = 0 := by simp; omega
    rw [this]; rfl
  · simp only [c0, c1, c2, c3, c4, c5, if_false]
    rw [List.getElem?_eq_none_iff]
    simp; omega

section RunByPosition
variable {α β σ : Type} [Zero α] [Add α] [Mul α] [Sub α] [Div α] [OfScientific α]

omit [Zero α] [Add α] [Mul α] [Sub α] [Div α] [OfScientific α] in
theorem slice_length (W : List α) (off len : Nat) (h : off + len ≤ W.length) :
    (slice W off len).length = len := by
  unfold slice
  rw [List.length_take, List.length_drop]
  omega

omit [Sub α] [Div α] [OfScientific α] in
theorem StageSpec.ok_weights {R : ObjRep α β} {N : Nat} {x ws : List α}
    {r : Except Fatal (StageExit α β σ)} (h : StageSpec R N x ws r) :
    ∃ s, r = .ok s ∧ s.weights = ws ∧ s.output.length = N := by
  obtain ⟨s, hr, _, hw, ho, _⟩ := h
  exact ⟨s, hr, hw, by rw [ho, layer_output_length]⟩

/-- Every stage but the last one, on a source that holds the tokens of these
stages: the stage at position `i` of the fork order terminates normally, and
its weights are the slice at the offset of position `i`. -/
theorem stage_at_ok (parse : Tokenizer σ α) (R : ObjRep α β) (H N : Nat) (W : List α)
    (x0 x1 : α) (file fpe : σ) (hT : Tokens parse file (x0 :: x1 :: W) fpe)
    (hN : N ≤ 2147483647) (hW : 2 * N + (2 * H + 2) * (N * N) ≤ W.length)
    (i : Nat) (hi : i < 2 * H + 3) :
    ∃ s, (all_stages (run_passes parse R file H N))[i]? = some (.ok s)
      ∧ s.weights = slice W (if i = 0 then 0 else 2 * N + (i - 1) * (N * N))
          (if i = 0 then 2 * N else N * N)
      ∧ s.output.length = N := by
  have e1 : (2 * H + 2) * (N * N) = (H + 1) * (N * N) + (H + 1) * (N * N) := by ring
  obtain ⟨a1, a2, a3, fp', a4⟩ := pass1_spec parse R H N W x0 x1 file fpe hT hN
    (by have := Nat.zero_le ((H + 1) * (N * N)); omega) (β := β)
  obtain ⟨b1, b2, b3, _, _⟩ := pass2_spec parse R H N W x0 x1 file fpe hT hN hW (β := β)
  unfold all_stages
  rw [six_part_get _ _ _ _ _ _ H a2 b2 i]
  by_cases c0 : i = 0
  · subst c0
    obtain ⟨s, hs, hw, ho⟩ := a1.ok_weights
    exact ⟨s, by simp [hs], by simpa using hw, ho⟩
  by_cases c1 : i ≤ H
  · obtain ⟨r, hr, hspec⟩ := a3 (i - 1) (by omega)
    obtain ⟨s, hs, hw, ho⟩ := hspec.ok_weights
    refine ⟨s, ?_, ?_, ho⟩
    · simp only [c0, c1, if_true, if_false, hr, hs]
    · simpa only [c0, if_false] using hw
  by_cases c2 : i = H + 1
  · subst c2
    rw [a4]
    refine Exists.intro
      { input_fp := fp', input_data := pass1_hidden_out W H N x0 x1,
        weights := slice W (2 * N + H * (N * N)) (N * N), output := pass1_out W H N x0 x1,
        backward_data := List.map fx1 (pass1_out W H N x0 x1),
        report := output_record (pass1_out W H N x0 x1),
        sent := frame R (List.map fx1 (pass1_out W H N x0 x1)) } ⟨?_, ?_, ?_⟩
    · simp only [c0, c1, if_true, if_false]
    · simp
    · exact layer_output_length _ _ _
  by_cases c3 : i = H + 2
  · subst c3
    obtain ⟨s, hs, hw, ho⟩ := b1.ok_weights
    refine ⟨s, ?_, ?_, ho⟩
    · simp only [c0, c1, c2, if_true, if_false, hs]
    · simpa using hw
  · have c4 : i ≤ 2 * H + 2 := by omega
    obtain ⟨r, hr, hspec⟩ := b3 (i - (H + 3)) (by omega)
    obtain ⟨s, hs, hw, ho⟩ := hspec.ok_weights
    refine ⟨s, ?_, ?_, ho⟩
    · simp only [c0, c1, c2, c3, c4, if_true, if_false, hr, hs]
    · simp only [c0, if_false]
      rw [hw]
      congr 1
      have : i - 1 = (H + 2) + (i - (H + 3)) := by omega
      rw [this]; ring

/-- The last stage of a run on a source that holds the tokens of the stages
before it. -/
theorem last_stage_eq (parse : Tokenizer σ α) (R : ObjRep α β) (H N : Nat) (W : List α)
    (x0 x1 : α) (file fpe : σ) (hT : Tokens parse file (x0 :: x1 :: W) fpe)
    (hN : N ≤ 2147483647) (hW : 2 * N + (2 * H + 2) * (N * N) ≤ W.length) :
    (all_stages (run_passes parse R file H N))[2 * H + 3]?
        = some (run_passes parse R file H N).2.output
    ∧ (run_passes parse R file H N).2.output
        = second_output_layer_process parse R N (frame R (pass2_hidden_out W H N x0 x1)) file H
    ∧ (pass2_hidden_out W H N x0 x1).length = N := by
  have e1 : (2 * H + 2) * (N * N) = (H + 1) * (N * N) + (H + 1) * (N * N) := by ring
  obtain ⟨_, a2, _, _, _⟩ := pass1_spec parse R H N W x0 x1 file fpe hT hN
    (by have := Nat.zero_le ((H + 1) * (N * N)); omega) (β := β)
  obtain ⟨_, b2, _, b4, b5⟩ := pass2_spec parse R H N W x0 x1 file fpe hT hN hW (β := β)
  refine ⟨?_, b4, b5⟩
  unfold all_stages
  rw [six_part_get _ _ _ _ _ _ H a2 b2 (2 * H + 3)]
  have c0 : ¬ (2 * H + 3 = 0) := by omega
  have c1 : ¬ (2 * H + 3 ≤ H) := by omega
  have c2 : ¬ (2 * H + 3 = H + 1) := by omega
  have c3 : ¬ (2 * H + 3 = H + 2) := by omega
  have c4 : ¬ (2 * H + 3 ≤ 2 * H + 2) := by omega
  simp only [c0, c1, c2, c3, c4, if_true, if_false]

/-- The last stage on a source that holds all the tokens. -/
theorem last_stage_ok (parse : Tokenizer σ α) (R : ObjRep α β) (H N : Nat) (W : List α)
    (x0 x1 : α) (file fpe : σ) (hT : Tokens parse file (x0 :: x1 :: W) fpe)
    (hN : N ≤ 2147483647) (hW : 2 * N + (2 * H + 3) * (N * N) ≤ W.length) :
    ∃ s, (all_stages (run_passes parse R file H N))[2 * H + 3]? = some (.ok s)
      ∧ s.weights = slice W (2 * N + (2 * H + 2) * (N * N)) (N * N)
      ∧ s.output = pass2_out W H N x0 x1 := by
  have e1 : (2 * H + 3) * (N * N) = (2 * H + 2) * (N * N) + N * N := by ring
  obtain ⟨l1, l2, l3⟩ := last_stage_eq parse R H N W x0 x1 file fpe hT hN (by omega) (β := β)
  obtain ⟨fp', h⟩ := second_output_layer_process_ok parse R N H (pass2_hidden_out W H N x0 x1) W
    x0 x1 file fpe hT (by rw [l3]; omega) (by omega) (β := β)
  rw [l3] at h
  exact ⟨_, by rw [l1, l2, h], rfl, rfl⟩

omit [Zero α] [Add α] [Mul α] [Sub α] [Div α] [OfScientific α] in
theorem all_stages_length (run : Pass α β σ × Pass α β σ) (H : Nat)
    (h1 : run.1.hidden.length = H) (h2 : run.2.hidden.length = H) :
    (all_stages run).length = 2 * (H + 2) := by
  simp [all_stages, h1, h2]; omega

end RunByPosition

/-! ## Lemmas: the segments partition the weight tokens -/

theorem segments_partition (H N t : Nat) (hN : 1 ≤ N) (ht : t < 2 * N + (2 * H + 3) * (N * N)) :
    ∃! i, i < 2 * (H + 2) ∧ ∃ seg, (stage_segments H N)[i]? = some seg
      ∧ seg.1 ≤ t ∧ t < seg.1 + seg.2 := by
  have hM : 0 < N * N := Nat.mul_pos hN hN
  by_cases h0 : t < 2 * N
  · refine ⟨0, ⟨by omega, _, stage_segments_get H N 0 (by omega), by simp, by simpa using h0⟩, ?_⟩
    rintro j ⟨hj, seg, hseg, hlo, hhi⟩
    rw [stage_segments_get H N j hj] at hseg
    by_contra hne
    simp only [hne, if_false, Option.some.injEq] at hseg
    subst hseg
    simp only at hlo
    have := Nat.zero_le ((j - 1) * (N * N))
    omega
  · have hq : (t - 2 * N) / (N * N) < 2 * H + 3 := by
      apply Nat.div_lt_of_lt_mul
      rw [Nat.mul_comm (N * N) (2 * H + 3)]; omega
    have hdm := Nat.div_add_mod (t - 2 * N) (N * N)
    have hmod := Nat.mod_lt (t - 2 * N) hM
    have hcomm : N * N * ((t - 2 * N) / (N * N)) = (t - 2 * N) / (N * N) * (N * N) :=
      Nat.mul_comm _ _
    refine ⟨(t - 2 * N) / (N * N) + 1, ⟨by omega, _,
      stage_segments_get H N _ (by omega), ?_, ?_⟩, ?_⟩
    · simp only [Nat.add_one_ne_zero, if_false, Nat.add_sub_cancel]; omega
    · simp only [Nat.add_one_ne_zero, if_false, Nat.add_sub_cancel]; omega
    · rintro j ⟨hj, seg, hseg, hlo, hhi⟩
      rw [stage_segments_get H N j hj] at hseg
      by_cases hj0 : j = 0
      · simp only [hj0, if_true, Option.some.injEq] at hseg
        subst hseg
        simp only at hhi
        omega
      · simp only [hj0, if_false, Option.some.injEq] at hseg
        subst hseg
        simp only at hlo hhi
        have hdiv : (t - 2 * N) / (N * N) = j - 1 := by
          apply Nat.div_eq_of_lt_le
          · omega
          · rw [Nat.add_mul, Nat.one_mul]; omega
        omega

/-! ## Lemmas: what a terminated stage holds -/

section Inversion
variable {α β σ : Type} [Zero α] [Add α] [Mul α]

theorem execute_neuron_task_length (task : ComputeThread α) (buf buf' : List (Option α))
    (h : execute_neuron_task task buf = some buf') : buf'.length = buf.length := by
  unfold execute_neuron_task at h
  split at h
  · cases h
  · split at h
    · simp only [Option.some.injEq] at h
      rw [← h, List.length_set]
    · cases h

theorem run_neuron_threads_length (order : List Nat) (w : Nat) (x W : List α)
    (buf buf' : List (Option α))
    (h : order.foldlM (fun results i => execute_neuron_task (task_params w x W i) results) buf
      = some buf') : buf'.length = buf.length := by
  induction order generalizing buf with
  | nil =>
    simp only [List.foldlM_nil, Option.pure_def, Option.some.injEq] at h
    rw [h]
  | cons i order ih =>
    rw [List.foldlM_cons] at h
    cases hstep : execute_neuron_task (task_params w x W i) buf with
    | none => rw [hstep] at h; cases h
    | some mid =>
      rw [hstep] at h
      rw [ih mid h, execute_neuron_task_length _ _ _ hstep]

omit [Zero α] [Add α] [Mul α] in
theorem read_results_length (buf : List (Option α)) (r : List α)
    (h : read_results buf = some r) : r.length = buf.length := by
  induction buf generalizing r with
  | nil => simp only [read_results, Option.some.injEq] at h; subst h; rfl
  | cons c buf ih =>
    cases c with
    | none => simp only [read_results] at h; cases h
    | some v =>
      simp only [read_results] at h
      split at h
      · cases h
      · rename_i vs hvs
        simp only [Option.some.injEq] at h
        rw [← h, List.length_cons, List.length_cons, ih vs hvs]

/-- The buffer `launch_neuron_threads` returns has `num_neurons` cells. -/
theorem launch_neuron_threads_length (n w : Nat) (x W r : List α)
    (h : launch_neuron_threads n w x W = some r) : r.length = n := by
  unfold launch_neuron_threads run_neuron_threads at h
  split at h
  · cases h
  · rename_i results hres
    rw [read_results_length _ _ h, run_neuron_threads_length _ _ _ _ _ _ hres,
      List.length_replicate]

theorem compute_and_send_inv (parse : Tokenizer σ α) (R : ObjRep α β) (N c : Nat) (x : List α)
    (fp : σ) (record : List α → List (ReportLine α)) (s : StageExit α β σ)
    (h : compute_and_send parse R N c x fp record = .ok s) :
    s.input_data = x ∧ s.weights.length = c * N ∧ s.output.length = N
      ∧ s.sent = frame R s.output := by
  unfold compute_and_send at h
  split at h
  · cases h
  · rename_i weights fp' hr
    split at h
    · cases h
    · rename_i output hl
      have hlen := launch_neuron_threads_length _ _ _ _ _ hl
      rw [write_to_pipe_length R output N hlen] at h
      simp only [Except.ok.injEq] at h
      subst h
      exact ⟨rfl, read_weights_length parse _ _ _ _ hr, hlen, rfl⟩

theorem output_layer_process_inv [Sub α] [Div α] [OfScientific α] (parse : Tokenizer σ α)
    (R : ObjRep α β) (N H : Nat) (read_fd : List β) (input_txt : σ) (s : StageExit α β σ)
    (h : output_layer_process parse R N read_fd input_txt H = .ok s) :
    s.output.length = N ∧ s.backward_data = s.output.map fx1
      ∧ s.report = output_record s.output ∧ s.sent = frame R (s.output.map fx1) := by
  unfold output_layer_process at h
  simp only at h
  split at h
  · cases h
  · split at h
    · cases h
    · split at h
      · cases h
      · rename_i output hl
        have hlen := launch_neuron_threads_length _ _ _ _ _ hl
        rw [write_to_pipe_length R (output.map fx1) N (by rw [List.length_map, hlen])] at h
        simp only [Except.ok.injEq] at h
        subst h
        exact ⟨hlen, rfl, rfl, rfl⟩

theorem second_input_layer_process_inv (parse : Tokenizer σ α) (R : ObjRep α β) (N H : Nat)
    (x : List α) (input_txt : σ) (s : StageExit α β σ) (hx : x.length ≤ 2147483647)
    (h : second_input_layer_process parse R N (frame R x) input_txt H = .ok s) :
    s.input_data = x := by
  unfold second_input_layer_process at h
  have hpipe := read_from_pipe_frame R x [] hx
  rw [List.append_nil] at hpipe
  simp only [hpipe] at h
  exact (compute_and_send_inv parse R N _ x _ _ s h).1

end Inversion

/-! ## The claims -/

section Claims

/-- C1. For every neuron count `n`, input width `w`, input vector `x` of
length `w` and weight array `W` of length `n * w`, `launch_neuron_threads`
returns a vector of length exactly `n` whose entry `i` is the sum over `j < w`
of `x[j] * W[i*w + j]`, accumulated from `0` in increasing `j`: no bias is
added and no activation is applied. -/
theorem launch_neuron_threads_dot_products {α : Type} [Zero α] [Add α] [Mul α]
    (n w : Nat) (x W : List α) (hx : x.length = w) (hW : W.length = n * w) :
    ∃ r, launch_neuron_threads n w x W = some r ∧ r.length = n
      ∧ ∀ i, i < n → r[i]? = some
          ((List.range w).foldl (fun sum j => sum + x.getD j 0 * W.getD (i * w + j) 0) 0) := by
  refine ⟨_, launch_neuron_threads_eq n w x W hx hW, by simp, ?_⟩
  intro i hi
  rw [List.getElem?_map, List.getElem?_range hi]
  rfl

/-- C1, at 3 neurons of width 2 over the integers. -/
theorem launch_neuron_threads_dot_products_witness :
    ∃ r, launch_neuron_threads 3 2 [(1 : ℤ), 2] [3, 4, 5, 6, 7, 8] = some r ∧ r.length = 3
      ∧ ∀ i, i < 3 → r[i]? = some
          ((List.range 2).foldl
            (fun sum j => sum + [(1 : ℤ), 2].getD j 0 * [(3 : ℤ), 4, 5, 6, 7, 8].getD (i * 2 + j) 0)
            0) :=
  launch_neuron_threads_dot_products 3 2 [(1 : ℤ), 2] [3, 4, 5, 6, 7, 8] (by decide) (by decide)

/-- C3. In a run with a valid `(H, N)` on a source that holds the two input
values and then the weight tokens `W` (at least `T = 2N + (2H+3)N²` of them),
every stage terminates normally and the weight array it computes with is the
contiguous slice `[offset, offset + length)` of `W` given by its segment, of
length `2N` for the first-pass input stage and `N²` for every other stage; the
segments of the `2(H+2)` stages are pairwise disjoint and cover exactly the
first `T` weight tokens: every token index below `T` lies in the segment of
exactly one stage, and no segment reaches beyond `T`. -/
theorem stage_weights_are_disjoint_segments {α β σ : Type} [Zero α] [Add α] [Mul α] [Sub α]
    [Div α] [OfScientific α] (parse : Tokenizer σ α) (R : ObjRep α β) (H N : Nat)
    (W : List α) (x0 x1 : α) (file fpe : σ) (hN : 1 ≤ N ∧ N ≤ 100)
    (hT : Tokens parse file (x0 :: x1 :: W) fpe)
    (hW : 2 * N + (2 * H + 3) * N ^ 2 ≤ W.length) :
    (all_stages (run_passes parse R file H N)).length = 2 * (H + 2)
    ∧ (∀ i, i < 2 * (H + 2) → ∃ (s : StageExit α β σ) (seg : Nat × Nat),
        (all_stages (run_passes parse R file H N))[i]? = some (.ok s)
        ∧ (stage_segments H N)[i]? = some seg
        ∧ seg.2 = (if i = 0 then 2 * N else N * N)
        ∧ s.weights = (W.drop seg.1).take seg.2 ∧ s.weights.length = seg.2)
    ∧ (∀ t, t < 2 * N + (2 * H + 3) * N ^ 2 →
        ∃! i, i < 2 * (H + 2) ∧ ∃ seg : Nat × Nat, (stage_segments H N)[i]? = some seg
          ∧ seg.1 ≤ t ∧ t < seg.1 + seg.2)
    ∧ (∀ (i : Nat) (seg : Nat × Nat), (stage_segments H N)[i]? = some seg →
        seg.1 + seg.2 ≤ 2 * N + (2 * H + 3) * N ^ 2) := by
  rw [Nat.pow_two] at hW ⊢
  have e1 : (2 * H + 3) * (N * N) = (2 * H + 2) * (N * N) + N * N := by ring
  have hN' : N ≤ 2147483647 := by omega
  obtain ⟨_, a2, _, _, _⟩ := pass1_spec parse R H N W x0 x1 file fpe hT hN'
    (by have : (2 * H + 2) * (N * N) = (H + 1) * (N * N) + (H + 1) * (N * N) := by ring
        have := Nat.zero_le ((H + 1) * (N * N)); omega) (β := β)
  obtain ⟨_, b2, _, _, _⟩ := pass2_spec parse R H N W x0 x1 file fpe hT hN' (by omega) (β := β)
  have hbound : ∀ i, i < 2 * (H + 2) →
      (if i = 0 then 0 else 2 * N + (i - 1) * (N * N)) + (if i = 0 then 2 * N else N * N)
        ≤ 2 * N + (2 * H + 3) * (N * N) := by
    intro i hi
    by_cases h0 : i = 0
    · simp only [h0, if_true]; have := Nat.zero_le ((2 * H + 3) * (N * N)); omega
    · simp only [h0, if_false]
      have := mul_le_of_le i (2 * H + 3) (N * N) (by omega) (by omega)
      omega
  refine ⟨all_stages_length _ H a2 b2, ?_, ?_, ?_⟩
  · intro i hi
    have hseg := stage_segments_get H N i hi
    have hb := hbound i hi
    by_cases hlast : i = 2 * H + 3
    · subst hlast
      obtain ⟨s, hs, hw, _⟩ := last_stage_ok parse R H N W x0 x1 file fpe hT hN' hW (β := β)
      refine ⟨s, _, hs, hseg, by simp, ?_, ?_⟩
      · simpa [slice] using hw
      · rw [hw]; simpa using slice_length W _ _ (by omega)
    · obtain ⟨s, hs, hw, _⟩ := stage_at_ok parse R H N W x0 x1 file fpe hT hN' (by omega) i
        (by omega) (β := β)
      refine ⟨s, _, hs, hseg, ?_, ?_, ?_⟩
      · by_cases h0 : i = 0 <;> simp [h0]
      · rw [hw]; by_cases h0 : i = 0 <;> simp [h0, slice]
      · rw [hw]
        have := slice_length W _ _ (Nat.le_trans hb hW)
        rw [this]
        by_cases h0 : i = 0 <;> simp [h0]
  · intro t ht
    exact segments_partition H N t hN.1 ht
  · intro i seg hseg
    have hi : i < 2 * (H + 2) := by
      rw [← stage_segments_length H N]
      exact (List.getElem?_eq_some.1 hseg).1
    rw [stage_segments_get H N i hi] at hseg
    injection hseg with hseg
    subst hseg
    have := hbound i hi
    by_cases h0 : i = 0
    · simp only [h0, if_true] at this ⊢; exact this
    · simp only [h0, if_false] at this ⊢; exact this

/-- C5. For a valid `(H, N)` and a source that holds the two input values and
then exactly `2N + (H+2)N² + (H+1)N²` weight tokens, every stage of both
passes terminates without a fatal error, its weight loop having read all of
its tokens (`2N` in the first-pass input stage, `N²` in the other stages). -/
theorem exact_token_count_succeeds {α β σ : Type} [Zero α] [Add α] [Mul α] [Sub α]
    [Div α] [OfScientific α] (parse : Tokenizer σ α) (R : ObjRep α β) (H N : Nat)
    (W : List α) (x0 x1 : α) (file fpe : σ) (hN : 1 ≤ N ∧ N ≤ 100)
    (hT : Tokens parse file (x0 :: x1 :: W) fpe)
    (hW : W.length = 2 * N + (H + 2) * N ^ 2 + (H + 1) * N ^ 2) :
    (all_stages (run_passes parse R file H N)).length = 2 * (H + 2)
    ∧ ∀ i, i < 2 * (H + 2) → ∃ s,
        (all_stages (run_passes parse R file H N))[i]? = some (.ok s)
        ∧ s.weights.length = (if i = 0 then 2 * N else N * N) := by
  have hW' : 2 * N + (2 * H + 3) * (N * N) ≤ W.length := by
    rw [hW, Nat.pow_two]; apply Nat.le_of_eq; ring
  have e1 : (2 * H + 3) * (N * N) = (2 * H + 2) * (N * N) + N * N := by ring
  have hN' : N ≤ 2147483647 := by omega
  obtain ⟨_, a2, _, _, _⟩ := pass1_spec parse R H N W x0 x1 file fpe hT hN'
    (by have : (2 * H + 2) * (N * N) = (H + 1) * (N * N) + (H + 1) * (N * N) := by ring
        have := Nat.zero_le ((H + 1) * (N * N)); omega) (β := β)
  obtain ⟨_, b2, _, _, _⟩ := pass2_spec parse R H N W x0 x1 file fpe hT hN' (by omega) (β := β)
  refine ⟨all_stages_length _ H a2 b2, ?_⟩
  intro i hi
  by_cases hlast : i = 2 * H + 3
  · subst hlast
    obtain ⟨s, hs, hw, _⟩ := last_stage_ok parse R H N W x0 x1 file fpe hT hN' hW' (β := β)
    refine ⟨s, hs, ?_⟩
    rw [hw, slice_length W _ _ (by omega)]
    simp
  · obtain ⟨s, hs, hw, _⟩ := stage_at_ok parse R H N W x0 x1 file fpe hT hN' (by omega) i
      (by omega) (β := β)
    refine ⟨s, hs, ?_⟩
    rw [hw]
    by_cases h0 : i = 0
    · simp only [h0, if_true]
      exact slice_length W _ _ (by have := Nat.zero_le ((2 * H + 2) * (N * N)); omega)
    · simp only [h0, if_false]
      apply slice_length
      have := mul_le_of_le i (2 * H + 3) (N * N) (by omega) (by omega)
      omega

/-- C6. For a valid `(H, N)` and a source that holds the two input values and
then exactly one weight token fewer than `2N + (H+2)N² + (H+1)N²`, the run
fails on insufficient weight data: the second-pass output stage terminates
fatally in its weight loop and produces no output, every stage before it
having terminated normally. -/
theorem one_token_short_fails {α β σ : Type} [Zero α] [Add α] [Mul α] [Sub α]
    [Div α] [OfScientific α] (parse : Tokenizer σ α) (R : ObjRep α β) (H N : Nat)
    (W : List α) (x0 x1 : α) (file fpe : σ) (hN : 1 ≤ N ∧ N ≤ 100)
    (hT : Tokens parse file (x0 :: x1 :: W) fpe) (hend : (parse fpe).1 = none)
    (hW : W.length + 1 = 2 * N + (H + 2) * N ^ 2 + (H + 1) * N ^ 2) :
    (run_passes parse R file H N).2.output = .error .insufficient_weights
    ∧ (all_stages (run_passes parse R file H N))[2 * H + 3]?
        = some (.error .insufficient_weights)
    ∧ ∀ i, i < 2 * H + 3 → ∃ s, (all_stages (run_passes parse R file H N))[i]? = some (.ok s) := by
  have hM : 1 ≤ N * N := Nat.mul_pos hN.1 hN.1
  have hW' : W.length + 1 = 2 * N + (2 * H + 2) * (N * N) + N * N := by
    rw [hW, Nat.pow_two]; ring
  have hN' : N ≤ 2147483647 := by omega
  obtain ⟨l1, l2, l3⟩ := last_stage_eq parse R H N W x0 x1 file fpe hT hN' (by omega) (β := β)
  have hfail := second_output_layer_process_short parse R N H (pass2_hidden_out W H N x0 x1) W
    x0 x1 file fpe hT hend (by omega) (by rw [l3]; omega) (by omega) (β := β)
  refine ⟨by rw [l2, hfail], by rw [l1, l2, hfail], ?_⟩
  intro i hi
  obtain ⟨s, hs, _⟩ := stage_at_ok parse R H N W x0 x1 file fpe hT hN' (by omega) i hi (β := β)
  exact ⟨s, hs⟩

end Claims

section Claims2

/-- C3, on `H = 1`, `N = 1` and the source `1 2 3 4 5 6 7 8 9`, at the
first-pass output stage (position 2). -/
theorem stage_weights_are_disjoint_segments_witness :
    ∃ (s : StageExit ℚ (RefByte ℚ) (List Char)) (seg : Nat × Nat),
      (all_stages (run_passes (parse_double_with_comma (scan_decimal : Scanf ℚ))
        (ref_rep : ObjRep ℚ (RefByte ℚ)) "1 2 3 4 5 6 7 8 9".toList 1 1))[2]? = some (.ok s)
      ∧ (stage_segments 1 1)[2]? = some seg
      ∧ seg.2 = (if 2 = 0 then 2 * 1 else 1 * 1)
      ∧ s.weights = (([3, 4, 5, 6, 7, 8, 9] : List ℚ).drop seg.1).take seg.2
      ∧ s.weights.length = seg.2 :=
  (stage_weights_are_disjoint_segments (parse_double_with_comma (scan_decimal : Scanf ℚ))
    (ref_rep : ObjRep ℚ (RefByte ℚ)) 1 1 ([3, 4, 5, 6, 7, 8, 9] : List ℚ) (1 : ℚ) (2 : ℚ)
    "1 2 3 4 5 6 7 8 9".toList [] (by decide)
    (Tokens_of_read_weights _ _ _ _ (by decide)) (by decide)).2.1 2 (by decide)

/-- C5, on `H = 1`, `N = 1` and the source `1 2 3 4 5 6 7 8 9`, at the last
stage (position 5). -/
theorem exact_token_count_succeeds_witness :
    ∃ s : StageExit ℚ (RefByte ℚ) (List Char),
      (all_stages (run_passes (parse_double_with_comma (scan_decimal : Scanf ℚ))
        (ref_rep : ObjRep ℚ (RefByte ℚ)) "1 2 3 4 5 6 7 8 9".toList 1 1))[5]? = some (.ok s)
      ∧ s.weights.length = (if 5 = 0 then 2 * 1 else 1 * 1) :=
  (exact_token_count_succeeds (parse_double_with_comma (scan_decimal : Scanf ℚ))
    (ref_rep : ObjRep ℚ (RefByte ℚ)) 1 1 ([3, 4, 5, 6, 7, 8, 9] : List ℚ) (1 : ℚ) (2 : ℚ)
    "1 2 3 4 5 6 7 8 9".toList [] (by decide)
    (Tokens_of_read_weights _ _ _ _ (by decide)) (by decide)).2 5 (by decide)

/-- C6, on `H = 1`, `N = 1` and the source `1 2 3 4 5 6 7 8`. -/
theorem one_token_short_fails_witness :
    (run_passes (parse_double_with_comma (scan_decimal : Scanf ℚ))
      (ref_rep : ObjRep ℚ (RefByte ℚ)) "1 2 3 4 5 6 7 8".toList 1 1).2.output
      = .error .insufficient_weights :=
  (one_token_short_fails (parse_double_with_comma (scan_decimal : Scanf ℚ))
    (ref_rep : ObjRep ℚ (RefByte ℚ)) 1 1 ([3, 4, 5, 6, 7, 8] : List ℚ) (1 : ℚ) (2 : ℚ)
    "1 2 3 4 5 6 7 8".toList [] (by decide)
    (Tokens_of_read_weights _ _ _ _ (by decide)) (by decide) (by decide)).1

/-- C7. The pseudo-backward transform that `output_layer_process` computes is,
for every forward output value `v`, `fx1 = (v*v + v + 1)/2` and
`fx2 = (v*v - v)/2` (exact arithmetic): the stage's backward data are the
`fx1` of its outputs and its record lists both values for every neuron.  In
particular `v = 0` gives `0.5` and `0`, `v = 1` gives `1.5` and `0`, `v = 2`
gives `3.5` and `1`. -/
theorem pseudo_backward_formulas {β σ : Type} (parse : Tokenizer σ ℚ) (R : ObjRep ℚ β)
    (N H : Nat) (read_fd : List β) (input_txt : σ) (s : StageExit ℚ β σ)
    (h : output_layer_process parse R N read_fd input_txt H = .ok s) :
    s.backward_data = s.output.map (fun v => (v * v + v + 1) / 2)
    ∧ (∃ before after, s.report = before
        ++ value_lines (fun i v => .backward i ((v * v + v + 1) / 2) ((v * v - v) / 2)) s.output
        ++ after)
    ∧ (∀ v : ℚ, fx1 v = (v * v + v + 1) / 2 ∧ fx2 v = (v * v - v) / 2)
    ∧ fx1 (0 : ℚ) = 0.5 ∧ fx2 (0 : ℚ) = 0
    ∧ fx1 (1 : ℚ) = 1.5 ∧ fx2 (1 : ℚ) = 0
    ∧ fx1 (2 : ℚ) = 3.5 ∧ fx2 (2 : ℚ) = 1 := by
  have h1 : (1.0 : ℚ) = 1 := by norm_num
  have h2 : (2.0 : ℚ) = 2 := by norm_num
  have hf1 : ∀ v : ℚ, fx1 v = (v * v + v + 1) / 2 := fun v => by unfold fx1; rw [h1, h2]
  have hf2 : ∀ v : ℚ, fx2 v = (v * v - v) / 2 := fun v => by unfold fx2; rw [h2]
  obtain ⟨_, hb, hr, _⟩ := output_layer_process_inv parse R N H read_fd input_txt s h
  refine ⟨?_, ⟨[.text "FORWARD PASS 1 - OUTPUT LAYER COMPUTATION", .text "Output:"]
      ++ value_lines .output s.output ++ [.text ""]
      ++ [.text "BACKWARD PASS COMPUTATION", .text "Formula 1: f(x1) = (x^2 + x + 1) / 2",
          .text "Formula 2: f(x2) = (x^2 - x) / 2", .text "Results:"], [.text ""], ?_⟩,
    fun v => ⟨hf1 v, hf2 v⟩, ?_, ?_, ?_, ?_, ?_, ?_⟩
  · rw [hb]; exact List.map_congr_left (fun v _ => hf1 v)
  · rw [hr]
    unfold output_record
    simp only [hf1, hf2]
  all_goals first | (rw [hf1]; norm_num) | (rw [hf2]; norm_num)

/-- C7, on the output stage of one neuron that receives `[55]` and reads the
weight `6` from the source `1 2 3 4 5 6`. -/
theorem pseudo_backward_formulas_witness :
    ([109231 / 2] : List ℚ) = [(330 : ℚ)].map (fun v => (v * v + v + 1) / 2) :=
  (pseudo_backward_formulas (parse_double_with_comma (scan_decimal : Scanf ℚ))
    (ref_rep : ObjRep ℚ (RefByte ℚ)) 1 1 (frame ref_rep [(55 : ℚ)]) "1 2 3 4 5 6".toList
    { input_fp := [], input_data := [55], weights := [6], output := [330],
      backward_data := [109231 / 2], report := output_record [330],
      sent := frame ref_rep [109231 / 2] }
    (by with_unfolding_all rfl)).1

end Claims2

section Claims3

/-- C8. Whatever vector `v` of `N` values the first-pass output stage has
computed, the frame it writes to the backward pipe holds the count `N` and
then exactly the values `fx1 (v[0]), ..., fx1 (v[N-1])` in neuron order; `fx2`
appears in the stage's record only; and the second-pass input stage reads
exactly that vector from the backward pipe and uses it as its input vector:
when the `N * N` weights at its offset can be read it terminates normally,
with that vector as its input data and its dot products with the weights as
its output, and otherwise it terminates with "Insufficient weight data". -/
theorem backward_frame_carries_fx1 {α β σ : Type} [Zero α] [Add α] [Mul α] [Sub α] [Div α]
    [OfScientific α] (parse : Tokenizer σ α) (R : ObjRep α β) (H N : Nat) (file : σ)
    (s1 : StageExit α β σ) (hN : 1 ≤ N ∧ N ≤ 100)
    (h1 : (run_passes parse R file H N).1.output = .ok s1) :
    s1.output.length = N
    ∧ s1.sent = R.int_bytes (N : Int) ++ (s1.output.map fx1).flatMap R.double_bytes
    ∧ read_from_pipe R s1.sent = (some (s1.output.map fx1, N), [])
    ∧ s1.report = output_record s1.output
    ∧ (∀ s2, (run_passes parse R file H N).2.input = .ok s2 →
        s2.input_data = s1.output.map fx1)
    ∧ (∀ ws fp', read_weights parse (N * N)
          (second_input_layer_skip (discard parse) N H file) = some (ws, fp') →
        (run_passes parse R file H N).2.input
          = .ok { input_fp := fp', input_data := s1.output.map fx1, weights := ws,
                  output := layer_output N (s1.output.map fx1) ws, backward_data := [],
                  report := second_input_record (layer_output N (s1.output.map fx1) ws),
                  sent := frame R (layer_output N (s1.output.map fx1) ws) })
    ∧ (read_weights parse (N * N) (second_input_layer_skip (discard parse) N H file) = none →
        (run_passes parse R file H N).2.input = .error .insufficient_weights) := by
  have hinv := output_layer_process_inv parse R N H _ file s1 h1
  obtain ⟨hlen, _, hrep, hsent⟩ := hinv
  have hmaplen : (s1.output.map fx1).length = N := by rw [List.length_map, hlen]
  have hread := read_from_pipe_frame R (s1.output.map fx1) [] (by omega)
  rw [List.append_nil, hmaplen] at hread
  have hin : (run_passes parse R file H N).2.input
      = second_input_layer_process parse R N
          (pipe_of (run_passes parse R file H N).1.output) file H := rfl
  have hstage : (run_passes parse R file H N).2.input
      = compute_and_send parse R N N (s1.output.map fx1)
          (second_input_layer_skip (discard parse) N H file) second_input_record := by
    rw [hin, h1]
    unfold second_input_layer_process
    simp only [pipe_of, hsent, hread]
  refine ⟨hlen, ?_, by rw [hsent]; exact hread, hrep, ?_, ?_, ?_⟩
  · rw [hsent]; unfold frame; rw [hmaplen]
  · intro s2 h2
    rw [hstage] at h2
    exact (compute_and_send_inv parse R N _ _ _ _ s2 h2).1
  · intro ws fp' hr
    rw [hstage]
    have := compute_and_send_ok parse R N (s1.output.map fx1) ws _ fp' second_input_record
      (by rw [hmaplen]; exact hr) (β := β)
    rw [hmaplen] at this
    exact this
  · intro hr
    rw [hstage]
    unfold compute_and_send
    simp only [hr]

/-- C8, on `H = 1`, `N = 1` and the source `1 2 3 4 5 6 7 8 9`: the output
stage computes `330` and sends `fx1 330 = 109231/2`, and the second-pass input
stage terminates normally with the input vector `[fx1 330]`, which it has
multiplied with its weight `7`. -/
theorem backward_frame_carries_fx1_witness :
    (run_passes (parse_double_with_comma (scan_decimal : Scanf ℚ))
        (ref_rep : ObjRep ℚ (RefByte ℚ)) "1 2 3 4 5 6 7 8 9".toList 1 1).2.input
      = .ok { input_fp := "8 9".toList, input_data := [(330 : ℚ)].map fx1, weights := [7],
              output := layer_output 1 ([(330 : ℚ)].map fx1) [7], backward_data := [],
              report := second_input_record (layer_output 1 ([(330 : ℚ)].map fx1) [7]),
              sent := frame ref_rep (layer_output 1 ([(330 : ℚ)].map fx1) [7]) } :=
  (backward_frame_carries_fx1 (parse_double_with_comma (scan_decimal : Scanf ℚ))
    (ref_rep : ObjRep ℚ (RefByte ℚ)) 1 1 "1 2 3 4 5 6 7 8 9".toList
    { input_fp := "7 8 9".toList, input_data := [55], weights := [6], output := [330],
      backward_data := [109231 / 2], report := output_record [330],
      sent := frame ref_rep [109231 / 2] }
    (by decide) (by with_unfolding_all rfl)).2.2.2.2.2.1 [7] "8 9".toList (by decide)

end Claims3
/-! ## Lemmas: rows and schedules -/

section Schedules
variable {α : Type} [Zero α] [Add α] [Mul α]

omit [Zero α] [Add α] [Mul α] in
theorem permute_rows_length (w : Nat) (W : List α) (s : Nat → Nat) (n m : Nat)
    (hW : W.length = m * w) (hs : ∀ i, i < n → s i < m) :
    (permute_rows w W s n).length = n * w := by
  induction n with
  | zero => simp [permute_rows]
  | succ n ih =>
    have ih' := ih (fun i hi => hs i (by omega))
    unfold permute_rows at ih' ⊢
    rw [List.range_succ, List.flatMap_append, List.length_append, ih']
    simp only [List.flatMap_cons, List.flatMap_nil, List.append_nil, List.length_take,
      List.length_drop]
    have h1 := hs n (by omega)
    have h2 : (s n + 1) * w ≤ m * w := Nat.mul_le_mul_right w h1
    have h3 : (s n + 1) * w = s n * w + w := by ring
    have h4 : (n + 1) * w = n * w + w := by ring
    omega

omit [Add α] [Mul α] in
theorem permute_rows_getD (w : Nat) (W : List α) (s : Nat → Nat) (n m : Nat)
    (hW : W.length = m * w) (hs : ∀ i, i < n → s i < m) (i j : Nat) (hi : i < n) (hj : j < w) :
    (permute_rows w W s n).getD (i * w + j) 0 = W.getD (s i * w + j) 0 := by
  induction n with
  | zero => omega
  | succ n ih =>
    have hlen := permute_rows_length w W s n m hW (fun i hi => hs i (by omega))
    have hsplit : permute_rows w W s (n + 1)
        = permute_rows w W s n ++ (W.drop (s n * w)).take w := by
      unfold permute_rows
      rw [List.range_succ, List.flatMap_append]
      simp
    rw [hsplit]
    by_cases hin : i < n
    · have hlt : i * w + j < (permute_rows w W s n).length := by
        rw [hlen]
        have h2 : (i + 1) * w ≤ n * w := Nat.mul_le_mul_right w hin
        have h3 : (i + 1) * w = i * w + w := by ring
        omega
      rw [List.getD_append _ _ _ _ hlt]
      exact ih (fun i hi => hs i (by omega)) hin
    · have hie : i = n := by omega
      subst hie
      rw [List.getD_append_right _ _ _ _ (by rw [hlen]; omega), hlen, Nat.add_sub_cancel_left]
      simp only [List.getD_eq_getElem?_getD, List.getElem?_take, hj, if_true,
        List.getElem?_drop]

theorem dot_row_permute_rows (w : Nat) (x W : List α) (s : Nat → Nat) (n m : Nat)
    (hW : W.length = m * w) (hs : ∀ i, i < n → s i < m) (i : Nat) (hi : i < n) :
    dot_row w x (permute_rows w W s n) i = dot_row w x W (s i) := by
  unfold dot_row
  apply List.foldl_ext
  intro acc j hj
  rw [List.mem_range] at hj
  rw [permute_rows_getD w W s n m hW hs i j hi hj]

end Schedules

section Schedules2
variable {α : Type} [Zero α] [Add α] [Mul α]

theorem stored_nil (w : Nat) (x W : List α) (n : Nat) :
    stored w x W n [] = List.replicate n none := by
  unfold stored
  apply List.ext_getElem?
  intro j
  by_cases hj : j < n
  · simp [List.getElem?_replicate, hj, List.getElem?_range]
  · simp [List.getElem?_replicate, hj]

theorem stored_set (w : Nat) (x W : List α) (n : Nat) (l : List Nat) (a : Nat) :
    (stored w x W n l).set a (some (dot_row w x W a)) = stored w x W n (l ++ [a]) := by
  unfold stored
  apply List.ext_getElem?
  intro j
  rw [List.getElem?_set]
  by_cases hj : j < n
  · by_cases haj : a = j
    · subst haj
      simp [hj, List.getElem?_range]
    · have hja : ¬ j = a := fun h => haj h.symm
      simp [haj, hja, hj, List.getElem?_range]
  · have hnone : (List.range n)[j]? = none :=
      List.getElem?_eq_none (by rw [List.length_range]; omega)
    by_cases haj : a = j
    · subst haj; simp [hj, hnone]
    · simp [haj, hnone]

theorem run_tasks_stored (n w : Nat) (x W : List α) (hx : x.length = w)
    (hW : W.length = n * w) (l : List Nat) (hl : ∀ i ∈ l, i < n) :
    ∀ done : List Nat,
      l.foldlM (fun results i => execute_neuron_task (task_params w x W i) results)
          (stored w x W n done)
        = some (stored w x W n (done ++ l)) := by
  induction l with
  | nil => intro done; simp
  | cons a l ih =>
    intro done
    have ha := hl a (List.mem_cons_self _ _)
    rw [List.foldlM_cons]
    have hstep : execute_neuron_task (task_params w x W a) (stored w x W n done)
        = some (stored w x W n (done ++ [a])) := by
      unfold execute_neuron_task
      rw [weighted_sum_task_params n w x W a hx hW ha]
      have hlen : (task_params w x W a).thread_id < (stored w x W n done).length := by
        simp [task_params, stored, ha]
      simp only [hlen, if_true]
      simp only [task_params]
      rw [stored_set]
    rw [hstep]
    simp only [Option.bind_eq_bind, Option.some_bind]
    rw [ih (fun i hi => hl i (List.mem_cons_of_mem _ hi)) (done ++ [a]), List.append_assoc]
    rfl

theorem stored_all (w : Nat) (x W : List α) (n : Nat) (l : List Nat)
    (hl : ∀ i, i < n → i ∈ l) :
    stored w x W n l = (List.range n).map (fun i => some (dot_row w x W i)) := by
  unfold stored
  apply List.map_congr_left
  intro i hi
  rw [List.mem_range] at hi
  simp [hl i hi]

/-- The results buffer after all the stores, for every schedule of the threads. -/
theorem run_neuron_threads_schedule (n w : Nat) (x W : List α) (hx : x.length = w)
    (hW : W.length = n * w) (order : List Nat) (hperm : order.Perm (List.range n)) :
    run_neuron_threads order n w x W
      = some ((List.range n).map (fun i => some (dot_row w x W i))) := by
  unfold run_neuron_threads
  rw [← stored_nil w x W n]
  rw [run_tasks_stored n w x W hx hW order
    (fun i hi => List.mem_range.1 (hperm.mem_iff.1 hi)) []]
  rw [List.nil_append]
  exact congrArg some (stored_all w x W n order
    (fun i hi => hperm.mem_iff.2 (List.mem_range.2 hi)))

theorem execute_neuron_task_other_cells (task : ComputeThread α)
    (buf buf' : List (Option α)) (h : execute_neuron_task task buf = some buf')
    (j : Nat) (hj : j ≠ task.thread_id) : buf'[j]? = buf[j]? := by
  unfold execute_neuron_task at h
  split at h
  · cases h
  · split at h
    · simp only [Option.some.injEq] at h
      rw [← h, List.getElem?_set_ne (fun h' => hj h'.symm)]
    · cases h

end Schedules2

/-! ## Lemmas: the character-level tokenizers -/

section Tokenizers
variable {α : Type}

theorem parse_separator (scanf : Scanf α) (c : Char) (fp : List Char) (hc : is_separator c) :
    parse_double_with_comma scanf (c :: fp) = parse_double_with_comma scanf fp := by
  unfold is_separator at hc
  rw [parse_double_with_comma]
  by_cases h1 : c = ' ' ∨ c = '\t' ∨ c = '\n' ∨ c = '\r'
  · simp only [h1, if_true]
  · have h2 : c = ',' := by tauto
    simp only [h1, h2, if_true, if_false, ite_self]

theorem parse_literal_head (scanf : Scanf α) (c : Char) (fp : List Char)
    (hc : ¬ is_separator c) :
    (∀ v r, scanf (c :: fp) = (some v, r) →
      parse_double_with_comma scanf (c :: fp) = (some v, skip_trailing r))
    ∧ (∀ r, scanf (c :: fp) = (none, r) →
      parse_double_with_comma scanf (c :: fp) = (none, r)) := by
  unfold is_separator at hc
  have h1 : ¬ (c = ' ' ∨ c = '\t' ∨ c = '\n' ∨ c = '\r') := by tauto
  have h2 : ¬ c = ',' := by tauto
  constructor
  · intro v r h
    rw [parse_double_with_comma]
    simp only [h1, h2, if_false, h]
  · intro r h
    rw [parse_double_with_comma]
    simp only [h1, h2, if_false, h]

theorem PC.p_c_parse_separator (scanf : Scanf α) (c : Char) (fp : List Char)
    (hc : is_separator c) :
    PC.parse_double_with_comma scanf (c :: fp) = PC.parse_double_with_comma scanf fp := by
  unfold is_separator at hc
  rw [PC.parse_double_with_comma]
  by_cases h1 : c = ' ' ∨ c = '\t' ∨ c = '\n' ∨ c = '\r'
  · simp only [h1, if_true]
  · have h2 : c = ',' := by tauto
    simp only [h1, h2, if_true, if_false, ite_self]

theorem PC.p_c_parse_literal_head (scanf : Scanf α) (c : Char) (fp : List Char)
    (hc : ¬ is_separator c) :
    (∀ v r, scanf (c :: fp) = (some v, r) →
      PC.parse_double_with_comma scanf (c :: fp) = (some v, PC.skip_one_comma r))
    ∧ (∀ r, scanf (c :: fp) = (none, r) →
      PC.parse_double_with_comma scanf (c :: fp) = (none, r)) := by
  unfold is_separator at hc
  have h1 : ¬ (c = ' ' ∨ c = '\t' ∨ c = '\n' ∨ c = '\r') := by tauto
  have h2 : ¬ c = ',' := by tauto
  constructor
  · intro v r h
    rw [PC.parse_double_with_comma]
    simp only [h1, h2, if_false, h]
  · intro r h
    rw [PC.parse_double_with_comma]
    simp only [h1, h2, if_false, h]

theorem skip_leading_head (fp : List Char) :
    skip_leading fp = [] ∨ ∃ c r, skip_leading fp = c :: r ∧ ¬ is_separator c := by
  induction fp with
  | nil => left; rfl
  | cons c fp ih =>
    by_cases hc : is_separator c
    · simp only [skip_leading, hc, if_true]; exact ih
    · right; exact ⟨c, fp, by simp only [skip_leading, hc, if_false], hc⟩

theorem parse_skip_leading (scanf : Scanf α) (fp : List Char) :
    parse_double_with_comma scanf fp = parse_double_with_comma scanf (skip_leading fp) := by
  induction fp with
  | nil => rfl
  | cons c fp ih =>
    by_cases hc : is_separator c
    · rw [parse_separator scanf c fp hc, ih]; simp only [skip_leading, hc, if_true]
    · simp only [skip_leading, hc, if_false]

theorem PC.p_c_parse_skip_leading (scanf : Scanf α) (fp : List Char) :
    PC.parse_double_with_comma scanf fp = PC.parse_double_with_comma scanf (skip_leading fp) := by
  induction fp with
  | nil => rfl
  | cons c fp ih =>
    by_cases hc : is_separator c
    · rw [PC.p_c_parse_separator scanf c fp hc, ih]; simp only [skip_leading, hc, if_true]
    · simp only [skip_leading, hc, if_false]

theorem skip_leading_append (pre fp : List Char) (hpre : AllSeparators pre) :
    skip_leading (pre ++ fp) = skip_leading fp := by
  induction pre with
  | nil => rfl
  | cons c pre ih =>
    have hc : is_separator c := hpre c (List.mem_cons_self _ _)
    simp only [List.cons_append, skip_leading, hc, if_true]
    exact ih (fun d hd => hpre d (List.mem_cons_of_mem _ hd))

theorem skip_leading_of_head (c : Char) (fp : List Char) (hc : ¬ is_separator c) :
    skip_leading (c :: fp) = c :: fp := by
  simp only [skip_leading, hc, if_false]

/-- What is left of a run of separators after the trailing loop of `project.cpp`. -/
theorem skip_trailing_separators (seps rest : List Char) (hseps : AllSeparators seps)
    (hrest : rest = [] ∨ ∃ c r, rest = c :: r ∧ ¬ is_separator c) :
    ∃ seps', AllSeparators seps' ∧ skip_trailing (seps ++ rest) = seps' ++ rest := by
  induction seps with
  | nil =>
    refine Exists.intro [] (And.intro hseps ?_)
    rcases hrest with h | ⟨c, r, h, hc⟩
    · subst h; rfl
    · subst h
      have h1 : ¬ (c = ',' ∨ c = ' ' ∨ c = '\t') := by unfold is_separator at hc; tauto
      simp only [List.nil_append, skip_trailing, h1, if_false]
  | cons d seps ih =>
    by_cases hd : d = ',' ∨ d = ' ' ∨ d = '\t'
    · obtain ⟨seps', h1, h2⟩ := ih (fun c hc => hseps c (List.mem_cons_of_mem _ hc))
      exact ⟨seps', h1, by simp only [List.cons_append, skip_trailing, hd, if_true]; exact h2⟩
    · exact ⟨d :: seps, hseps,
        by simp only [List.cons_append, skip_trailing, hd, if_false]; rfl⟩

/-- What is left of a run of separators after the trailing step of `p.c`. -/
theorem PC.skip_one_comma_separators (seps rest : List Char) (hseps : AllSeparators seps)
    (hrest : rest = [] ∨ ∃ c r, rest = c :: r ∧ ¬ is_separator c) :
    ∃ seps', AllSeparators seps' ∧ PC.skip_one_comma (seps ++ rest) = seps' ++ rest := by
  cases seps with
  | nil =>
    refine Exists.intro [] (And.intro hseps ?_)
    rcases hrest with h | ⟨c, r, h, hc⟩
    · subst h; rfl
    · subst h
      have h1 : ¬ c = ',' := by unfold is_separator at hc; tauto
      simp only [List.nil_append, PC.skip_one_comma, h1, if_false]
  | cons d seps =>
    by_cases hd : d = ','
    · exact ⟨seps, fun c hc => hseps c (List.mem_cons_of_mem _ hc),
        by simp only [List.cons_append, PC.skip_one_comma, hd, if_true]⟩
    · exact ⟨d :: seps, hseps,
        by simp only [List.cons_append, PC.skip_one_comma, hd, if_false]⟩

end Tokenizers

section LiteralStreams
variable {α : Type}

theorem items_head (scanf : Scanf α) (items : List (List Char × α × List Char))
    (hwf : WellFormedItems scanf items) :
    items.flatMap (fun item => item.1 ++ item.2.2) = []
      ∨ ∃ c r, items.flatMap (fun item => item.1 ++ item.2.2) = c :: r ∧ ¬ is_separator c := by
  cases items with
  | nil => left; rfl
  | cons item items =>
    right
    obtain ⟨⟨⟨c, cs, hlit, hc⟩, _⟩, _, _, _⟩ := hwf
    refine ⟨c, cs ++ item.2.2 ++ items.flatMap (fun item => item.1 ++ item.2.2), ?_, hc⟩
    simp [List.flatMap_cons, hlit]

/-- The successive calls of a tokenizer on a stream of literals, for any
tokenizer that skips leading separators, converts with `scanf` and then
applies the trailing step `t`. -/
theorem literal_stream_tokens (scanf : Scanf α) (parse : List Char → Option α × List Char)
    (t : List Char → List Char)
    (hsep : ∀ fp, parse fp = parse (skip_leading fp))
    (hnil : parse [] = (none, []))
    (hlit : ∀ c fp, ¬ is_separator c → ∀ v r, scanf (c :: fp) = (some v, r) →
      parse (c :: fp) = (some v, t r))
    (ht : ∀ seps rest, AllSeparators seps →
      (rest = [] ∨ ∃ c r, rest = c :: r ∧ ¬ is_separator c) →
      ∃ seps', AllSeparators seps' ∧ t (seps ++ rest) = seps' ++ rest)
    (items : List (List Char × α × List Char)) (hwf : WellFormedItems scanf items) :
    ∀ pre, AllSeparators pre →
      ∃ fp', Tokens parse (pre ++ items.flatMap (fun item => item.1 ++ item.2.2))
          (items.map (fun item => item.2.1)) fp' ∧ (parse fp').1 = none := by
  induction items with
  | nil =>
    intro pre hpre
    refine ⟨pre, by simp [Tokens], ?_⟩
    rw [hsep]
    have := skip_leading_append pre [] hpre
    rw [List.append_nil] at this
    rw [this]
    simp [skip_leading, hnil]
  | cons item items ih =>
    intro pre hpre
    obtain ⟨hislit, hseps, hne, hrest⟩ := hwf
    have hhead := items_head scanf items hrest
    obtain ⟨⟨c, cs, hc1, hc2⟩, hconv⟩ := hislit
    have hfollow : ∀ d ∈ (item.2.2 ++ items.flatMap (fun item => item.1 ++ item.2.2)).head?,
        is_separator d := by
      intro d hd
      cases hs : item.2.2 with
      | nil =>
        have hitems : items = [] := by
          by_contra h
          exact hne h hs
        subst hitems
        rw [hs] at hd
        simp at hd
      | cons e es =>
        rw [hs] at hd
        simp only [List.cons_append, List.head?_cons, Option.mem_def, Option.some.injEq] at hd
        subst hd
        exact hseps e (by rw [hs]; exact List.mem_cons_self _ _)
    have hscan := hconv _ hfollow
    obtain ⟨seps', hs1, hs2⟩ := ht item.2.2 _ hseps hhead
    obtain ⟨fp', hT, hend⟩ := ih hrest seps' hs1
    refine ⟨fp', ?_, hend⟩
    simp only [List.flatMap_cons, List.map_cons, Tokens]
    refine ⟨seps' ++ items.flatMap (fun item => item.1 ++ item.2.2), ?_, hT⟩
    rw [hsep, skip_leading_append _ _ hpre, List.append_assoc, hc1, List.cons_append,
      skip_leading_of_head c _ hc2]
    rw [hc1, List.cons_append] at hscan
    rw [hlit c _ hc2 _ _ hscan, hs2]

end LiteralStreams

section ScanDecimal

theorem takeWhile_digits_append (ds rest : List Char) (hds : ∀ c ∈ ds, c.isDigit = true)
    (hrest : ∀ c ∈ rest.head?, c.isDigit = false) :
    (ds ++ rest).takeWhile Char.isDigit = ds ∧ (ds ++ rest).dropWhile Char.isDigit = rest := by
  induction ds with
  | nil =>
    cases rest with
    | nil => exact ⟨rfl, rfl⟩
    | cons c r =>
      have hc : c.isDigit = false := hrest c (by simp)
      simp [List.takeWhile, List.dropWhile, hc]
  | cons d ds ih =>
    have hd : d.isDigit = true := hds d (List.mem_cons_self _ _)
    obtain ⟨h1, h2⟩ := ih (fun c hc => hds c (List.mem_cons_of_mem _ hc))
    simp only [List.cons_append, List.takeWhile, List.dropWhile, hd]
    exact ⟨congrArg (List.cons d) h1, h2⟩

theorem separator_not_digit (c : Char) (hc : is_separator c) : c.isDigit = false := by
  unfold is_separator at hc
  rcases hc with h | h | h | h | h <;> subst h <;> decide

/-- A run of decimal digits is a literal for `scan_decimal`. -/
theorem scan_decimal_isLiteral {α : Type} [NatCast α] (d : Char) (ds : List Char)
    (hds : ∀ c ∈ d :: ds, c.isDigit = true) :
    IsLiteral (scan_decimal : Scanf α) (d :: ds) ((digits_value (d :: ds) : Nat) : α) := by
  constructor
  · refine ⟨d, ds, rfl, ?_⟩
    intro hsep
    have := separator_not_digit d hsep
    rw [hds d (List.mem_cons_self _ _)] at this
    cases this
  · intro rest hrest
    obtain ⟨h1, h2⟩ := takeWhile_digits_append (d :: ds) rest hds
      (fun c hc => separator_not_digit c (hrest c hc))
    unfold scan_decimal
    simp only [h1, h2]

end ScanDecimal

section WhiteSpace
variable {α : Type}

/-- The tokenizer fails exactly at the end of the file or when its single
conversion fails. -/
theorem parse_fails_iff_conversion_fails (scanf : Scanf α) (fp : List Char) :
    ((parse_double_with_comma scanf fp).1 = none
      ↔ (skip_leading fp = [] ∨ (scanf (skip_leading fp)).1 = none))
    ∧ (skip_leading fp = [] → parse_double_with_comma scanf fp = (none, []))
    ∧ (skip_leading fp ≠ [] → (scanf (skip_leading fp)).1 = none →
        parse_double_with_comma scanf fp = (none, (scanf (skip_leading fp)).2)) := by
  rw [parse_skip_leading scanf fp]
  rcases skip_leading_head fp with h | ⟨c, r, h, hc⟩
  · rw [h]
    refine ⟨⟨fun _ => Or.inl rfl, fun _ => rfl⟩, fun _ => rfl, fun hne => absurd rfl hne⟩
  · rw [h]
    obtain ⟨hok, hfail⟩ := parse_literal_head scanf c r hc
    rcases hs : scanf (c :: r) with ⟨res, rest⟩
    cases res with
    | none =>
      rw [hfail rest hs]
      exact ⟨⟨fun _ => Or.inr rfl, fun _ => rfl⟩, fun hnil => (by cases hnil), fun _ _ => rfl⟩
    | some v =>
      rw [hok v rest hs]
      refine ⟨⟨fun hn => (by cases hn), fun hn => ?_⟩, fun hnil => (by cases hnil),
        fun _ hn => (by cases hn)⟩
      rcases hn with hn | hn
      · cases hn
      · cases hn

/-- The reference conversion fails exactly on a stream that does not begin
with a digit. -/
theorem scan_decimal_fails_iff [NatCast α] (fp : List Char) :
    ((scan_decimal : Scanf α) fp).1 = none ↔ ¬ begins_with_digit fp := by
  cases fp with
  | nil => simp [scan_decimal, begins_with_digit]
  | cons c r =>
    by_cases hc : c.isDigit = true
    · simp [scan_decimal, begins_with_digit, List.takeWhile, hc]
    · simp [scan_decimal, begins_with_digit, List.takeWhile, hc]

theorem scan_lf_decimal_fails_iff [NatCast α] (fp : List Char) :
    (scan_lf (scan_decimal : Scanf α) fp).1 = none
      ↔ ¬ begins_with_digit (skip_white_space fp) :=
  scan_decimal_fails_iff (skip_white_space fp)

end WhiteSpace

/-! ## Lemmas: failed reads and what every stage sends -/

section FailedReads
variable {α β σ : Type} [Zero α] [Add α] [Mul α]

omit [Zero α] [Add α] [Mul α] in
theorem read_from_pipe_truncated (R : ObjRep α β) (pipe : List β)
    (h : (pipe.length : Int) < 4 + 8 * R.bytes_int (pipe.take 4)) :
    (read_from_pipe R pipe).1 = none := by
  unfold read_from_pipe
  by_cases h4 : (pipe.take 4).length = 4
  · simp only [h4, ne_eq, not_true_eq_false, if_false]
    by_cases hn : R.bytes_int (pipe.take 4) < 0
    · simp only [hn, if_true]
    · simp only [hn, if_false]
      have hlen : ((pipe.drop 4).take ((R.bytes_int (pipe.take 4)).toNat * 8)).length
          ≠ (R.bytes_int (pipe.take 4)).toNat * 8 := by
        rw [List.length_take, List.length_drop]
        rw [List.length_take] at h4
        omega
      simp only [ne_eq, hlen, not_false_eq_true, if_true]
  · simp only [ne_eq, h4, not_false_eq_true, if_true]

omit [Zero α] [Add α] [Mul α] in
theorem read_from_pipe_short_prefix (R : ObjRep α β) (pipe : List β) (h : pipe.length < 4) :
    (read_from_pipe R pipe).1 = none := by
  unfold read_from_pipe
  have h4 : (pipe.take 4).length ≠ 4 := by rw [List.length_take]; omega
  simp only [ne_eq, h4, not_false_eq_true, if_true]

theorem hidden_layer_process_no_frame (parse : Tokenizer σ α) (R : ObjRep α β) (k N : Nat)
    (pipe : List β) (file : σ) (h : (read_from_pipe R pipe).1 = none) :
    hidden_layer_process parse R k N pipe file = .error .pipe_read := by
  unfold hidden_layer_process
  rcases hp : read_from_pipe R pipe with ⟨res, rest⟩
  rw [hp] at h
  simp only at h
  subst h
  rfl

theorem output_layer_process_no_frame [Sub α] [Div α] [OfScientific α]
    (parse : Tokenizer σ α) (R : ObjRep α β) (N H : Nat)
    (pipe : List β) (file : σ) (h : (read_from_pipe R pipe).1 = none) :
    output_layer_process parse R N pipe file H = .error .pipe_read := by
  unfold output_layer_process
  rcases hp : read_from_pipe R pipe with ⟨res, rest⟩
  rw [hp] at h
  simp only at h
  subst h
  rfl

theorem second_input_layer_process_no_frame (parse : Tokenizer σ α) (R : ObjRep α β)
    (N H : Nat) (pipe : List β) (file : σ) (h : (read_from_pipe R pipe).1 = none) :
    second_input_layer_process parse R N pipe file H = .error .pipe_read := by
  unfold second_input_layer_process
  rcases hp : read_from_pipe R pipe with ⟨res, rest⟩
  rw [hp] at h
  simp only at h
  subst h
  rfl

theorem second_hidden_layer_process_no_frame (parse : Tokenizer σ α) (R : ObjRep α β)
    (k N H : Nat) (pipe : List β) (file : σ) (h : (read_from_pipe R pipe).1 = none) :
    second_hidden_layer_process parse R k N pipe file H = .error .pipe_read := by
  unfold second_hidden_layer_process
  rcases hp : read_from_pipe R pipe with ⟨res, rest⟩
  rw [hp] at h
  simp only at h
  subst h
  rfl

theorem second_output_layer_process_no_frame (parse : Tokenizer σ α) (R : ObjRep α β)
    (N H : Nat) (pipe : List β) (file : σ) (h : (read_from_pipe R pipe).1 = none) :
    second_output_layer_process parse R N pipe file H = .error .pipe_read := by
  unfold second_output_layer_process
  rcases hp : read_from_pipe R pipe with ⟨res, rest⟩
  rw [hp] at h
  simp only at h
  subst h
  rfl

end FailedReads

section SentFrames
variable {α β σ : Type} [Zero α] [Add α] [Mul α]

theorem compute_and_send_report (parse : Tokenizer σ α) (R : ObjRep α β) (N c : Nat)
    (x : List α) (fp : σ) (record : List α → List (ReportLine α)) (s : StageExit α β σ)
    (h : compute_and_send parse R N c x fp record = .ok s) : s.report = record s.output := by
  unfold compute_and_send at h
  split at h
  · cases h
  · split at h
    · cases h
    · split at h
      · cases h
      · simp only [Except.ok.injEq] at h
        subst h
        rfl

/-- What a stage built on the common tail holds when it terminates. -/
theorem tail_stage_inv (parse : Tokenizer σ α) (R : ObjRep α β) (N : Nat) (pipe : List β)
    (fp : σ) (record : List α → List (ReportLine α)) (s : StageExit α β σ)
    (h : (match read_from_pipe R pipe with
      | (none, _) => (.error .pipe_read : Except Fatal (StageExit α β σ))
      | (some (input_data, input_count), _) =>
        compute_and_send parse R N input_count input_data fp record) = .ok s) :
    s.output.length = N ∧ s.sent = frame R s.output ∧ s.report = record s.output := by
  split at h
  · cases h
  · exact ⟨(compute_and_send_inv parse R N _ _ _ _ s h).2.2.1,
      (compute_and_send_inv parse R N _ _ _ _ s h).2.2.2,
      compute_and_send_report parse R N _ _ _ _ s h⟩

theorem input_layer_process_inv (parse : Tokenizer σ α) (R : ObjRep α β) (N : Nat)
    (file : σ) (s : StageExit α β σ) (h : input_layer_process parse R N file = .ok s) :
    s.output.length = N ∧ s.sent = frame R s.output
      ∧ ∃ v0 v1, s.report = input_record v0 v1 s.output := by
  unfold input_layer_process at h
  split at h
  · cases h
  · split at h
    · cases h
    · exact ⟨(compute_and_send_inv parse R N _ _ _ _ s h).2.2.1,
        (compute_and_send_inv parse R N _ _ _ _ s h).2.2.2,
        _, _, compute_and_send_report parse R N _ _ _ _ s h⟩

theorem hidden_layer_process_inv (parse : Tokenizer σ α) (R : ObjRep α β) (k N : Nat)
    (pipe : List β) (file : σ) (s : StageExit α β σ)
    (h : hidden_layer_process parse R k N pipe file = .ok s) :
    s.output.length = N ∧ s.sent = frame R s.output ∧ s.report = hidden_record k s.output :=
  tail_stage_inv parse R N pipe _ _ s h

theorem second_input_layer_process_inv' (parse : Tokenizer σ α) (R : ObjRep α β) (N H : Nat)
    (pipe : List β) (file : σ) (s : StageExit α β σ)
    (h : second_input_layer_process parse R N pipe file H = .ok s) :
    s.output.length = N ∧ s.sent = frame R s.output
      ∧ s.report = second_input_record s.output :=
  tail_stage_inv parse R N pipe _ _ s h

theorem second_hidden_layer_process_inv (parse : Tokenizer σ α) (R : ObjRep α β)
    (k N H : Nat) (pipe : List β) (file : σ) (s : StageExit α β σ)
    (h : second_hidden_layer_process parse R k N pipe file H = .ok s) :
    s.output.length = N ∧ s.sent = frame R s.output
      ∧ s.report = second_hidden_record k s.output :=
  tail_stage_inv parse R N pipe _ _ s h

theorem second_output_layer_process_inv (parse : Tokenizer σ α) (R : ObjRep α β)
    (N H : Nat) (pipe : List β) (file : σ) (s : StageExit α β σ)
    (h : second_output_layer_process parse R N pipe file H = .ok s) :
    s.output.length = N ∧ s.sent = [] ∧ s.report = second_output_record s.output := by
  unfold second_output_layer_process at h
  simp only at h
  split at h
  · cases h
  · split at h
    · cases h
    · split at h
      · cases h
      · rename_i output hl
        simp only [Except.ok.injEq] at h
        subst h
        exact ⟨launch_neuron_threads_length _ _ _ _ _ hl, rfl, rfl⟩

omit [Zero α] [Add α] [Mul α] in
theorem fork_hidden_layers_mem (stage : Nat → List β → Except Fatal (StageExit α β σ))
    (count : Nat) : ∀ (i : Nat) (pipe : List β) (r : Except Fatal (StageExit α β σ)),
      r ∈ (fork_hidden_layers stage i count pipe).1 → ∃ k p, r = stage k p := by
  induction count with
  | zero => intro i pipe r hr; simp [fork_hidden_layers] at hr
  | succ count ih =>
    intro i pipe r hr
    simp only [fork_hidden_layers, List.mem_cons] at hr
    rcases hr with hr | hr
    · exact ⟨i + 1, pipe, hr⟩
    · exact ih _ _ r hr

/-- A property that every stage function has, whatever it reads, holds of every
sending stage of a run. -/
theorem sending_stages_forall [Sub α] [Div α] [OfScientific α]
    (P : Except Fatal (StageExit α β σ) → Prop) (parse : Tokenizer σ α) (R : ObjRep α β)
    (file : σ) (H N : Nat)
    (h0 : P (input_layer_process parse R N file))
    (h1 : ∀ k p, P (hidden_layer_process parse R k N p file))
    (h2 : ∀ p, P (output_layer_process parse R N p file H))
    (h3 : ∀ p, P (second_input_layer_process parse R N p file H))
    (h4 : ∀ k p, P (second_hidden_layer_process parse R k N p file H)) :
    ∀ r ∈ sending_stages (run_passes parse R file H N), P r := by
  intro r hr
  simp only [sending_stages, run_passes, List.mem_append, List.mem_singleton] at hr
  rcases hr with (((hr | hr) | hr) | hr) | hr
  · rw [hr]; exact h0
  · obtain ⟨k, p, hkp⟩ := fork_hidden_layers_mem _ _ _ _ r hr
    rw [hkp]; exact h1 k p
  · rw [hr]; exact h2 _
  · rw [hr]; exact h3 _
  · obtain ⟨k, p, hkp⟩ := fork_hidden_layers_mem _ _ _ _ r hr
    rw [hkp]; exact h4 k p

omit [Zero α] [Add α] [Mul α] in
theorem pipe_of_ne_nil (r : Except Fatal (StageExit α β σ))
    (h : pipe_of r ≠ []) : ∃ s, r = .ok s := by
  cases r with
  | error e => exact absurd rfl h
  | ok s => exact ⟨s, rfl⟩

omit [Zero α] [Add α] [Mul α] in
/-- When the last pipe of a chain of hidden layers holds something, every layer
of the chain has terminated normally and the first pipe held something. -/
theorem fork_hidden_layers_all_ok (stage : Nat → List β → Except Fatal (StageExit α β σ))
    (hstage : ∀ k p s, stage k p = .ok s → p ≠ []) (count : Nat) :
    ∀ (i : Nat) (pipe : List β), (fork_hidden_layers stage i count pipe).2 ≠ [] →
      (∀ r ∈ (fork_hidden_layers stage i count pipe).1, ∃ s, r = .ok s) ∧ pipe ≠ [] := by
  induction count with
  | zero =>
    intro i pipe h
    exact ⟨fun r hr => by simp [fork_hidden_layers] at hr, h⟩
  | succ count ih =>
    intro i pipe h
    simp only [fork_hidden_layers] at h ⊢
    obtain ⟨hall, hp⟩ := ih (i + 1) _ h
    obtain ⟨s, hs⟩ := pipe_of_ne_nil _ hp
    refine ⟨?_, hstage _ _ s hs⟩
    intro r hr
    rcases List.mem_cons.1 hr with hr | hr
    · exact ⟨s, by rw [hr, hs]⟩
    · exact hall r hr

omit [Zero α] [Add α] [Mul α] in
theorem frame_ne_nil (R : ObjRep α β) (values : List α) : frame R values ≠ [] := by
  intro h
  have := frame_length R values
  rw [h, List.length_nil] at this
  omega

end SentFrames

section AllOk
variable {α β σ : Type} [Zero α] [Add α] [Mul α] [Sub α] [Div α] [OfScientific α]

omit [Zero α] [Add α] [Mul α] [Sub α] [Div α] [OfScientific α] in
theorem read_from_pipe_nil_fails (R : ObjRep α β) : (read_from_pipe R ([] : List β)).1 = none :=
  read_from_pipe_short_prefix R [] (by simp)

/-- When the last stage of a run has terminated normally, so has every stage
of both passes. -/
theorem last_ok_all_ok (parse : Tokenizer σ α) (R : ObjRep α β) (file : σ) (H N : Nat)
    (s : StageExit α β σ) (h : (run_passes parse R file H N).2.output = .ok s) :
    ∀ r ∈ all_stages (run_passes parse R file H N), ∃ s', r = .ok s' := by
  have hstage1 : ∀ k p s, hidden_layer_process parse R k N p file = .ok s → p ≠ [] := by
    intro k p s hs hp
    subst hp
    rw [hidden_layer_process_no_frame parse R k N [] file (read_from_pipe_nil_fails R)] at hs
    cases hs
  have hstage2 : ∀ k p s, second_hidden_layer_process parse R k N p file H = .ok s → p ≠ [] := by
    intro k p s hs hp
    subst hp
    rw [second_hidden_layer_process_no_frame parse R k N H [] file
      (read_from_pipe_nil_fails R)] at hs
    cases hs
  simp only [run_passes] at h
  -- the last pipe of the second pass holds something
  have hp5 : (fork_hidden_layers
      (fun layer_num pipe => second_hidden_layer_process parse R layer_num N pipe file H) 0 H
      (pipe_of (second_input_layer_process parse R N
        (pipe_of (output_layer_process parse R N
          (fork_hidden_layers (fun layer_num pipe =>
            hidden_layer_process parse R layer_num N pipe file) 0 H
            (pipe_of (input_layer_process parse R N file))).2 file H)) file H))).2 ≠ [] := by
    intro hp
    rw [hp, second_output_layer_process_no_frame parse R N H [] file
      (read_from_pipe_nil_fails R)] at h
    cases h
  obtain ⟨hall2, hp4⟩ := fork_hidden_layers_all_ok _ hstage2 H 0 _ hp5
  obtain ⟨s4, hs4⟩ := pipe_of_ne_nil _ hp4
  have hp3 : pipe_of (output_layer_process parse R N
      (fork_hidden_layers (fun layer_num pipe =>
        hidden_layer_process parse R layer_num N pipe file) 0 H
        (pipe_of (input_layer_process parse R N file))).2 file H) ≠ [] := by
    intro hp
    rw [hp, second_input_layer_process_no_frame parse R N H [] file
      (read_from_pipe_nil_fails R)] at hs4
    cases hs4
  obtain ⟨s3, hs3⟩ := pipe_of_ne_nil _ hp3
  have hp2 : (fork_hidden_layers (fun layer_num pipe =>
        hidden_layer_process parse R layer_num N pipe file) 0 H
        (pipe_of (input_layer_process parse R N file))).2 ≠ [] := by
    intro hp
    rw [hp, output_layer_process_no_frame parse R N H [] file
      (read_from_pipe_nil_fails R)] at hs3
    cases hs3
  obtain ⟨hall1, hp1⟩ := fork_hidden_layers_all_ok _ hstage1 H 0 _ hp2
  obtain ⟨s1, hs1⟩ := pipe_of_ne_nil _ hp1
  intro r hr
  simp only [all_stages, run_passes, List.mem_append, List.mem_singleton] at hr
  rcases hr with ((((hr | hr) | hr) | hr) | hr) | hr
  · exact ⟨s1, by rw [hr, hs1]⟩
  · exact hall1 r hr
  · exact ⟨s3, by rw [hr, hs3]⟩
  · exact ⟨s4, by rw [hr, hs4]⟩
  · exact hall2 r hr
  · exact ⟨s, by rw [hr, h]⟩

end AllOk

section SuccessLine
variable {α : Type}

theorem success_line_not_in_value_lines (line : Nat → α → ReportLine α)
    (hline : ∀ i v, line i v ≠ success_line) (output : List α) :
    success_line ∉ value_lines line output := by
  intro h
  unfold value_lines at h
  rw [List.mem_map] at h
  obtain ⟨p, _, hp⟩ := h
  exact hline p.1 p.2 hp

theorem success_line_not_in_input_record (v0 v1 : α) (output : List α) :
    success_line ∉ input_record v0 v1 output := by
  have := success_line_not_in_value_lines ReportLine.neuron
    (fun i v h => by simp [success_line] at h) output
  simp [input_record, success_line] at this ⊢
  exact this

theorem success_line_not_in_hidden_record (k : Nat) (output : List α) :
    success_line ∉ hidden_record k output := by
  have := success_line_not_in_value_lines ReportLine.neuron
    (fun i v h => by simp [success_line] at h) output
  simp [hidden_record, success_line] at this ⊢
  exact this

theorem success_line_not_in_second_input_record (output : List α) :
    success_line ∉ second_input_record output := by
  have := success_line_not_in_value_lines ReportLine.neuron
    (fun i v h => by simp [success_line] at h) output
  simp [second_input_record, success_line] at this ⊢
  exact this

theorem success_line_not_in_second_hidden_record (k : Nat) (output : List α) :
    success_line ∉ second_hidden_record k output := by
  have := success_line_not_in_value_lines ReportLine.neuron
    (fun i v h => by simp [success_line] at h) output
  simp [second_hidden_record, success_line] at this ⊢
  exact this

theorem success_line_not_in_output_record [Add α] [Sub α] [Mul α] [Div α] [OfScientific α]
    (output : List α) : success_line ∉ output_record output := by
  have h1 := success_line_not_in_value_lines ReportLine.output
    (fun i v h => by simp [success_line] at h) output
  have h2 := success_line_not_in_value_lines
    (fun i (val : α) => ReportLine.backward i (fx1 val) (fx2 val))
    (fun i v h => by simp [success_line] at h) output
  simp [output_record, success_line] at h1 h2 ⊢
  exact ⟨h1, h2⟩

theorem success_line_in_second_output_record (output : List α) :
    success_line ∈ second_output_record output := by
  simp [second_output_record, success_line]

end SuccessLine

/-! ## Lemmas: the end-to-end scenario -/

section Scenario

theorem scenario_values (W' : List ℚ) :
    pass1_input_out (0.5 :: 0.5 :: 1.0 :: 1.0 :: W') 1 (1.0 : ℚ) 2.0 = [1.5]
    ∧ pass1_hidden_out (0.5 :: 0.5 :: 1.0 :: 1.0 :: W') 1 1 (1.0 : ℚ) 2.0 = [1.5]
    ∧ pass1_out (0.5 :: 0.5 :: 1.0 :: 1.0 :: W') 1 1 (1.0 : ℚ) 2.0 = [1.5] := by
  refine ⟨?_, ?_, ?_⟩ <;>
  norm_num [pass1_out, pass1_hidden_out, pass1_input_out, hidden_chain, layer_output, dot_row,
    slice, List.range_succ]

theorem scenario_values_pass2 (W' : List ℚ) :
    (pass1_out (0.5 :: 0.5 :: 1.0 :: 1.0 :: 1.0 :: 1.0 :: 1.0 :: W') 1 1 (1.0 : ℚ) 2.0).map fx1
      = [2.375]
    ∧ pass2_input_out (0.5 :: 0.5 :: 1.0 :: 1.0 :: 1.0 :: 1.0 :: 1.0 :: W') 1 1 (1.0 : ℚ) 2.0
      = [2.375]
    ∧ pass2_hidden_out (0.5 :: 0.5 :: 1.0 :: 1.0 :: 1.0 :: 1.0 :: 1.0 :: W') 1 1 (1.0 : ℚ) 2.0
      = [2.375]
    ∧ pass2_out (0.5 :: 0.5 :: 1.0 :: 1.0 :: 1.0 :: 1.0 :: 1.0 :: W') 1 1 (1.0 : ℚ) 2.0
      = [2.375] := by
  refine ⟨?_, ?_, ?_, ?_⟩ <;>
  norm_num [pass2_out, pass2_hidden_out, pass2_input_out, pass1_out, pass1_hidden_out,
    pass1_input_out, hidden_chain, layer_output, dot_row, slice, List.range_succ, fx1]

theorem list_eq_singleton {γ : Type} (l : List γ) (a : γ) (hlen : l.length = 1)
    (h0 : l[0]? = some a) : l = [a] := by
  cases l with
  | nil => cases hlen
  | cons b l =>
    cases l with
    | nil => simp only [List.getElem?_cons_zero, Option.some.injEq] at h0; rw [h0]
    | cons c l => simp at hlen

end Scenario

/-! ## The claims C11 to C20 -/

section ClaimsB

/-- C11. For every input vector of width `w`, every weight matrix with `n`
rows and every map `s` of the row indices `0..n-1` into themselves (in
particular every permutation), `launch_neuron_threads` on the matrix whose row
`i` is the original row `s i` returns the vector whose entry `i` is the
original output entry `s i`: permuting the rows permutes the output
identically. -/
theorem permuting_rows_permutes_outputs {α : Type} [Zero α] [Add α] [Mul α] (n w : Nat)
    (x W : List α) (s : Nat → Nat) (hx : x.length = w) (hW : W.length = n * w)
    (hs : ∀ i, i < n → s i < n) :
    ∃ r r', launch_neuron_threads n w x W = some r
      ∧ launch_neuron_threads n w x (permute_rows w W s n) = some r'
      ∧ r'.length = n ∧ ∀ i, i < n → r'[i]? = r[s i]? := by
  refine ⟨_, _, launch_neuron_threads_eq n w x W hx hW,
    launch_neuron_threads_eq n w x _ hx (permute_rows_length w W s n n hW hs), by simp, ?_⟩
  intro i hi
  rw [List.getElem?_map, List.getElem?_map, List.getElem?_range hi,
    List.getElem?_range (hs i hi)]
  simp only [Option.map_some']
  rw [dot_row_permute_rows w x W s n n hW hs i hi]

/-- C11, on three rows of width 2 rotated by one place. -/
theorem permuting_rows_permutes_outputs_witness :
    ∃ r r', launch_neuron_threads 3 2 [(1 : ℤ), 2] [3, 4, 5, 6, 7, 8] = some r
      ∧ launch_neuron_threads 3 2 [(1 : ℤ), 2]
          (permute_rows 2 [(3 : ℤ), 4, 5, 6, 7, 8] (fun i => (i + 1) % 3) 3) = some r'
      ∧ r'.length = 3 ∧ ∀ i, i < 3 → r'[i]? = r[(fun i => (i + 1) % 3) i]? :=
  permuting_rows_permutes_outputs 3 2 [(1 : ℤ), 2] [3, 4, 5, 6, 7, 8] (fun i => (i + 1) % 3)
    (by decide) (by decide) (by decide)

/-- C12. For fixed input vector and weights, the results buffer is the same
for every order in which the `n` neuron tasks store their results: every
schedule `order` (a permutation of `0..n-1`) leaves the buffer that the
creation order leaves, so `launch_neuron_threads` returns the same vector; and
task `i` changes no cell of the buffer other than `results[i]`. -/
theorem store_order_does_not_matter {α : Type} [Zero α] [Add α] [Mul α] (n w : Nat)
    (x W : List α) (order : List Nat) (hx : x.length = w) (hW : W.length = n * w)
    (hperm : order.Perm (List.range n)) :
    run_neuron_threads order n w x W = run_neuron_threads (List.range n) n w x W
    ∧ (run_neuron_threads order n w x W).bind read_results = launch_neuron_threads n w x W
    ∧ ∀ (i : Nat) (results results' : List (Option α)) (j : Nat),
        execute_neuron_task (task_params w x W i) results = some results' → j ≠ i →
        results'[j]? = results[j]? := by
  have h1 := run_neuron_threads_schedule n w x W hx hW order hperm
  have h2 := run_neuron_threads_schedule n w x W hx hW (List.range n) (List.Perm.refl _)
  refine ⟨by rw [h1, h2], ?_, ?_⟩
  · rw [h1]
    unfold launch_neuron_threads
    rw [h2]
    rfl
  · intro i results results' j h hj
    exact execute_neuron_task_other_cells _ _ _ h j hj

/-- C12, on three neurons of width 2 whose stores happen in the order 2, 0, 1. -/
theorem store_order_does_not_matter_witness :
    run_neuron_threads [2, 0, 1] 3 2 [(1 : ℤ), 2] [3, 4, 5, 6, 7, 8]
      = run_neuron_threads (List.range 3) 3 2 [(1 : ℤ), 2] [3, 4, 5, 6, 7, 8] :=
  (store_order_does_not_matter 3 2 [(1 : ℤ), 2] [3, 4, 5, 6, 7, 8] [2, 0, 1]
    (by decide) (by decide) (by decide)).1

end ClaimsB

section ClaimsC

/-- C13. On a stream made of `m` well-formed floating-point literals, each
followed by a run of separator characters (space, tab, newline, carriage
return, comma) that is non-empty between two literals, with any leading and
trailing separators, the `k`-th successive call of `parse_double_with_comma`
returns the value of the `k`-th literal, for `k = 1..m`, and call `m + 1`
fails, in `project.cpp` and in `p.c` alike: runs of separators, such as two
adjacent commas, produce no token. -/
theorem tokenizer_reads_literal_stream {α : Type} (scanf : Scanf α) (lead : List Char)
    (items : List (List Char × α × List Char)) (hlead : AllSeparators lead)
    (hwf : WellFormedItems scanf items) :
    (∃ fp', Tokens (parse_double_with_comma scanf) (literal_stream lead items)
        (items.map (fun item => item.2.1)) fp'
      ∧ (parse_double_with_comma scanf fp').1 = none)
    ∧ (∃ fp', Tokens (PC.parse_double_with_comma scanf) (literal_stream lead items)
        (items.map (fun item => item.2.1)) fp'
      ∧ (PC.parse_double_with_comma scanf fp').1 = none) := by
  constructor
  · exact literal_stream_tokens scanf (parse_double_with_comma scanf) skip_trailing
      (parse_skip_leading scanf) rfl
      (fun c fp hc v r h => (parse_literal_head scanf c fp hc).1 v r h)
      skip_trailing_separators items hwf lead hlead
  · exact literal_stream_tokens scanf (PC.parse_double_with_comma scanf) PC.skip_one_comma
      (PC.p_c_parse_skip_leading scanf) rfl
      (fun c fp hc v r h => (PC.p_c_parse_literal_head scanf c fp hc).1 v r h)
      PC.skip_one_comma_separators items hwf lead hlead

/-- C13, on the stream ` ,` newline `12,,7` space newline `3`. -/
theorem tokenizer_reads_literal_stream_witness :
    ∃ fp', Tokens (parse_double_with_comma (scan_decimal : Scanf ℚ))
        (literal_stream " ,\n".toList
          [("12".toList, (12 : ℚ), ",,".toList), ("7".toList, 7, " \n".toList),
           ("3".toList, 3, [])])
        [12, 7, 3] fp'
      ∧ (parse_double_with_comma (scan_decimal : Scanf ℚ) fp').1 = none :=
  (tokenizer_reads_literal_stream (scan_decimal : Scanf ℚ) " ,\n".toList
    [("12".toList, (12 : ℚ), ",,".toList), ("7".toList, 7, " \n".toList), ("3".toList, 3, [])]
    (by unfold AllSeparators; decide)
    ⟨scan_decimal_isLiteral '1' ['2'] (by decide), by unfold AllSeparators; decide, by decide,
     scan_decimal_isLiteral '7' [] (by decide), by unfold AllSeparators; decide, by decide,
     scan_decimal_isLiteral '3' [] (by decide), by unfold AllSeparators; decide, by decide,
     trivial⟩).1

/-- C15 fails: in `p.c` the literal `1` followed by a space leaves the space
in the stream (only a comma is consumed), and in `project.cpp` the literal `1`
followed by a newline leaves the newline in the stream (only commas, spaces
and tabs are consumed). -/
theorem trailing_separator_left_in_stream :
    PC.parse_double_with_comma (scan_decimal : Scanf ℚ) "1 2".toList = (some 1, " 2".toList)
    ∧ parse_double_with_comma (scan_decimal : Scanf ℚ) "1\n2".toList
        = (some 1, "\n2".toList) := by
  constructor <;> decide

/-- C15 as amended. After every successful call on a stream in which the
parsed literal is immediately followed by a comma, that comma has been
consumed, in `p.c` (which leaves the stream right after it) and in
`project.cpp`; in `project.cpp` the same holds when the literal is followed by
a space or a tab, and the stream is left after all the commas, spaces and tabs
that follow directly. -/
theorem trailing_comma_consumed {α : Type} (scanf : Scanf α) (fp : List Char) (v : α)
    (c : Char) (r : List Char) (hne : skip_leading fp ≠ [])
    (h : scanf (skip_leading fp) = (some v, c :: r)) :
    (c = ',' → PC.parse_double_with_comma scanf fp = (some v, r))
    ∧ (c = ',' ∨ c = ' ' ∨ c = '\t' →
        parse_double_with_comma scanf fp = (some v, skip_trailing r)
        ∧ ∃ skipped, r = skipped ++ skip_trailing r
            ∧ ∀ d ∈ skipped, d = ',' ∨ d = ' ' ∨ d = '\t') := by
  rcases skip_leading_head fp with h0 | ⟨d, r', hd, hdc⟩
  · exact absurd h0 hne
  · rw [hd] at h
    constructor
    · intro hc
      rw [PC.p_c_parse_skip_leading scanf fp, hd, (PC.p_c_parse_literal_head scanf d r' hdc).1 v _ h]
      simp only [PC.skip_one_comma, hc, if_true]
    · intro hc
      rw [parse_skip_leading scanf fp, hd, (parse_literal_head scanf d r' hdc).1 v _ h]
      refine ⟨by simp only [skip_trailing, hc, if_true], ?_⟩
      clear h
      induction r with
      | nil => exact ⟨[], rfl, fun d hd => (by cases hd)⟩
      | cons e r ih =>
        by_cases he : e = ',' ∨ e = ' ' ∨ e = '\t'
        · obtain ⟨skipped, h1, h2⟩ := ih
          refine ⟨e :: skipped, ?_, ?_⟩
          · simp only [skip_trailing, he, if_true, List.cons_append]
            rw [← h1]
          · intro d hd
            rcases List.mem_cons.1 hd with hd | hd
            · subst hd; exact he
            · exact h2 d hd
        · exact ⟨[], (by simp only [skip_trailing, he, if_false, List.nil_append]),
            fun d hd => (by cases hd)⟩

/-- C15 as amended, on the stream `1,2`. -/
theorem trailing_comma_consumed_witness :
    PC.parse_double_with_comma (scan_decimal : Scanf ℚ) "1,2".toList = (some 1, "2".toList) :=
  (trailing_comma_consumed (scan_decimal : Scanf ℚ) "1,2".toList 1 ',' "2".toList
    (by decide) (by decide)).1 rfl

end ClaimsC

section ClaimsD

/-- C18 fails: with `H = 1`, `N = 1` and the source `1 2 3 4 5 6 7 8`, which
is one weight token short, the second-pass output stage terminates with a
fatal error and `main` still returns exit status 0. -/
theorem main_returns_success_after_a_fatal_stage :
    (main (parse_double_with_comma (scan_decimal : Scanf ℚ)) (ref_rep : ObjRep ℚ (RefByte ℚ))
      "1 2 3 4 5 6 7 8".toList 1 1).status = 0
    ∧ (run_passes (parse_double_with_comma (scan_decimal : Scanf ℚ))
        (ref_rep : ObjRep ℚ (RefByte ℚ)) "1 2 3 4 5 6 7 8".toList 1 1).2.output
        = .error .insufficient_weights := by
  constructor
  · rfl
  · with_unfolding_all rfl

/-- C18 as amended. For every accepted configuration `main` runs both passes
and returns exit status 0, whether or not a stage has terminated with a fatal
error: it does not look at the exit statuses of the stages.  Success of the
stages is reported only by the line "SIMULATION COMPLETED SUCCESSFULLY",
which no stage but the last one writes, and the last stage writes it only
when every stage of both passes has terminated normally. -/
theorem main_status_ignores_stages {α β σ : Type} [Zero α] [Add α] [Mul α] [Sub α] [Div α]
    [OfScientific α] (parse : Tokenizer σ α) (R : ObjRep α β) (file : σ) (H N : Nat)
    (hH : 1 ≤ H ∧ H ≤ 9) (hN : 1 ≤ N ∧ N ≤ 100) :
    (main parse R file (H : Int) (N : Int)).status = 0
    ∧ (main parse R file (H : Int) (N : Int)).passes = some (run_passes parse R file H N)
    ∧ (∀ s, (run_passes parse R file H N).2.output = .ok s →
        success_line ∈ s.report
        ∧ ∀ r ∈ all_stages (run_passes parse R file H N), ∃ s', r = .ok s')
    ∧ (∀ r ∈ sending_stages (run_passes parse R file H N), ∀ s, r = .ok s →
        success_line ∉ s.report) := by
  have c1 : ¬ ((H : Int) < 1 ∨ (H : Int) > 9) := by omega
  have c2 : ¬ ((N : Int) < 1 ∨ (N : Int) > 100) := by omega
  refine ⟨?_, ?_, ?_, ?_⟩
  · simp only [main, c1, c2, if_false]
  · simp only [main, c1, c2, if_false, Int.toNat_ofNat]
  · intro s hs
    refine ⟨?_, last_ok_all_ok parse R file H N s hs⟩
    have hinv := second_output_layer_process_inv parse R N H _ file s hs
    rw [hinv.2.2]
    exact success_line_in_second_output_record _
  · apply sending_stages_forall
    · intro s hs
      obtain ⟨_, _, v0, v1, hr⟩ := input_layer_process_inv parse R N file s hs
      rw [hr]; exact success_line_not_in_input_record _ _ _
    · intro k p s hs
      rw [(hidden_layer_process_inv parse R k N p file s hs).2.2]
      exact success_line_not_in_hidden_record _ _
    · intro p s hs
      rw [(output_layer_process_inv parse R N H p file s hs).2.2.1]
      exact success_line_not_in_output_record _
    · intro p s hs
      rw [(second_input_layer_process_inv' parse R N H p file s hs).2.2]
      exact success_line_not_in_second_input_record _
    · intro k p s hs
      rw [(second_hidden_layer_process_inv parse R k N H p file s hs).2.2]
      exact success_line_not_in_second_hidden_record _ _

/-- C18 as amended, on `H = 1`, `N = 1` and the source `1 2 3 4 5 6 7 8`. -/
theorem main_status_ignores_stages_witness :
    (main (parse_double_with_comma (scan_decimal : Scanf ℚ)) (ref_rep : ObjRep ℚ (RefByte ℚ))
      "1 2 3 4 5 6 7 8".toList ((1 : Nat) : Int) ((1 : Nat) : Int)).status = 0 :=
  (main_status_ignores_stages (parse_double_with_comma (scan_decimal : Scanf ℚ))
    (ref_rep : ObjRep ℚ (RefByte ℚ)) "1 2 3 4 5 6 7 8".toList 1 1 (by decide) (by decide)).1

/-- C19. For every valid `(H, N)`, every frame written by a stage of either
pass, the backward frame of the first-pass output stage included, has its
count field equal to the stage's neuron count `N` and carries exactly `N`
values: what the stage has sent is the `int` `N` followed by the images of `N`
doubles, and a read of it yields the count `N`.  The last stage writes no
frame. -/
theorem every_frame_has_count_N {α β σ : Type} [Zero α] [Add α] [Mul α] [Sub α] [Div α]
    [OfScientific α] (parse : Tokenizer σ α) (R : ObjRep α β) (file : σ) (H N : Nat)
    (hN : 1 ≤ N ∧ N ≤ 100) :
    (∀ r ∈ sending_stages (run_passes parse R file H N), ∀ s, r = .ok s →
      ∃ values : List α, values.length = N
        ∧ s.sent = R.int_bytes (N : Int) ++ values.flatMap R.double_bytes
        ∧ read_from_pipe R s.sent = (some (values, N), []))
    ∧ (sending_stages (run_passes parse R file H N)).length = 2 * H + 3
    ∧ ∀ s, (run_passes parse R file H N).2.output = .ok s → s.sent = [] := by
  have key : ∀ r : Except Fatal (StageExit α β σ), SendsFrame R N r →
      ∀ s, r = .ok s → ∃ values : List α, values.length = N
        ∧ s.sent = R.int_bytes (N : Int) ++ values.flatMap R.double_bytes
        ∧ read_from_pipe R s.sent = (some (values, N), []) := by
    intro r hr s hs
    obtain ⟨values, hlen, hsent⟩ := hr s hs
    have hread := read_from_pipe_frame R values [] (by omega)
    rw [List.append_nil, hlen] at hread
    refine ⟨values, hlen, ?_, by rw [hsent]; exact hread⟩
    rw [hsent]; unfold frame; rw [hlen]
  refine ⟨?_, ?_, ?_⟩
  · intro r hr
    apply key
    revert r
    apply sending_stages_forall
    · intro s hs
      obtain ⟨h1, h2, _⟩ := input_layer_process_inv parse R N file s hs
      exact ⟨_, h1, h2⟩
    · intro k p s hs
      obtain ⟨h1, h2, _⟩ := hidden_layer_process_inv parse R k N p file s hs
      exact ⟨_, h1, h2⟩
    · intro p s hs
      obtain ⟨h1, _, _, h2⟩ := output_layer_process_inv parse R N H p file s hs
      exact ⟨_, by rw [List.length_map, h1], h2⟩
    · intro p s hs
      obtain ⟨h1, h2, _⟩ := second_input_layer_process_inv' parse R N H p file s hs
      exact ⟨_, h1, h2⟩
    · intro k p s hs
      obtain ⟨h1, h2, _⟩ := second_hidden_layer_process_inv parse R k N H p file s hs
      exact ⟨_, h1, h2⟩
  · have hlen : ∀ (stage : Nat → List β → Except Fatal (StageExit α β σ)) (count i : Nat)
        (pipe : List β), (fork_hidden_layers stage i count pipe).1.length = count := by
      intro stage count
      induction count with
      | zero => intro i pipe; rfl
      | succ count ih => intro i pipe; simp only [fork_hidden_layers, List.length_cons, ih]
    simp only [sending_stages, run_passes, List.length_append, List.length_singleton, hlen,
      List.length_cons, List.length_nil]
    omega
  · intro s hs
    exact (second_output_layer_process_inv parse R N H _ file s hs).2.1

/-- C19, on `H = 1`, `N = 1` and the source `1 2 3 4 5 6 7 8 9`, at the
first-pass output stage, which sends `fx1 330 = 109231/2`. -/
theorem every_frame_has_count_N_witness :
    ∃ values : List ℚ, values.length = 1
      ∧ frame (ref_rep : ObjRep ℚ (RefByte ℚ)) [109231 / 2]
          = (ref_rep : ObjRep ℚ (RefByte ℚ)).int_bytes ((1 : Nat) : Int)
            ++ values.flatMap (ref_rep : ObjRep ℚ (RefByte ℚ)).double_bytes
      ∧ read_from_pipe (ref_rep : ObjRep ℚ (RefByte ℚ)) (frame ref_rep [109231 / 2])
          = (some (values, 1), []) :=
  (every_frame_has_count_N (parse_double_with_comma (scan_decimal : Scanf ℚ))
    (ref_rep : ObjRep ℚ (RefByte ℚ)) "1 2 3 4 5 6 7 8 9".toList 1 1 (by decide)).1
    (run_passes (parse_double_with_comma (scan_decimal : Scanf ℚ))
      (ref_rep : ObjRep ℚ (RefByte ℚ)) "1 2 3 4 5 6 7 8 9".toList 1 1).1.output
    (by simp [sending_stages])
    { input_fp := "7 8 9".toList, input_data := [55], weights := [6], output := [330],
      backward_data := [109231 / 2], report := output_record [330],
      sent := frame ref_rep [109231 / 2] }
    (by with_unfolding_all rfl)

/-- C20. For every channel byte stream that is truncated, that is, shorter
than the 4 bytes of the count prefix, or holding a count `n` followed by fewer
than `8 * n` bytes of values, `read_from_pipe` returns failure, and the stage
that called it terminates with the fatal error of a failed pipe read, having
computed nothing and sent nothing. -/
theorem truncated_frame_is_fatal {α β σ : Type} [Zero α] [Add α] [Mul α] [Sub α] [Div α]
    [OfScientific α] (parse : Tokenizer σ α) (R : ObjRep α β) (k N H : Nat)
    (pipe : List β) (file : σ)
    (htrunc : pipe.length < 4
      ∨ (4 ≤ pipe.length ∧ (pipe.length : Int) < 4 + 8 * R.bytes_int (pipe.take 4))) :
    (read_from_pipe R pipe).1 = none
    ∧ hidden_layer_process parse R k N pipe file = .error .pipe_read
    ∧ output_layer_process parse R N pipe file H = .error .pipe_read
    ∧ second_input_layer_process parse R N pipe file H = .error .pipe_read
    ∧ second_hidden_layer_process parse R k N pipe file H = .error .pipe_read
    ∧ second_output_layer_process parse R N pipe file H = .error .pipe_read := by
  have h : (read_from_pipe R pipe).1 = none := by
    rcases htrunc with h | ⟨_, h⟩
    · exact read_from_pipe_short_prefix R pipe h
    · exact read_from_pipe_truncated R pipe h
  exact ⟨h, hidden_layer_process_no_frame parse R k N pipe file h,
    output_layer_process_no_frame parse R N H pipe file h,
    second_input_layer_process_no_frame parse R N H pipe file h,
    second_hidden_layer_process_no_frame parse R k N H pipe file h,
    second_output_layer_process_no_frame parse R N H pipe file h⟩

/-- C20, on the frame of the vector `[1, 2]` without its last byte. -/
theorem truncated_frame_is_fatal_witness :
    hidden_layer_process (parse_double_with_comma (scan_decimal : Scanf ℚ))
      (ref_rep : ObjRep ℚ (RefByte ℚ)) 1 2 ((frame ref_rep [(1 : ℚ), 2]).take 19)
      "1 2 3 4 5 6 7 8 9 10".toList = .error .pipe_read :=
  (truncated_frame_is_fatal (parse_double_with_comma (scan_decimal : Scanf ℚ))
    (ref_rep : ObjRep ℚ (RefByte ℚ)) 1 2 1 ((frame ref_rep [(1 : ℚ), 2]).take 19)
    "1 2 3 4 5 6 7 8 9 10".toList (Or.inr (by decide))).2.1

end ClaimsD

section ClaimsE

/-- C16. For `H = 1`, `N = 1`, input values `[1.0, 2.0]`, input-layer weights
`[0.5, 0.5]`, hidden-layer weight `[1.0]` and output-layer weight `[1.0]`, the
first pass produces `1.5` at the input stage, `1.5` at the hidden stage and
`1.5` at the output stage (exact arithmetic). -/
theorem first_pass_scenario {β σ : Type} (parse : Tokenizer σ ℚ) (R : ObjRep ℚ β)
    (file fpe : σ) (W' : List ℚ)
    (hT : Tokens parse file (1.0 :: 2.0 :: 0.5 :: 0.5 :: 1.0 :: 1.0 :: W') fpe) :
    ∃ s0 s1 s2, (run_passes parse R file 1 1).1.input = .ok s0
      ∧ s0.input_data = [1.0, 2.0] ∧ s0.weights = [0.5, 0.5] ∧ s0.output = [1.5]
      ∧ (run_passes parse R file 1 1).1.hidden = [.ok s1]
      ∧ s1.weights = [1.0] ∧ s1.output = [1.5]
      ∧ (run_passes parse R file 1 1).1.output = .ok s2
      ∧ s2.weights = [1.0] ∧ s2.output = [1.5] := by
  obtain ⟨a1, a2, a3, fp', a4⟩ := pass1_spec parse R 1 1 (0.5 :: 0.5 :: 1.0 :: 1.0 :: W')
    1.0 2.0 file fpe hT (by omega) (by simp) (β := β)
  obtain ⟨v1, v2, v3⟩ := scenario_values W'
  obtain ⟨s0, hs0, hi0, hw0, ho0, _⟩ := a1
  obtain ⟨r, hr, s1, hs1, _, hw1, ho1, _⟩ := a3 0 (by omega)
  subst hs1
  refine ⟨s0, s1, _, hs0, hi0, ?_, ?_, list_eq_singleton _ _ a2 hr, ?_, ?_, a4, ?_, v3⟩
  · rw [hw0]; simp [slice]
  · rw [ho0]; exact v1
  · rw [hw1]; simp [slice]
  · rw [ho1]
    have := v2
    simpa [pass1_hidden_out, hidden_chain] using this
  · simp [slice]

/-- C16, on the source `1.0 2.0 0.5 0.5 1.0 1.0`. -/
theorem first_pass_scenario_witness :
    ∃ s0 s1 s2, (run_passes (parse_double_with_comma scan_fixed_point)
        (ref_rep : ObjRep ℚ (RefByte ℚ)) "1.0 2.0 0.5 0.5 1.0 1.0".toList 1 1).1.input = .ok s0
      ∧ s0.input_data = [1.0, 2.0] ∧ s0.weights = [0.5, 0.5] ∧ s0.output = [1.5]
      ∧ (run_passes (parse_double_with_comma scan_fixed_point)
        (ref_rep : ObjRep ℚ (RefByte ℚ)) "1.0 2.0 0.5 0.5 1.0 1.0".toList 1 1).1.hidden
          = [.ok s1]
      ∧ s1.weights = [1.0] ∧ s1.output = [1.5]
      ∧ (run_passes (parse_double_with_comma scan_fixed_point)
        (ref_rep : ObjRep ℚ (RefByte ℚ)) "1.0 2.0 0.5 0.5 1.0 1.0".toList 1 1).1.output = .ok s2
      ∧ s2.weights = [1.0] ∧ s2.output = [1.5] :=
  first_pass_scenario (parse_double_with_comma scan_fixed_point)
    (ref_rep : ObjRep ℚ (RefByte ℚ)) "1.0 2.0 0.5 0.5 1.0 1.0".toList [] []
    (Tokens_of_read_weights _ _ _ _ (by with_unfolding_all decide))

/-- C17 fails: in the scenario of C16 with the three second-pass weights equal
to `1.0`, on the source `1.0 2.0 0.5 0.5 1.0 1.0 1.0 1.0 1.0`, the value
forwarded on the backward pipe and the final output are `2.375`, which is
`(1.5 * 1.5 + 1.5 + 1) / 2`, and not `3.125`. -/
theorem second_pass_scenario_is_not_3125 :
    ((run_passes (parse_double_with_comma scan_fixed_point) (ref_rep : ObjRep ℚ (RefByte ℚ))
        "1.0 2.0 0.5 0.5 1.0 1.0 1.0 1.0 1.0".toList 1 1).1.output.toOption.map
          (fun s => s.backward_data)) = some [2.375]
    ∧ ((run_passes (parse_double_with_comma scan_fixed_point) (ref_rep : ObjRep ℚ (RefByte ℚ))
        "1.0 2.0 0.5 0.5 1.0 1.0 1.0 1.0 1.0".toList 1 1).2.output.toOption.map
          (fun s => s.output)) = some [2.375]
    ∧ (2.375 : ℚ) ≠ 3.125 := by
  refine ⟨by with_unfolding_all decide, by with_unfolding_all decide, by norm_num⟩

/-- C17 as amended. In the scenario of C16 (first-pass output `1.5`) with all
three second-pass weights equal to `1.0`, the backward value forwarded is
`fx1 = (1.5 * 1.5 + 1.5 + 1) / 2 = 2.375`, the second-pass input stage outputs
`2.375`, the second-pass hidden stage outputs `2.375` and the final output is
`2.375` (exact arithmetic). -/
theorem second_pass_scenario {β σ : Type} (parse : Tokenizer σ ℚ) (R : ObjRep ℚ β)
    (file fpe : σ) (W' : List ℚ)
    (hT : Tokens parse file
      (1.0 :: 2.0 :: 0.5 :: 0.5 :: 1.0 :: 1.0 :: 1.0 :: 1.0 :: 1.0 :: W') fpe) :
    ∃ s2 s3 s4 s5, (run_passes parse R file 1 1).1.output = .ok s2
      ∧ s2.output = [1.5] ∧ s2.backward_data = [2.375] ∧ s2.sent = frame R [2.375]
      ∧ (run_passes parse R file 1 1).2.input = .ok s3
      ∧ s3.input_data = [2.375] ∧ s3.weights = [1.0] ∧ s3.output = [2.375]
      ∧ (run_passes parse R file 1 1).2.hidden = [.ok s4]
      ∧ s4.weights = [1.0] ∧ s4.output = [2.375]
      ∧ (run_passes parse R file 1 1).2.output = .ok s5
      ∧ s5.weights = [1.0] ∧ s5.output = [2.375] := by
  obtain ⟨_, _, _, fp', a4⟩ := pass1_spec parse R 1 1
    (0.5 :: 0.5 :: 1.0 :: 1.0 :: 1.0 :: 1.0 :: 1.0 :: W') 1.0 2.0 file fpe hT (by omega)
    (by simp) (β := β)
  obtain ⟨b1, b2, b3, _, _⟩ := pass2_spec parse R 1 1
    (0.5 :: 0.5 :: 1.0 :: 1.0 :: 1.0 :: 1.0 :: 1.0 :: W') 1.0 2.0 file fpe hT (by omega)
    (by simp) (β := β)
  obtain ⟨l1, l2, l3⟩ := last_stage_eq parse R 1 1
    (0.5 :: 0.5 :: 1.0 :: 1.0 :: 1.0 :: 1.0 :: 1.0 :: W') 1.0 2.0 file fpe hT (by omega)
    (by simp) (β := β)
  obtain ⟨fp5, h5⟩ := second_output_layer_process_ok parse R 1 1
    (pass2_hidden_out (0.5 :: 0.5 :: 1.0 :: 1.0 :: 1.0 :: 1.0 :: 1.0 :: W') 1 1 1.0 2.0)
    (0.5 :: 0.5 :: 1.0 :: 1.0 :: 1.0 :: 1.0 :: 1.0 :: W') 1.0 2.0 file fpe hT
    (by rw [l3]; simp) (by rw [l3]; omega) (β := β)
  rw [l3] at h5
  obtain ⟨_, _, v1⟩ := scenario_values (1.0 :: 1.0 :: 1.0 :: W')
  obtain ⟨u1, u2, u3, u4⟩ := scenario_values_pass2 W'
  obtain ⟨s3, hs3, hi3, hw3, ho3, _⟩ := b1
  obtain ⟨r, hr, s4, hs4, _, hw4, ho4, _⟩ := b3 0 (by omega)
  subst hs4
  refine ⟨_, s3, s4, _, a4, v1, u1, by rw [u1], hs3, by rw [hi3, u1], ?_, ?_,
    list_eq_singleton _ _ b2 hr, ?_, ?_, by rw [l2]; exact h5, ?_, ?_⟩
  · rw [hw3]; simp [slice]
  · rw [ho3]; exact u2
  · rw [hw4]; simp [slice]
  · rw [ho4]
    have := u3
    simpa [pass2_hidden_out, hidden_chain] using this
  · simp [slice]
  · have := u4
    simpa [pass2_out] using this

/-- C17 as amended, on the source `1.0 2.0 0.5 0.5 1.0 1.0 1.0 1.0 1.0`. -/
theorem second_pass_scenario_witness :
    ∃ s5, (run_passes (parse_double_with_comma scan_fixed_point)
        (ref_rep : ObjRep ℚ (RefByte ℚ)) "1.0 2.0 0.5 0.5 1.0 1.0 1.0 1.0 1.0".toList 1 1).2.output
          = .ok s5
      ∧ s5.weights = [1.0] ∧ s5.output = [2.375] :=
  let ⟨_, _, _, s5, _, _, _, _, _, _, _, _, _, _, _, h⟩ :=
    second_pass_scenario (parse_double_with_comma scan_fixed_point)
      (ref_rep : ObjRep ℚ (RefByte ℚ)) "1.0 2.0 0.5 0.5 1.0 1.0 1.0 1.0 1.0".toList [] []
      (Tokens_of_read_weights _ _ _ _ (by with_unfolding_all decide))
  ⟨s5, h⟩

end ClaimsE

/-! ## Lemmas: the two tokenizers side by side -/

section Variants
variable {α : Type}

theorem skip_leading_skip_trailing (r : List Char) :
    skip_leading (skip_trailing r) = skip_leading r := by
  induction r with
  | nil => rfl
  | cons c r ih =>
    by_cases hc : c = ',' ∨ c = ' ' ∨ c = '\t'
    · have hsep : is_separator c := by
        unfold is_separator
        rcases hc with h | h | h
        · exact Or.inr (Or.inr (Or.inr (Or.inr h)))
        · exact Or.inl h
        · exact Or.inr (Or.inl h)
      simp only [skip_trailing, hc, if_true, skip_leading, hsep]
      exact ih
    · simp only [skip_trailing, hc, if_false]

theorem skip_leading_skip_one_comma (r : List Char) :
    skip_leading (PC.skip_one_comma r) = skip_leading r := by
  cases r with
  | nil => rfl
  | cons c r =>
    by_cases hc : c = ','
    · have hsep : is_separator c := Or.inr (Or.inr (Or.inr (Or.inr hc)))
      simp only [PC.skip_one_comma, hc, if_true, skip_leading, hsep]
      subst hc
      simp [is_separator]
    · simp only [PC.skip_one_comma, hc, if_false]

/-- One call of either variant, on streams that differ in their leading
separators only: the same result, and streams that again differ in their
leading separators only. -/
theorem variants_step (scanf : Scanf α) (a b : List Char)
    (h : skip_leading a = skip_leading b) :
    (parse_double_with_comma scanf a).1 = (PC.parse_double_with_comma scanf b).1
    ∧ skip_leading (parse_double_with_comma scanf a).2
        = skip_leading (PC.parse_double_with_comma scanf b).2 := by
  rw [parse_skip_leading scanf a, PC.p_c_parse_skip_leading scanf b, h]
  rcases skip_leading_head b with h0 | ⟨c, r, hcr, hc⟩
  · rw [h0]
    exact ⟨rfl, rfl⟩
  · rw [hcr]
    rcases hs : scanf (c :: r) with ⟨res, rest⟩
    cases res with
    | none =>
      rw [(parse_literal_head scanf c r hc).2 rest hs,
        (PC.p_c_parse_literal_head scanf c r hc).2 rest hs]
      exact ⟨rfl, rfl⟩
    | some v =>
      rw [(parse_literal_head scanf c r hc).1 v rest hs,
        (PC.p_c_parse_literal_head scanf c r hc).1 v rest hs]
      exact ⟨rfl, by rw [skip_leading_skip_trailing, skip_leading_skip_one_comma]⟩

theorem variants_states (scanf : Scanf α) (fp : List Char) (k : Nat) :
    skip_leading ((discard (parse_double_with_comma scanf))^[k] fp)
      = skip_leading ((discard (PC.parse_double_with_comma scanf))^[k] fp) := by
  induction k with
  | zero => rfl
  | succ k ih =>
    rw [Function.iterate_succ_apply', Function.iterate_succ_apply']
    exact (variants_step scanf _ _ ih).2

theorem variants_tokens (scanf : Scanf α) (ts : List α) :
    ∀ a b : List Char, skip_leading a = skip_leading b →
      (∃ fp', Tokens (parse_double_with_comma scanf) a ts fp') →
      ∃ fp', Tokens (PC.parse_double_with_comma scanf) b ts fp' := by
  induction ts with
  | nil => intro a b _ _; exact ⟨b, rfl⟩
  | cons t ts ih =>
    intro a b h ⟨fp', fp1, h1, h2⟩
    obtain ⟨e1, e2⟩ := variants_step scanf a b h
    rw [h1] at e1 e2
    obtain ⟨fp'', h3⟩ := ih fp1 (PC.parse_double_with_comma scanf b).2 e2 ⟨fp', h2⟩
    exact ⟨fp'', (PC.parse_double_with_comma scanf b).2, Prod.ext e1.symm rfl, h3⟩

theorem variants_tokens_conv (scanf : Scanf α) (ts : List α) :
    ∀ a b : List Char, skip_leading a = skip_leading b →
      (∃ fp', Tokens (PC.parse_double_with_comma scanf) b ts fp') →
      ∃ fp', Tokens (parse_double_with_comma scanf) a ts fp' := by
  induction ts with
  | nil => intro a b _ _; exact ⟨a, rfl⟩
  | cons t ts ih =>
    intro a b h ⟨fp', fp1, h1, h2⟩
    obtain ⟨e1, e2⟩ := variants_step scanf a b h
    rw [h1] at e1 e2
    obtain ⟨fp'', h3⟩ := ih (parse_double_with_comma scanf a).2 fp1 e2 ⟨fp', h2⟩
    exact ⟨fp'', (parse_double_with_comma scanf a).2, Prod.ext e1 rfl, h3⟩

end Variants

/-! ## Lemmas: linearity of the weighted sums -/

section Linear
variable {α : Type} [Semiring α]

theorem getD_zipWith_linear (a b : α) (x y : List α) (hxy : x.length = y.length) (j : Nat) :
    (List.zipWith (fun u v => a * u + b * v) x y).getD j 0 = a * x.getD j 0 + b * y.getD j 0 := by
  induction x generalizing y j with
  | nil =>
    cases y with
    | nil => simp
    | cons _ _ => cases hxy
  | cons u x ih =>
    cases y with
    | nil => cases hxy
    | cons v y =>
      cases j with
      | zero => simp
      | succ j =>
        simp only [List.zipWith_cons_cons, List.getD_cons_succ]
        exact ih y (by simpa using hxy) j

theorem foldl_linear (a b : α) (x y W : List α) (hxy : x.length = y.length) (off : Nat)
    (l : List Nat) : ∀ s1 s2 : α,
    l.foldl (fun sum j =>
        sum + (List.zipWith (fun u v => a * u + b * v) x y).getD j 0 * W.getD (off + j) 0)
      (a * s1 + b * s2)
      = a * l.foldl (fun sum j => sum + x.getD j 0 * W.getD (off + j) 0) s1
        + b * l.foldl (fun sum j => sum + y.getD j 0 * W.getD (off + j) 0) s2 := by
  induction l with
  | nil => intro s1 s2; rfl
  | cons j l ih =>
    intro s1 s2
    simp only [List.foldl_cons]
    rw [← ih, getD_zipWith_linear a b x y hxy j]
    congr 1
    simp only [mul_add, add_mul, mul_assoc]
    abel

theorem dot_row_linear (a b : α) (w : Nat) (x y W : List α) (hxy : x.length = y.length)
    (i : Nat) :
    dot_row w (List.zipWith (fun u v => a * u + b * v) x y) W i
      = a * dot_row w x W i + b * dot_row w y W i := by
  unfold dot_row
  have := foldl_linear a b x y W hxy (i * w) (List.range w) 0 0
  simpa using this

theorem dot_row_zero (w : Nat) (W : List α) (i : Nat) :
    dot_row w (List.replicate w (0 : α)) W i = 0 := by
  unfold dot_row
  have : ∀ (l : List Nat), l.foldl
      (fun sum j => sum + (List.replicate w (0 : α)).getD j 0 * W.getD (i * w + j) 0) 0 = 0 := by
    intro l
    induction l with
    | nil => rfl
    | cons j l ih =>
      simp only [List.foldl_cons]
      have h0 : (List.replicate w (0 : α)).getD j 0 = 0 := by
        simp [List.getD_eq_getElem?_getD, List.getElem?_replicate]
        split <;> rfl
      rw [h0, zero_mul, add_zero]
      exact ih
  exact this _

end Linear

/-! ## Lemmas: the reference composition -/

section Composition

theorem foldl_range_eq_sum (f : Nat → ℚ) (n : Nat) :
    (List.range n).foldl (fun sum j => sum + f j) 0 = ∑ j : Fin n, f j.val := by
  induction n with
  | zero => simp
  | succ n ih =>
    rw [List.range_succ, List.foldl_append, ih, Fin.sum_univ_castSucc]
    simp

theorem getD_slice (W : List ℚ) (off len k : Nat) (hk : k < len) :
    (slice W off len).getD k 0 = W.getD (off + k) 0 := by
  unfold slice
  simp only [List.getD_eq_getElem?_getD, List.getElem?_take, hk, if_true, List.getElem?_drop]

theorem layer_output_ofFn (W : List ℚ) (off len N w : Nat) (v : Fin w → ℚ)
    (hlen : N * w ≤ len) :
    layer_output N (List.ofFn v) (slice W off len)
      = List.ofFn ((segment_matrix W off N w).mulVec v) := by
  unfold layer_output
  apply List.ext_getElem
  · simp
  · intro i h1 h2
    simp only [List.length_map, List.length_range] at h1
    simp only [List.getElem_map, List.getElem_range, List.getElem_ofFn, List.length_ofFn]
    unfold dot_row
    rw [foldl_range_eq_sum
      (fun j => (List.ofFn v).getD j 0 * (slice W off len).getD (i * w + j) 0) w]
    simp only [Matrix.mulVec, Matrix.dotProduct, segment_matrix, Matrix.of_apply]
    apply Finset.sum_congr rfl
    intro j _
    have hj : (i * w + j.val) < len := by
      have : i * w + j.val < N * w := by
        calc i * w + j.val < i * w + w := by omega
          _ = (i + 1) * w := by ring
          _ ≤ N * w := Nat.mul_le_mul_right w h1
      omega
    rw [getD_slice W off len _ hj, mul_comm]
    congr 1
    · rw [Nat.add_assoc]
    · simp [List.getD_eq_getElem?_getD]

theorem hidden_chain_ofFn (W : List ℚ) (N base count : Nat) :
    ∀ (i : Nat) (v : Fin N → ℚ),
      hidden_chain W N base i count (List.ofFn v)
        = List.ofFn ((List.range' i count).foldl
            (fun v k => (segment_matrix W (base + k * (N * N)) N N).mulVec v) v) := by
  induction count with
  | zero => intro i v; rfl
  | succ count ih =>
    intro i v
    rw [hidden_chain, layer_output_ofFn W _ _ N N v (le_refl _), ih, List.range'_succ,
      List.foldl_cons]

theorem pass1_out_eq_spec (W : List ℚ) (H N : Nat) (x0 x1 : ℚ) :
    pass1_out W H N x0 x1 = List.ofFn (spec_pass1 W H N x0 x1) := by
  have hx : [x0, x1] = List.ofFn ![x0, x1] := by simp
  unfold pass1_out pass1_hidden_out pass1_input_out spec_pass1 spec_hidden
  rw [hx, layer_output_ofFn W 0 (2 * N) N 2 _ (by omega), hidden_chain_ofFn,
    layer_output_ofFn W _ _ N N _ (le_refl _), List.range_eq_range']

theorem backward_eq_spec (W : List ℚ) (H N : Nat) (x0 x1 : ℚ) :
    (pass1_out W H N x0 x1).map fx1 = List.ofFn (spec_backward W H N x0 x1) := by
  rw [pass1_out_eq_spec]
  unfold spec_backward
  apply List.ext_getElem <;> simp

theorem pass2_out_eq_spec (W : List ℚ) (H N : Nat) (x0 x1 : ℚ) :
    pass2_out W H N x0 x1 = List.ofFn (spec_final W H N x0 x1) := by
  unfold pass2_out pass2_hidden_out pass2_input_out spec_final spec_hidden
  rw [backward_eq_spec, layer_output_ofFn W _ _ N N _ (le_refl _), hidden_chain_ofFn,
    layer_output_ofFn W _ _ N N _ (le_refl _), List.range_eq_range']

end Composition

/-! ## Lemmas: every stage reads what its predecessor has sent -/

section Chain
variable {α β σ : Type}

theorem fork_hidden_layers_length (stage : Nat → List β → Except Fatal (StageExit α β σ))
    (count : Nat) : ∀ (i : Nat) (pipe : List β),
      (fork_hidden_layers stage i count pipe).1.length = count := by
  induction count with
  | zero => intro i pipe; rfl
  | succ count ih => intro i pipe; simp only [fork_hidden_layers, List.length_cons, ih]

theorem fork_hidden_layers_first (stage : Nat → List β → Except Fatal (StageExit α β σ))
    (count i : Nat) (pipe : List β) :
    (fork_hidden_layers stage i (count + 1) pipe).1[0]? = some (stage (i + 1) pipe) := by
  simp [fork_hidden_layers]

theorem fork_hidden_layers_step (stage : Nat → List β → Except Fatal (StageExit α β σ))
    (count : Nat) : ∀ (i : Nat) (pipe : List β) (j : Nat), j + 1 < count →
      ∃ r, (fork_hidden_layers stage i count pipe).1[j]? = some r
        ∧ (fork_hidden_layers stage i count pipe).1[j + 1]?
            = some (stage (i + j + 2) (pipe_of r)) := by
  induction count with
  | zero => intro i pipe j hj; omega
  | succ count ih =>
    intro i pipe j hj
    cases j with
    | zero =>
      obtain ⟨c, rfl⟩ : ∃ c, count = c + 1 := ⟨count - 1, by omega⟩
      exact ⟨stage (i + 1) pipe, by simp [fork_hidden_layers], by simp [fork_hidden_layers]⟩
    | succ j =>
      obtain ⟨r, h1, h2⟩ := ih (i + 1) (pipe_of (stage (i + 1) pipe)) j (by omega)
      refine ⟨r, ?_, ?_⟩
      · simp only [fork_hidden_layers, List.getElem?_cons_succ]
        exact h1
      · simp only [fork_hidden_layers, List.getElem?_cons_succ]
        rw [h2]
        congr 2
        omega

theorem fork_hidden_layers_last (stage : Nat → List β → Except Fatal (StageExit α β σ))
    (count : Nat) : ∀ (i : Nat) (pipe : List β),
      ∃ r, (fork_hidden_layers stage i (count + 1) pipe).1[count]? = some r
        ∧ (fork_hidden_layers stage i (count + 1) pipe).2 = pipe_of r := by
  induction count with
  | zero => intro i pipe; exact ⟨stage (i + 1) pipe, by simp [fork_hidden_layers], rfl⟩
  | succ count ih =>
    intro i pipe
    obtain ⟨r, h1, h2⟩ := ih (i + 1) (pipe_of (stage (i + 1) pipe))
    refine ⟨r, ?_, ?_⟩
    · rw [fork_hidden_layers]
      simp only [List.getElem?_cons_succ]
      exact h1
    · rw [fork_hidden_layers]
      exact h2

end Chain

section ChainRun
variable {α β σ : Type} [Zero α] [Add α] [Mul α] [Sub α] [Div α] [OfScientific α]

theorem run_hidden1 (parse : Tokenizer σ α) (R : ObjRep α β) (file : σ) (H N : Nat) :
    (run_passes parse R file H N).1.hidden
      = (fork_hidden_layers
          (fun layer_num pipe => hidden_layer_process parse R layer_num N pipe file) 0 H
          (pipe_of (input_layer_process parse R N file))).1 := rfl

theorem run_output1 (parse : Tokenizer σ α) (R : ObjRep α β) (file : σ) (H N : Nat) :
    (run_passes parse R file H N).1.output
      = output_layer_process parse R N (fork_hidden_layers
          (fun layer_num pipe => hidden_layer_process parse R layer_num N pipe file) 0 H
          (pipe_of (input_layer_process parse R N file))).2 file H := rfl

theorem run_input2 (parse : Tokenizer σ α) (R : ObjRep α β) (file : σ) (H N : Nat) :
    (run_passes parse R file H N).2.input
      = second_input_layer_process parse R N
          (pipe_of (run_passes parse R file H N).1.output) file H := rfl

theorem run_hidden2 (parse : Tokenizer σ α) (R : ObjRep α β) (file : σ) (H N : Nat) :
    (run_passes parse R file H N).2.hidden
      = (fork_hidden_layers
          (fun layer_num pipe => second_hidden_layer_process parse R layer_num N pipe file H)
          0 H (pipe_of (run_passes parse R file H N).2.input)).1 := rfl

theorem run_output2 (parse : Tokenizer σ α) (R : ObjRep α β) (file : σ) (H N : Nat) :
    (run_passes parse R file H N).2.output
      = second_output_layer_process parse R N (fork_hidden_layers
          (fun layer_num pipe => second_hidden_layer_process parse R layer_num N pipe file H)
          0 H (pipe_of (run_passes parse R file H N).2.input)).2 file H := rfl

theorem run_passes_hidden_length (parse : Tokenizer σ α) (R : ObjRep α β) (file : σ)
    (H N : Nat) :
    (run_passes parse R file H N).1.hidden.length = H
    ∧ (run_passes parse R file H N).2.hidden.length = H :=
  ⟨fork_hidden_layers_length _ _ _ _, fork_hidden_layers_length _ _ _ _⟩

/-- The stages of a run by position. -/
theorem all_stages_get (parse : Tokenizer σ α) (R : ObjRep α β) (file : σ) (H N i : Nat) :
    (all_stages (run_passes parse R file H N))[i]? =
      if i = 0 then some (input_layer_process parse R N file)
      else if i ≤ H then (run_passes parse R file H N).1.hidden[i - 1]?
      else if i = H + 1 then some (run_passes parse R file H N).1.output
      else if i = H + 2 then some (run_passes parse R file H N).2.input
      else if i ≤ 2 * H + 2 then (run_passes parse R file H N).2.hidden[i - (H + 3)]?
      else if i = 2 * H + 3 then some (run_passes parse R file H N).2.output
      else none := by
  obtain ⟨e1, e2⟩ := run_passes_hidden_length parse R file H N
  exact six_part_get (run_passes parse R file H N).1.input
    (run_passes parse R file H N).1.output (run_passes parse R file H N).2.input
    (run_passes parse R file H N).2.output (run_passes parse R file H N).1.hidden
    (run_passes parse R file H N).2.hidden H e1 e2 i

theorem all_stages_zero (parse : Tokenizer σ α) (R : ObjRep α β) (file : σ) (H N : Nat) :
    (all_stages (run_passes parse R file H N))[0]? = some (input_layer_process parse R N file) := by
  rw [all_stages_get, if_pos rfl]

theorem stage_at_hidden (parse : Tokenizer σ α) (R : ObjRep α β) (file : σ) (H N i : Nat)
    (pipe : List β) (h : i ≤ H) :
    stage_at parse R file H N i pipe = hidden_layer_process parse R i N pipe file := by
  unfold stage_at
  rw [if_pos h]

theorem stage_at_output (parse : Tokenizer σ α) (R : ObjRep α β) (file : σ) (H N : Nat)
    (pipe : List β) :
    stage_at parse R file H N (H + 1) pipe = output_layer_process parse R N pipe file H := by
  unfold stage_at
  rw [if_neg (show ¬ H + 1 ≤ H by omega), if_pos rfl]

theorem stage_at_second_input (parse : Tokenizer σ α) (R : ObjRep α β) (file : σ) (H N : Nat)
    (pipe : List β) :
    stage_at parse R file H N (H + 2) pipe
      = second_input_layer_process parse R N pipe file H := by
  unfold stage_at
  rw [if_neg (show ¬ H + 2 ≤ H by omega), if_neg (show ¬ H + 2 = H + 1 by omega), if_pos rfl]

theorem stage_at_second_hidden (parse : Tokenizer σ α) (R : ObjRep α β) (file : σ)
    (H N i : Nat) (pipe : List β) (h1 : H + 3 ≤ i) (h2 : i ≤ 2 * H + 2) :
    stage_at parse R file H N i pipe
      = second_hidden_layer_process parse R (i - (H + 2)) N pipe file H := by
  unfold stage_at
  rw [if_neg (show ¬ i ≤ H by omega), if_neg (show ¬ i = H + 1 by omega),
    if_neg (show ¬ i = H + 2 by omega), if_pos h2]

theorem stage_at_second_output (parse : Tokenizer σ α) (R : ObjRep α β) (file : σ)
    (H N i : Nat) (pipe : List β) (h : 2 * H + 3 ≤ i) :
    stage_at parse R file H N i pipe = second_output_layer_process parse R N pipe file H := by
  unfold stage_at
  rw [if_neg (show ¬ i ≤ H by omega), if_neg (show ¬ i = H + 1 by omega),
    if_neg (show ¬ i = H + 2 by omega), if_neg (show ¬ i ≤ 2 * H + 2 by omega)]

/-- Every stage but the first is the stage function of its position, run on
what its predecessor in the order of `all_stages` has sent. -/
theorem all_stages_succ (parse : Tokenizer σ α) (R : ObjRep α β) (file : σ) (H N i : Nat)
    (h1 : 1 ≤ i) (h2 : i ≤ 2 * H + 3) :
    ∃ r, (all_stages (run_passes parse R file H N))[i - 1]? = some r
      ∧ (all_stages (run_passes parse R file H N))[i]?
          = some (stage_at parse R file H N i (pipe_of r)) := by
  rw [all_stages_get parse R file H N i, all_stages_get parse R file H N (i - 1)]
  by_cases c1 : i ≤ H
  · -- a hidden layer of the first pass
    rw [if_neg (show ¬ i = 0 by omega), if_pos c1]
    simp only [stage_at_hidden parse R file H N i _ c1]
    by_cases c0 : i = 1
    · subst c0
      obtain ⟨c, rfl⟩ : ∃ c, H = c + 1 := ⟨H - 1, by omega⟩
      rw [if_pos rfl]
      refine ⟨_, rfl, ?_⟩
      rw [run_hidden1]
      exact fork_hidden_layers_first _ _ _ _
    · rw [if_neg (show ¬ i - 1 = 0 by omega), if_pos (show i - 1 ≤ H by omega)]
      obtain ⟨r, h3, h4⟩ := fork_hidden_layers_step
        (fun layer_num pipe => hidden_layer_process parse R layer_num N pipe file) H 0
        (pipe_of (input_layer_process parse R N file)) (i - 2) (by omega)
      rw [show i - 2 + 1 = i - 1 by omega, show 0 + (i - 2) + 2 = i by omega] at h4
      rw [run_hidden1, show i - 1 - 1 = i - 2 by omega]
      exact ⟨r, h3, h4⟩
  · rw [if_neg (show ¬ i = 0 by omega), if_neg c1]
    by_cases c2 : i = H + 1
    · -- the output layer
      subst c2
      rw [if_pos rfl, Nat.add_sub_cancel, run_output1]
      simp only [stage_at_output]
      by_cases cH : H = 0
      · subst cH
        rw [if_pos rfl]
        exact ⟨_, rfl, rfl⟩
      · obtain ⟨c, rfl⟩ : ∃ c, H = c + 1 := ⟨H - 1, by omega⟩
        rw [if_neg (show ¬ c + 1 = 0 by omega), if_pos (le_refl _), Nat.add_sub_cancel,
          run_hidden1]
        obtain ⟨r, h3, h4⟩ := fork_hidden_layers_last
          (fun layer_num pipe => hidden_layer_process parse R layer_num N pipe file) c 0
          (pipe_of (input_layer_process parse R N file))
        exact ⟨r, h3, by rw [h4]⟩
    · rw [if_neg c2]
      by_cases c3 : i = H + 2
      · -- the second input layer
        subst c3
        rw [if_pos rfl, if_neg (show ¬ H + 2 - 1 = 0 by omega),
          if_neg (show ¬ H + 2 - 1 ≤ H by omega), if_pos (show H + 2 - 1 = H + 1 by omega)]
        simp only [stage_at_second_input]
        exact ⟨_, rfl, by rw [run_input2]⟩
      · rw [if_neg c3, if_neg (show ¬ i - 1 = 0 by omega),
          if_neg (show ¬ i - 1 ≤ H by omega), if_neg (show ¬ i - 1 = H + 1 by omega)]
        by_cases c4 : i ≤ 2 * H + 2
        · -- a hidden layer of the second pass
          rw [if_pos c4]
          simp only [stage_at_second_hidden parse R file H N i _ (by omega) c4]
          by_cases c0 : i = H + 3
          · subst c0
            obtain ⟨c, rfl⟩ : ∃ c, H = c + 1 := ⟨H - 1, by omega⟩
            rw [if_pos (show c + 1 + 3 - 1 = c + 1 + 2 by omega)]
            refine ⟨_, rfl, ?_⟩
            rw [run_hidden2, show c + 1 + 3 - (c + 1 + 3) = 0 by omega,
              show c + 1 + 3 - (c + 1 + 2) = 1 by omega]
            exact fork_hidden_layers_first _ _ _ _
          · rw [if_neg (show ¬ i - 1 = H + 2 by omega),
              if_pos (show i - 1 ≤ 2 * H + 2 by omega)]
            obtain ⟨r, h3, h4⟩ := fork_hidden_layers_step
              (fun layer_num pipe =>
                second_hidden_layer_process parse R layer_num N pipe file H) H 0
              (pipe_of (run_passes parse R file H N).2.input) (i - (H + 3) - 1) (by omega)
            rw [show i - (H + 3) - 1 + 1 = i - (H + 3) by omega,
              show 0 + (i - (H + 3) - 1) + 2 = i - (H + 2) by omega] at h4
            rw [run_hidden2, show i - 1 - (H + 3) = i - (H + 3) - 1 by omega]
            exact ⟨r, h3, h4⟩
        · -- the second output layer
          have c5 : i = 2 * H + 3 := by omega
          subst c5
          rw [if_neg c4, if_pos rfl, run_output2]
          simp only [stage_at_second_output parse R file H N (2 * H + 3) _ (le_refl _)]
          by_cases cH : H = 0
          · subst cH
            rw [if_pos (show 2 * 0 + 3 - 1 = 0 + 2 by omega)]
            exact ⟨_, rfl, rfl⟩
          · obtain ⟨c, rfl⟩ : ∃ c, H = c + 1 := ⟨H - 1, by omega⟩
            rw [if_neg (show ¬ 2 * (c + 1) + 3 - 1 = c + 1 + 2 by omega),
              if_pos (show 2 * (c + 1) + 3 - 1 ≤ 2 * (c + 1) + 2 by omega), run_hidden2,
              show 2 * (c + 1) + 3 - 1 - (c + 1 + 3) = c by omega]
            obtain ⟨r, h3, h4⟩ := fork_hidden_layers_last
              (fun layer_num pipe =>
                second_hidden_layer_process parse R layer_num N pipe file (c + 1)) c 0
              (pipe_of (run_passes parse R file (c + 1) N).2.input)
            exact ⟨r, h3, by rw [h4]⟩

end ChainRun

/-! ## Lemmas: what a stage has read when it terminates normally -/

section Reads
variable {α β σ : Type} [Zero α] [Add α] [Mul α]

theorem compute_and_send_reads (parse : Tokenizer σ α) (R : ObjRep α β) (N c : Nat)
    (x : List α) (fp : σ) (record : List α → List (ReportLine α)) (s : StageExit α β σ)
    (h : compute_and_send parse R N c x fp record = .ok s) :
    s.input_data = x ∧ read_weights parse (c * N) fp = some (s.weights, s.input_fp) := by
  unfold compute_and_send at h
  split at h
  · cases h
  · rename_i weights fp' hr
    split at h
    · cases h
    · split at h
      · cases h
      · simp only [Except.ok.injEq] at h
        subst h
        exact ⟨rfl, hr⟩

theorem tail_stage_reads (parse : Tokenizer σ α) (R : ObjRep α β) (N : Nat) (pipe : List β)
    (fp : σ) (record : List α → List (ReportLine α)) (s : StageExit α β σ)
    (h : (match read_from_pipe R pipe with
      | (none, _) => (.error .pipe_read : Except Fatal (StageExit α β σ))
      | (some (input_data, input_count), _) =>
        compute_and_send parse R N input_count input_data fp record) = .ok s) :
    ∃ c rest, read_from_pipe R pipe = (some (s.input_data, c), rest)
      ∧ read_weights parse (c * N) fp = some (s.weights, s.input_fp) := by
  split at h
  · cases h
  · rename_i d c rest hr
    obtain ⟨h1, h2⟩ := compute_and_send_reads parse R N c d fp record s h
    exact ⟨c, rest, by rw [hr, h1], h2⟩

theorem output_layer_process_reads [Sub α] [Div α] [OfScientific α] (parse : Tokenizer σ α)
    (R : ObjRep α β) (N H : Nat) (pipe : List β) (file : σ) (s : StageExit α β σ)
    (h : output_layer_process parse R N pipe file H = .ok s) :
    ∃ c rest, read_from_pipe R pipe = (some (s.input_data, c), rest)
      ∧ read_weights parse (c * N) ((discard parse)^[2 + (2 * N + H * (N * N))] file)
          = some (s.weights, s.input_fp) := by
  unfold output_layer_process at h
  simp only [output_layer_skip_eq] at h
  split at h
  · cases h
  · rename_i d c rest hr
    split at h
    · cases h
    · rename_i weights fp' hw
      split at h
      · cases h
      · split at h
        · cases h
        · simp only [Except.ok.injEq] at h
          subst h
          exact ⟨c, rest, hr, hw⟩

theorem second_output_layer_process_reads (parse : Tokenizer σ α)
    (R : ObjRep α β) (N H : Nat) (pipe : List β) (file : σ) (s : StageExit α β σ)
    (h : second_output_layer_process parse R N pipe file H = .ok s) :
    ∃ c rest, read_from_pipe R pipe = (some (s.input_data, c), rest)
      ∧ read_weights parse (c * N) ((discard parse)^[2 + (2 * N + (2 * H + 2) * (N * N))] file)
          = some (s.weights, s.input_fp) := by
  unfold second_output_layer_process at h
  simp only [second_output_layer_skip_eq] at h
  split at h
  · cases h
  · rename_i d c rest hr
    split at h
    · cases h
    · rename_i weights fp' hw
      split at h
      · cases h
      · simp only [Except.ok.injEq] at h
        subst h
        exact ⟨c, rest, hr, hw⟩

theorem input_layer_process_reads (parse : Tokenizer σ α) (R : ObjRep α β) (N : Nat)
    (file : σ) (s : StageExit α β σ) (h : input_layer_process parse R N file = .ok s) :
    ∃ v0 v1, (parse file).1 = some v0 ∧ (parse (discard parse file)).1 = some v1
      ∧ s.input_data = [v0, v1]
      ∧ read_weights parse (INPUT_NEURONS * N) ((discard parse)^[2] file)
          = some (s.weights, s.input_fp) := by
  unfold input_layer_process at h
  split at h
  · cases h
  · rename_i v0 fp1 h0
    split at h
    · cases h
    · rename_i v1 fp2 h1
      obtain ⟨e1, e2⟩ := compute_and_send_reads parse R N _ _ _ _ s h
      have d1 : discard parse file = fp1 := by unfold discard; rw [h0]
      have d2 : discard parse fp1 = fp2 := by unfold discard; rw [h1]
      refine ⟨v0, v1, by rw [h0], by rw [d1, h1], e1, ?_⟩
      rw [Function.iterate_succ_apply, Function.iterate_succ_apply, Function.iterate_zero_apply,
        d1, d2]
      exact e2

end Reads

section ReadsAt
variable {α β σ : Type} [Zero α] [Add α] [Mul α] [Sub α] [Div α] [OfScientific α]

/-- A stage that terminates normally has read a frame from its pipe and then
its weights from the source, after `2 + (2N + (i - 1) N^2)` discarding calls. -/
theorem stage_at_reads (parse : Tokenizer σ α) (R : ObjRep α β) (file : σ) (H N i : Nat)
    (pipe : List β) (s : StageExit α β σ) (hi : i ≤ 2 * H + 3)
    (h : stage_at parse R file H N i pipe = .ok s) :
    ∃ c rest, read_from_pipe R pipe = (some (s.input_data, c), rest)
      ∧ read_weights parse (c * N) ((discard parse)^[2 + (2 * N + (i - 1) * (N * N))] file)
          = some (s.weights, s.input_fp) := by
  by_cases c1 : i ≤ H
  · rw [stage_at_hidden parse R file H N i pipe c1] at h
    unfold hidden_layer_process at h
    simp only [hidden_layer_skip_eq] at h
    exact tail_stage_reads parse R N pipe _ _ s h
  · by_cases c2 : i = H + 1
    · subst c2
      rw [stage_at_output] at h
      rw [Nat.add_sub_cancel]
      exact output_layer_process_reads parse R N H pipe file s h
    · by_cases c3 : i = H + 2
      · subst c3
        rw [stage_at_second_input] at h
        unfold second_input_layer_process at h
        simp only [second_input_layer_skip_eq] at h
        rw [show H + 2 - 1 = H + 1 by omega]
        exact tail_stage_reads parse R N pipe _ _ s h
      · by_cases c4 : i ≤ 2 * H + 2
        · rw [stage_at_second_hidden parse R file H N i pipe (by omega) c4] at h
          unfold second_hidden_layer_process at h
          simp only [second_hidden_layer_skip_eq] at h
          have e : 2 * N + (H + 2) * (N * N) + (i - (H + 2) - 1) * (N * N)
              = 2 * N + (i - 1) * (N * N) := by
            rw [Nat.add_assoc, ← Nat.add_mul]
            congr 2
            omega
          rw [e] at h
          exact tail_stage_reads parse R N pipe _ _ s h
        · have c5 : i = 2 * H + 3 := by omega
          subst c5
          rw [stage_at_second_output parse R file H N _ pipe (le_refl _)] at h
          rw [show 2 * H + 3 - 1 = 2 * H + 2 by omega]
          exact second_output_layer_process_reads parse R N H pipe file s h

omit [Zero α] [Add α] [Mul α] [Sub α] [Div α] [OfScientific α] in
theorem pipe_of_error (e : Fatal) :
    pipe_of (Except.error e : Except Fatal (StageExit α β σ)) = [] := rfl

/-- A stage whose pipe holds no frame terminates at its pipe read. -/
theorem stage_at_no_frame (parse : Tokenizer σ α) (R : ObjRep α β) (file : σ) (H N i : Nat)
    (pipe : List β) (h : (read_from_pipe R pipe).1 = none) :
    stage_at parse R file H N i pipe = .error .pipe_read := by
  unfold stage_at
  split
  · exact hidden_layer_process_no_frame parse R i N pipe file h
  · split
    · exact output_layer_process_no_frame parse R N H pipe file h
    · split
      · exact second_input_layer_process_no_frame parse R N H pipe file h
      · split
        · exact second_hidden_layer_process_no_frame parse R _ N H pipe file h
        · exact second_output_layer_process_no_frame parse R N H pipe file h

/-- What a stage that has a successor has sent when it terminates normally:
the frame of its `N` outputs, and for the first-pass output stage the frame of
`fx1` of its outputs. -/
theorem stage_at_sent (parse : Tokenizer σ α) (R : ObjRep α β) (file : σ) (H N i : Nat)
    (pipe : List β) (s : StageExit α β σ) (hi : i ≤ 2 * H + 2)
    (h : stage_at parse R file H N i pipe = .ok s) :
    s.output.length = N
      ∧ s.sent = frame R (if i = H + 1 then s.output.map fx1 else s.output) := by
  by_cases c1 : i ≤ H
  · rw [stage_at_hidden parse R file H N i pipe c1] at h
    obtain ⟨a, b, _⟩ := hidden_layer_process_inv parse R i N pipe file s h
    rw [if_neg (by omega)]
    exact ⟨a, b⟩
  · by_cases c2 : i = H + 1
    · subst c2
      rw [stage_at_output] at h
      obtain ⟨a, _, _, b⟩ := output_layer_process_inv parse R N H pipe file s h
      rw [if_pos rfl]
      exact ⟨a, b⟩
    · rw [if_neg c2]
      by_cases c3 : i = H + 2
      · subst c3
        rw [stage_at_second_input] at h
        obtain ⟨a, b, _⟩ := second_input_layer_process_inv' parse R N H pipe file s h
        exact ⟨a, b⟩
      · rw [stage_at_second_hidden parse R file H N i pipe (by omega) hi] at h
        obtain ⟨a, b, _⟩ := second_hidden_layer_process_inv parse R _ N H pipe file s h
        exact ⟨a, b⟩

/-- The sent frame of the stage at position `i ≤ 2H + 2` of a run. -/
theorem all_stages_sent (parse : Tokenizer σ α) (R : ObjRep α β) (file : σ) (H N i : Nat)
    (s : StageExit α β σ) (hi : i ≤ 2 * H + 2)
    (h : (all_stages (run_passes parse R file H N))[i]? = some (.ok s)) :
    s.output.length = N
      ∧ s.sent = frame R (if i = H + 1 then s.output.map fx1 else s.output) := by
  by_cases c0 : i = 0
  · subst c0
    rw [all_stages_zero] at h
    obtain ⟨a, b, _⟩ := input_layer_process_inv parse R N file s (Option.some.inj h)
    rw [if_neg (by omega)]
    exact ⟨a, b⟩
  · obtain ⟨r, _, h4⟩ := all_stages_succ parse R file H N i (by omega) (by omega)
    rw [h4] at h
    exact stage_at_sent parse R file H N i _ s hi (Option.some.inj h)

/-- When a stage has terminated with a fatal error, every later stage of the
run terminates at its pipe read. -/
theorem all_stages_cascade (parse : Tokenizer σ α) (R : ObjRep α β) (file : σ) (H N i : Nat)
    (e : Fatal) (h : (all_stages (run_passes parse R file H N))[i]? = some (.error e)) :
    ∀ d : Nat, i + 1 + d ≤ 2 * H + 3 →
      (all_stages (run_passes parse R file H N))[i + 1 + d]? = some (.error .pipe_read) := by
  intro d
  induction d with
  | zero =>
    intro hd
    obtain ⟨r, h3, h4⟩ := all_stages_succ parse R file H N (i + 1) (by omega) hd
    rw [Nat.add_sub_cancel, h] at h3
    rw [← Option.some.inj h3] at h4
    rw [Nat.add_zero, h4, pipe_of_error,
      stage_at_no_frame parse R file H N (i + 1) _ (read_from_pipe_nil_fails R)]
  | succ d ih =>
    intro hd
    obtain ⟨r, h3, h4⟩ := all_stages_succ parse R file H N (i + 1 + (d + 1)) (by omega) hd
    rw [show i + 1 + (d + 1) - 1 = i + 1 + d by omega, ih (by omega)] at h3
    rw [← Option.some.inj h3] at h4
    rw [h4, pipe_of_error, stage_at_no_frame parse R file H N _ _ (read_from_pipe_nil_fails R)]

/-- The predecessor of a stage that terminates normally has terminated
normally, and the stage has read the frame it sent. -/
theorem all_stages_pred (parse : Tokenizer σ α) (R : ObjRep α β) (file : σ) (H N i : Nat)
    (s : StageExit α β σ) (h1 : 1 ≤ i) (h2 : i ≤ 2 * H + 3) (hN : N ≤ 2147483647)
    (h : (all_stages (run_passes parse R file H N))[i]? = some (.ok s)) :
    ∃ s', (all_stages (run_passes parse R file H N))[i - 1]? = some (.ok s')
      ∧ s'.output.length = N
      ∧ s'.sent = frame R s.input_data
      ∧ s.input_data = (if i = H + 2 then s'.output.map fx1 else s'.output)
      ∧ read_weights parse (N * N) ((discard parse)^[2 + (2 * N + (i - 1) * (N * N))] file)
          = some (s.weights, s.input_fp) := by
  obtain ⟨r, h3, h4⟩ := all_stages_succ parse R file H N i h1 h2
  rw [h4] at h
  have h5 := Option.some.inj h
  cases r with
  | error e =>
    rw [pipe_of_error,
      stage_at_no_frame parse R file H N i _ (read_from_pipe_nil_fails R)] at h5
    cases h5
  | ok s' =>
    obtain ⟨hlen, hsent⟩ := all_stages_sent parse R file H N (i - 1) s' (by omega) h3
    obtain ⟨c, rest, hr, hw⟩ := stage_at_reads parse R file H N i _ s h2 h5
    have hcond : (i - 1 = H + 1) ↔ (i = H + 2) := by omega
    simp only [hcond] at hsent
    have hl : (if i = H + 2 then s'.output.map fx1 else s'.output).length = N := by
      split
      · rw [List.length_map, hlen]
      · exact hlen
    have hread := read_from_pipe_frame R (if i = H + 2 then s'.output.map fx1 else s'.output) []
      (by rw [hl]; exact hN)
    rw [List.append_nil, ← hsent, hl] at hread
    rw [show pipe_of (Except.ok s' : Except Fatal (StageExit α β σ)) = s'.sent from rfl,
      hread] at hr
    simp only [Prod.mk.injEq, Option.some.injEq] at hr
    obtain ⟨⟨hd, hc⟩, _⟩ := hr
    refine ⟨s', h3, hlen, ?_, hd.symm, ?_⟩
    · rw [hsent, hd]
    · rw [← hc] at hw
      exact hw

end ReadsAt

/-! ## Lemmas: the calls that the stages before a stage have checked -/

section Covered
variable {α β σ : Type}

theorem read_weights_calls (parse : Tokenizer σ α) (n : Nat) :
    ∀ (fp fp' : σ) (ws : List α), read_weights parse n fp = some (ws, fp') →
      ∀ q, q < n → (parse ((discard parse)^[q] fp)).1 ≠ none := by
  induction n with
  | zero => intro fp fp' ws _ q hq; omega
  | succ n ih =>
    intro fp fp' ws h q hq
    unfold read_weights at h
    split at h
    · cases h
    · rename_i value fp1 hp
      split at h
      · cases h
      · rename_i ws1 fp2 hr
        cases q with
        | zero =>
          rw [Function.iterate_zero_apply, hp]
          exact fun hne => by cases hne
        | succ q =>
          rw [Function.iterate_succ_apply]
          have hd : discard parse fp = fp1 := by unfold discard; rw [hp]
          rw [hd]
          exact ih fp1 fp2 ws1 hr q (by omega)

theorem read_weights_calls_at (parse : Tokenizer σ α) (n m : Nat) (fp fp' : σ) (ws : List α)
    (h : read_weights parse n ((discard parse)^[m] fp) = some (ws, fp')) (p : Nat)
    (h1 : m ≤ p) (h2 : p < m + n) : (parse ((discard parse)^[p] fp)).1 ≠ none := by
  have := read_weights_calls parse n _ fp' ws h (p - m) (by omega)
  rw [← Function.iterate_add_apply, show p - m + m = p by omega] at this
  exact this

end Covered

section CoveredRun
variable {α β σ : Type} [Zero α] [Add α] [Mul α] [Sub α] [Div α] [OfScientific α]

/-- When the stage at position `k` has terminated normally, every call that the
stages `0..k` make to read their inputs and weights has succeeded: these are
the first `2 + 2N + k N^2` calls on the source. -/
theorem all_stages_covered (parse : Tokenizer σ α) (R : ObjRep α β) (file : σ) (H N : Nat)
    (hN : N ≤ 2147483647) (k : Nat) :
    k ≤ 2 * H + 3 → ∀ s, (all_stages (run_passes parse R file H N))[k]? = some (.ok s) →
      ∀ p, p < 2 + (2 * N + k * (N * N)) → (parse ((discard parse)^[p] file)).1 ≠ none := by
  induction k with
  | zero =>
    intro _ s h p hp
    rw [all_stages_zero] at h
    obtain ⟨v0, v1, h0, h1, _, hw⟩ :=
      input_layer_process_reads parse R N file s (Option.some.inj h)
    by_cases c0 : p = 0
    · subst c0
      rw [Function.iterate_zero_apply, h0]
      exact fun hne => by cases hne
    · by_cases c1 : p = 1
      · subst c1
        rw [Function.iterate_one, h1]
        exact fun hne => by cases hne
      · exact read_weights_calls_at parse _ 2 file _ _ hw p (by omega)
          (by unfold INPUT_NEURONS; omega)
  | succ k ih =>
    intro hk s h p hp
    obtain ⟨s', h3, _, _, _, hw⟩ :=
      all_stages_pred parse R file H N (k + 1) s (by omega) hk hN h
    rw [Nat.add_sub_cancel] at h3 hw
    by_cases c : p < 2 + (2 * N + k * (N * N))
    · exact ih (by omega) s' h3 p c
    · exact read_weights_calls_at parse _ _ file _ _ hw p (by omega)
        (by
          have : (k + 1) * (N * N) = k * (N * N) + N * N := by ring
          omega)

end CoveredRun

/-! ## Lemmas: the calls of `main` and the stages they run -/

section ExecLemmas
variable {α β σ : Type} [Zero α] [Add α] [Mul α] [Sub α] [Div α] [OfScientific α]

/-- Closes and waits move no data. -/
theorem foldl_inert (parse : Tokenizer σ α) (R : ObjRep α β) (file : σ) (l : List SysCall)
    (h : ∀ c ∈ l, (∃ fd, c = .close fd) ∨ ∃ pid, c = .waitpid pid) (k : Kernel α β σ) :
    l.foldl (sys_call parse R file) k = k := by
  induction l generalizing k with
  | nil => rfl
  | cons c l ih =>
    rw [List.foldl_cons]
    have hc : sys_call parse R file k c = k := by
      rcases h c (List.mem_cons_self _ _) with ⟨fd, rfl⟩ | ⟨pid, rfl⟩ <;> rfl
    rw [hc]
    exact ih (fun c' hc' => h c' (List.mem_cons_of_mem _ hc')) k

/-- Creating pipes that hold nothing changes nothing. -/
theorem foldl_pipes (parse : Tokenizer σ α) (R : ObjRep α β) (file : σ) (l : List PipeId)
    (k : Kernel α β σ) (h : ∀ p ∈ l, k.pipes p = []) :
    (l.map SysCall.pipe).foldl (sys_call parse R file) k = k := by
  induction l with
  | nil => rfl
  | cons p l ih =>
    rw [List.map_cons, List.foldl_cons]
    have hp : sys_call parse R file k (.pipe p) = k := by
      show ({ k with pipes := Function.update k.pipes p [] } : Kernel α β σ) = k
      rw [← h p (List.mem_cons_self _ _), Function.update_eq_self]
    rw [hp]
    exact ih (fun p' hp' => h p' (List.mem_cons_of_mem _ hp'))

/-- The loop of `main` that forks the hidden layers of a pass: it runs the
stages of `fork_hidden_layers`, each on what its predecessor has written. -/
theorem hidden_loop (parse : Tokenizer σ α) (R : ObjRep α β) (file : σ)
    (fam : Nat → PipeId) (hfam : ∀ a b, fam a = fam b → a = b)
    (pidf : Nat → Pid) (callf : Nat → StageCall)
    (stage : Nat → List β → Except Fatal (StageExit α β σ))
    (hrun : ∀ i pipes, run_child parse R file pipes (callf i) = stage (i + 1) (pipes (fam i)))
    (hread : ∀ i, (callf i).read_fd = some ⟨fam i, 0⟩)
    (hwrite : ∀ i, (callf i).write_fd = some ⟨fam (i + 1), 1⟩)
    (count : Nat) : ∀ (i0 : Nat) (k : Kernel α β σ), (∀ j, i0 < j → k.pipes (fam j) = []) →
      (((List.range' i0 count).flatMap (fun i =>
          [SysCall.fork (pidf i) (callf i), .close ⟨fam i, 0⟩, .close ⟨fam (i + 1), 1⟩])).foldl
        (sys_call parse R file) k).exits
        = k.exits ++ ((List.range' i0 count).map pidf).zip
            (fork_hidden_layers stage i0 count (k.pipes (fam i0))).1
      ∧ (((List.range' i0 count).flatMap (fun i =>
          [SysCall.fork (pidf i) (callf i), .close ⟨fam i, 0⟩, .close ⟨fam (i + 1), 1⟩])).foldl
        (sys_call parse R file) k).pipes (fam (i0 + count))
        = (fork_hidden_layers stage i0 count (k.pipes (fam i0))).2
      ∧ (∀ j, i0 + count < j →
        (((List.range' i0 count).flatMap (fun i =>
          [SysCall.fork (pidf i) (callf i), .close ⟨fam i, 0⟩, .close ⟨fam (i + 1), 1⟩])).foldl
        (sys_call parse R file) k).pipes (fam j) = [])
      ∧ (∀ p, (∀ j, p ≠ fam j) →
        (((List.range' i0 count).flatMap (fun i =>
          [SysCall.fork (pidf i) (callf i), .close ⟨fam i, 0⟩, .close ⟨fam (i + 1), 1⟩])).foldl
        (sys_call parse R file) k).pipes p = k.pipes p) := by
  induction count with
  | zero =>
    intro i0 k hk
    simp only [List.range', List.flatMap_nil, List.foldl_nil, List.map_nil, List.zip_nil_left,
      List.append_nil, fork_hidden_layers, Nat.add_zero, true_and]
    exact ⟨hk, fun _ _ => trivial⟩
  | succ count ih =>
    intro i0 k hk
    -- the state after the first fork of the loop
    have hne : fam (i0 + 1) ≠ fam i0 := fun h => by have := hfam _ _ h; omega
    have hstep : [SysCall.fork (pidf i0) (callf i0), .close ⟨fam i0, 0⟩,
          .close ⟨fam (i0 + 1), 1⟩].foldl (sys_call parse R file) k
        = { pipes := Function.update
              (Function.update k.pipes (fam i0) (read_from_pipe (α := α) R (k.pipes (fam i0))).2)
              (fam (i0 + 1)) (pipe_of (stage (i0 + 1) (k.pipes (fam i0)))),
            exits := k.exits ++ [(pidf i0, stage (i0 + 1) (k.pipes (fam i0)))] } := by
      simp only [List.foldl_cons, List.foldl_nil, sys_call, pipes_after, hread, hwrite, hrun,
        if_true, Function.update_noteq hne, hk (i0 + 1) (by omega), List.nil_append]
    rw [List.range'_succ, List.flatMap_cons, List.foldl_append, hstep]
    obtain ⟨h1, h2, h3, h4⟩ := ih (i0 + 1)
      { pipes := Function.update
          (Function.update k.pipes (fam i0) (read_from_pipe (α := α) R (k.pipes (fam i0))).2)
          (fam (i0 + 1)) (pipe_of (stage (i0 + 1) (k.pipes (fam i0)))),
        exits := k.exits ++ [(pidf i0, stage (i0 + 1) (k.pipes (fam i0)))] }
      (by
        intro j hj
        have n1 : fam j ≠ fam (i0 + 1) := fun h => by have := hfam _ _ h; omega
        have n2 : fam j ≠ fam i0 := fun h => by have := hfam _ _ h; omega
        simp only [Function.update_noteq n1, Function.update_noteq n2]
        exact hk j (by omega))
    simp only [Function.update_same] at h1 h2
    refine ⟨?_, ?_, ?_, ?_⟩
    · rw [h1, fork_hidden_layers, List.map_cons, List.zip_cons_cons, List.append_assoc,
        List.singleton_append]
    · rw [show i0 + (count + 1) = i0 + 1 + count by omega, h2, fork_hidden_layers]
    · intro j hj
      exact h3 j (by omega)
    · intro p hp
      rw [h4 p hp]
      simp only [Function.update_noteq (hp (i0 + 1)), Function.update_noteq (hp i0)]

end ExecLemmas

section ExecRun
variable {α β σ : Type} [Zero α] [Add α] [Mul α] [Sub α] [Div α] [OfScientific α]

theorem foldl_pipe_calls (parse : Tokenizer σ α) (R : ObjRep α β) (file : σ) (l : List Nat)
    (f : Nat → PipeId) (k : Kernel α β σ) (h : ∀ i ∈ l, k.pipes (f i) = []) :
    (l.map (fun i => SysCall.pipe (f i))).foldl (sys_call parse R file) k = k := by
  have := foldl_pipes parse R file (l.map f) k (by
    intro p hp
    obtain ⟨i, hi, rfl⟩ := List.mem_map.1 hp
    exact h i hi)
  rw [List.map_map] at this
  exact this

/-- The state of the system after the calls of the first pass. -/
theorem first_pass_state (parse : Tokenizer σ α) (R : ObjRep α β) (file : σ) (H N : Nat) :
    ((first_pass_calls H N).foldl (sys_call parse R file)
        { pipes := fun _ => [], exits := [] }).exits
      = [(Pid.input_pid, (run_passes parse R file H N).1.input)]
        ++ ((List.range H).map Pid.hidden_pids).zip (run_passes parse R file H N).1.hidden
        ++ [(Pid.output_pid, (run_passes parse R file H N).1.output)]
    ∧ ((first_pass_calls H N).foldl (sys_call parse R file)
        { pipes := fun _ => [], exits := [] }).pipes .backward_pipe
      = pipe_of (run_passes parse R file H N).1.output
    ∧ ∀ j, ((first_pass_calls H N).foldl (sys_call parse R file)
        { pipes := fun _ => [], exits := [] }).pipes (.second_forward_pipes j) = [] := by
  unfold first_pass_calls
  simp only [List.foldl_append]
  rw [foldl_pipe_calls parse R file _ PipeId.forward_pipes _ (fun _ _ => rfl)]
  -- the backward pipe, the input layer and the close after it
  have h1 : [SysCall.fork Pid.input_pid
        (StageCall.input_layer_process N N ⟨PipeId.forward_pipes 0, 1⟩ 0),
        SysCall.close ⟨PipeId.forward_pipes 0, 1⟩].foldl (sys_call parse R file)
        ([SysCall.pipe PipeId.backward_pipe].foldl (sys_call parse R file)
          { pipes := fun _ => [], exits := [] })
      = { pipes := Function.update (fun _ => []) (PipeId.forward_pipes 0)
            (pipe_of (input_layer_process parse R N file)),
          exits := [(Pid.input_pid, input_layer_process parse R N file)] } := by
    simp only [List.foldl_cons, List.foldl_nil, sys_call, pipes_after, StageCall.read_fd,
      StageCall.write_fd, run_child, if_true, List.nil_append, Function.update_eq_self]
  rw [h1]
  -- the hidden layers
  obtain ⟨a1, a2, a3, a4⟩ := hidden_loop parse R file PipeId.forward_pipes
    (fun a b h => by injection h) Pid.hidden_pids
    (fun i => StageCall.hidden_layer_process (i + 1) N ⟨PipeId.forward_pipes i, 0⟩
      ⟨PipeId.forward_pipes (i + 1), 1⟩ H)
    (fun layer_num pipe => hidden_layer_process parse R layer_num N pipe file)
    (fun i pipes => by simp only [run_child, readable, if_true])
    (fun i => rfl) (fun i => rfl) H 0
    { pipes := Function.update (fun _ => []) (PipeId.forward_pipes 0)
        (pipe_of (input_layer_process parse R N file)),
      exits := [(Pid.input_pid, input_layer_process parse R N file)] }
    (by
      intro j hj
      have : PipeId.forward_pipes j ≠ PipeId.forward_pipes 0 := fun h => by
        injection h; omega
      simp only [Function.update_noteq this])
  rw [← List.range_eq_range'] at a1 a2 a3 a4
  simp only [Function.update_same, Nat.zero_add] at a1 a2 a3
  -- the output layer with its closes, then the waits
  rw [foldl_inert parse R file ((List.range H).map fun i => SysCall.waitpid (Pid.hidden_pids i))
      (by
        intro c hc
        obtain ⟨i, _, rfl⟩ := List.mem_map.1 hc
        exact Or.inr ⟨_, rfl⟩)]
  simp only [List.foldl_cons, List.foldl_nil, sys_call, pipes_after, StageCall.read_fd,
    StageCall.write_fd, run_child, readable, if_true]
  have n1 : PipeId.backward_pipe ≠ PipeId.forward_pipes H := fun h => by cases h
  have n3 : PipeId.backward_pipe ≠ PipeId.forward_pipes 0 := fun h => by cases h
  have b1 := a4 PipeId.backward_pipe (fun j h => by cases h)
  simp only [Function.update_noteq n3] at b1
  have b2 : ∀ j, _ = _ := fun j => a4 (PipeId.second_forward_pipes j) (fun j' h => by cases h)
  have m3 : ∀ j, PipeId.second_forward_pipes j ≠ PipeId.forward_pipes 0 :=
    fun j h => by cases h
  simp only [Function.update_noteq (m3 _)] at b2
  refine ⟨?_, ?_, ?_⟩
  · rw [a1, a2]
    rfl
  · rw [Function.update_same, Function.update_noteq n1, b1, a2]
    rfl
  · intro j
    have m1 : PipeId.second_forward_pipes j ≠ PipeId.backward_pipe := fun h => by cases h
    have m2 : PipeId.second_forward_pipes j ≠ PipeId.forward_pipes H := fun h => by cases h
    rw [Function.update_noteq m1, Function.update_noteq m2, b2 j]

/-- The children that the calls of the second pass add, from a state in which
the pipes of the second pass hold nothing. -/
theorem second_pass_state (parse : Tokenizer σ α) (R : ObjRep α β) (file : σ) (H N : Nat)
    (k : Kernel α β σ) (hk : ∀ j, k.pipes (.second_forward_pipes j) = []) :
    ((second_pass_calls H N).foldl (sys_call parse R file) k).exits
      = k.exits
        ++ [(Pid.second_input_pid,
              second_input_layer_process parse R N (k.pipes .backward_pipe) file H)]
        ++ ((List.range H).map Pid.second_hidden_pids).zip
            (fork_hidden_layers
              (fun layer_num pipe => second_hidden_layer_process parse R layer_num N pipe file H)
              0 H
              (pipe_of (second_input_layer_process parse R N (k.pipes .backward_pipe) file H))).1
        ++ [(Pid.second_output_pid,
              second_output_layer_process parse R N
                (fork_hidden_layers
                  (fun layer_num pipe =>
                    second_hidden_layer_process parse R layer_num N pipe file H)
                  0 H
                  (pipe_of
                    (second_input_layer_process parse R N (k.pipes .backward_pipe) file H))).2
                file H)] := by
  unfold second_pass_calls
  simp only [List.foldl_append]
  rw [foldl_pipe_calls parse R file _ PipeId.second_forward_pipes _ (fun j _ => hk j)]
  have n0 : PipeId.second_forward_pipes 0 ≠ PipeId.backward_pipe := fun h => by cases h
  have h1 : [SysCall.fork Pid.second_input_pid
        (StageCall.second_input_layer_process N N ⟨PipeId.backward_pipe, 0⟩
          ⟨PipeId.second_forward_pipes 0, 1⟩ H),
        SysCall.close ⟨PipeId.backward_pipe, 0⟩,
        SysCall.close ⟨PipeId.second_forward_pipes 0, 1⟩].foldl (sys_call parse R file) k
      = { pipes := Function.update
            (Function.update k.pipes PipeId.backward_pipe
              (read_from_pipe (α := α) R (k.pipes PipeId.backward_pipe)).2)
            (PipeId.second_forward_pipes 0)
            (pipe_of (second_input_layer_process parse R N (k.pipes .backward_pipe) file H)),
          exits := k.exits ++ [(Pid.second_input_pid,
            second_input_layer_process parse R N (k.pipes .backward_pipe) file H)] } := by
    simp only [List.foldl_cons, List.foldl_nil, sys_call, pipes_after, StageCall.read_fd,
      StageCall.write_fd, run_child, readable, if_true, Function.update_noteq n0, hk 0,
      List.nil_append]
  rw [h1]
  obtain ⟨a1, a2, _, _⟩ := hidden_loop parse R file PipeId.second_forward_pipes
    (fun a b h => by injection h) Pid.second_hidden_pids
    (fun i => StageCall.second_hidden_layer_process (i + 1) N ⟨PipeId.second_forward_pipes i, 0⟩
      ⟨PipeId.second_forward_pipes (i + 1), 1⟩ H)
    (fun layer_num pipe => second_hidden_layer_process parse R layer_num N pipe file H)
    (fun i pipes => by simp only [run_child, readable, if_true])
    (fun i => rfl) (fun i => rfl) H 0
    { pipes := Function.update
        (Function.update k.pipes PipeId.backward_pipe
          (read_from_pipe (α := α) R (k.pipes PipeId.backward_pipe)).2)
        (PipeId.second_forward_pipes 0)
        (pipe_of (second_input_layer_process parse R N (k.pipes .backward_pipe) file H)),
      exits := k.exits ++ [(Pid.second_input_pid,
        second_input_layer_process parse R N (k.pipes .backward_pipe) file H)] }
    (by
      intro j hj
      have m1 : PipeId.second_forward_pipes j ≠ PipeId.second_forward_pipes 0 := fun h => by
        injection h; omega
      have m2 : PipeId.second_forward_pipes j ≠ PipeId.backward_pipe := fun h => by cases h
      simp only [Function.update_noteq m1, Function.update_noteq m2]
      exact hk j)
  rw [← List.range_eq_range'] at a1 a2
  simp only [Function.update_same, Nat.zero_add] at a1 a2
  rw [foldl_inert parse R file
      ((List.range H).map fun i => SysCall.waitpid (Pid.second_hidden_pids i))
      (by
        intro c hc
        obtain ⟨i, _, rfl⟩ := List.mem_map.1 hc
        exact Or.inr ⟨_, rfl⟩)]
  simp only [List.foldl_cons, List.foldl_nil, sys_call, pipes_after, StageCall.read_fd,
    StageCall.write_fd, run_child, readable, if_true]
  rw [a1, a2]

/-- The children of a run of the calls of `main`, in the order of the forks:
the stages of `run_passes`. -/
theorem run_calls_pipeline (parse : Tokenizer σ α) (R : ObjRep α β) (file : σ) (H N : Nat) :
    (run_calls parse R file (pipeline_calls H N)).exits
      = [(Pid.input_pid, (run_passes parse R file H N).1.input)]
        ++ ((List.range H).map Pid.hidden_pids).zip (run_passes parse R file H N).1.hidden
        ++ [(Pid.output_pid, (run_passes parse R file H N).1.output)]
        ++ [(Pid.second_input_pid, (run_passes parse R file H N).2.input)]
        ++ ((List.range H).map Pid.second_hidden_pids).zip
            (run_passes parse R file H N).2.hidden
        ++ [(Pid.second_output_pid, (run_passes parse R file H N).2.output)] := by
  unfold run_calls pipeline_calls
  rw [List.foldl_append, List.foldl_append]
  obtain ⟨a1, a2, a3⟩ := first_pass_state parse R file H N
  have c := second_pass_state parse R file H N _ a3
  rw [a1, a2] at c
  rw [foldl_inert parse R file (cleanup_calls H) (by
    intro x hx
    unfold cleanup_calls at hx
    simp only [List.mem_append, List.mem_flatMap, List.mem_range, List.mem_cons,
      List.mem_singleton, List.not_mem_nil, or_false] at hx
    rcases hx with ⟨i, _, h | h | h | h⟩ | h | h <;> exact Or.inl ⟨_, h⟩)]
  rw [c]
  simp only [List.append_assoc]
  rfl

theorem run_calls_stages (parse : Tokenizer σ α) (R : ObjRep α β) (file : σ) (H N : Nat) :
    (run_calls parse R file (pipeline_calls H N)).exits.map Prod.snd
      = all_stages (run_passes parse R file H N) := by
  obtain ⟨e1, e2⟩ := run_passes_hidden_length parse R file H N
  rw [run_calls_pipeline]
  simp only [List.map_append, List.map_cons, List.map_nil, all_stages]
  rw [List.map_snd_zip _ _ (by simp [e1]), List.map_snd_zip _ _ (by simp [e2])]

theorem run_calls_pids (parse : Tokenizer σ α) (R : ObjRep α β) (file : σ) (H N : Nat) :
    (run_calls parse R file (pipeline_calls H N)).exits.map Prod.fst
      = [Pid.input_pid] ++ (List.range H).map Pid.hidden_pids ++ [Pid.output_pid]
        ++ [Pid.second_input_pid] ++ (List.range H).map Pid.second_hidden_pids
        ++ [Pid.second_output_pid] := by
  obtain ⟨e1, e2⟩ := run_passes_hidden_length parse R file H N
  rw [run_calls_pipeline]
  simp only [List.map_append, List.map_cons, List.map_nil]
  rw [List.map_fst_zip _ _ (by simp [e1]), List.map_fst_zip _ _ (by simp [e2])]

end ExecRun

/-! ## Lemmas: the pipes and the forks in the calls of `main` -/

section Calls

theorem filterMap_none {γ δ : Type} (l : List γ) :
    l.filterMap (fun _ => (none : Option δ)) = [] := by
  induction l with
  | nil => rfl
  | cons a l ih => simp [ih]

theorem flatMap_single {γ δ : Type} (l : List γ) (f : γ → δ) :
    l.flatMap (fun a => [f a]) = l.map f := by
  induction l with
  | nil => rfl
  | cons a l ih => simp [ih]

theorem flatMap_nothing {γ δ : Type} (l : List γ) :
    l.flatMap (fun _ => ([] : List δ)) = [] := by
  induction l with
  | nil => rfl
  | cons a l ih => simp [ih]

theorem filterMap_some {γ δ : Type} (l : List γ) (f : γ → δ) :
    l.filterMap (fun a => some (f a)) = l.map f := by
  induction l with
  | nil => rfl
  | cons a l ih => simp [ih]

theorem forked_first_pass (H N : Nat) :
    forked (first_pass_calls H N)
      = [StageCall.input_layer_process N N ⟨.forward_pipes 0, 1⟩ 0]
        ++ (List.range H).map (fun i => StageCall.hidden_layer_process (i + 1) N
            ⟨.forward_pipes i, 0⟩ ⟨.forward_pipes (i + 1), 1⟩ H)
        ++ [StageCall.output_layer_process (H + 1) N ⟨.forward_pipes H, 0⟩
            ⟨.backward_pipe, 1⟩ H] := by
  simp [forked, first_pass_calls, List.filterMap_flatMap, List.filterMap_map,
    Function.comp_def, filterMap_none, flatMap_single]

theorem forked_second_pass (H N : Nat) :
    forked (second_pass_calls H N)
      = [StageCall.second_input_layer_process N N ⟨.backward_pipe, 0⟩
            ⟨.second_forward_pipes 0, 1⟩ H]
        ++ (List.range H).map (fun i => StageCall.second_hidden_layer_process (i + 1) N
            ⟨.second_forward_pipes i, 0⟩ ⟨.second_forward_pipes (i + 1), 1⟩ H)
        ++ [StageCall.second_output_layer_process (H + 1) N
            ⟨.second_forward_pipes H, 0⟩ H] := by
  simp [forked, second_pass_calls, List.filterMap_flatMap, List.filterMap_map,
    Function.comp_def, filterMap_none, flatMap_single]

theorem forked_cleanup (H : Nat) : forked (cleanup_calls H) = [] := by
  simp [forked, cleanup_calls, List.filterMap_flatMap, filterMap_none]

theorem created_pipeline (H N : Nat) :
    created (pipeline_calls H N)
      = (List.range (H + 2)).map PipeId.forward_pipes ++ [PipeId.backward_pipe]
        ++ (List.range (H + 2)).map PipeId.second_forward_pipes := by
  simp [created, pipeline_calls, first_pass_calls, second_pass_calls, cleanup_calls,
    List.filterMap_flatMap, List.filterMap_map, Function.comp_def, filterMap_none,
    flatMap_nothing, filterMap_some]

theorem three_part_get {γ : Type} (a o : γ) (l : List γ) (H : Nat) (hl : l.length = H)
    (i : Nat) :
    ([a] ++ l ++ [o])[i]? =
      if i = 0 then some a else if i ≤ H then l[i - 1]? else if i = H + 1 then some o
      else none := by
  by_cases c0 : i = 0
  · subst c0; simp
  · obtain ⟨j, rfl⟩ : ∃ j, i = j + 1 := ⟨i - 1, by omega⟩
    rw [if_neg c0]
    simp only [List.singleton_append, List.cons_append, List.getElem?_cons_succ,
      Nat.add_sub_cancel, List.nil_append]
    by_cases c1 : j + 1 ≤ H
    · rw [if_pos c1, List.getElem?_append_left (by omega)]
    · rw [if_neg c1, List.getElem?_append_right (by omega), hl]
      by_cases c2 : j + 1 = H + 1
      · rw [if_pos c2, show j - H = 0 by omega]
        rfl
      · rw [if_neg c2]
        obtain ⟨d, hd⟩ : ∃ d, j - H = d + 1 := ⟨j - H - 1, by omega⟩
        rw [hd]
        rfl

end Calls

section CallsOrder

theorem fork_mem_first_pass (H N : Nat) (pid : Pid) (child : StageCall)
    (h : SysCall.fork pid child ∈ first_pass_calls H N) :
    pid = .input_pid ∨ (∃ i, i < H ∧ pid = .hidden_pids i) ∨ pid = .output_pid := by
  simp [first_pass_calls] at h
  rcases h with ⟨h, _⟩ | ⟨i, hi, h, _⟩ | ⟨h, _⟩
  · exact Or.inl h
  · exact Or.inr (Or.inl ⟨i, hi, h⟩)
  · exact Or.inr (Or.inr h)

theorem fork_mem_later (H N : Nat) (pid : Pid) (child : StageCall)
    (h : SysCall.fork pid child ∈ second_pass_calls H N ++ cleanup_calls H) : pid.pass = 2 := by
  simp [second_pass_calls, cleanup_calls] at h
  rcases h with ⟨h, _⟩ | ⟨i, _, h, _⟩ | ⟨h, _⟩ <;> rw [h] <;> rfl

theorem waitpid_mem_first_pass (H N : Nat) (pid : Pid) :
    SysCall.waitpid pid ∈ first_pass_calls H N
      ↔ (pid = .input_pid ∨ (∃ i, i < H ∧ pid = .hidden_pids i) ∨ pid = .output_pid) := by
  simp [first_pass_calls, eq_comm]

theorem waitpid_mem_later (H N : Nat) (pid : Pid)
    (h : SysCall.waitpid pid ∈ second_pass_calls H N ++ cleanup_calls H) : pid.pass = 2 := by
  simp [second_pass_calls, cleanup_calls] at h
  rcases h with h | ⟨i, _, h⟩ | h
  · rw [h]; rfl
  · rw [← h]; rfl
  · rw [h]; rfl

/-- Every fork of a child of the second pass comes after the first pass. -/
theorem second_fork_index (H N b : Nat) (pid : Pid) (child : StageCall)
    (h : (pipeline_calls H N)[b]? = some (.fork pid child)) (hp : pid.pass = 2) :
    (first_pass_calls H N).length ≤ b := by
  by_contra hb
  unfold pipeline_calls at h
  rw [List.append_assoc, List.getElem?_append_left (by omega)] at h
  rcases fork_mem_first_pass H N pid child (List.getElem?_mem h) with h1 | ⟨i, _, h1⟩ | h1 <;>
  · rw [h1] at hp
    cases hp

/-- A child of the first pass is waited for before the second pass. -/
theorem first_wait_index (H N : Nat) (pid : Pid) (child : StageCall)
    (h : SysCall.fork pid child ∈ pipeline_calls H N) (hp : pid.pass = 1) :
    ∃ a, a < (first_pass_calls H N).length
      ∧ (pipeline_calls H N)[a]? = some (.waitpid pid) := by
  unfold pipeline_calls at h ⊢
  rw [List.append_assoc] at h ⊢
  rcases List.mem_append.1 h with h1 | h1
  · have hw := (waitpid_mem_first_pass H N pid).2 (fork_mem_first_pass H N pid child h1)
    obtain ⟨a, ha, hget⟩ := List.getElem_of_mem hw
    exact ⟨a, ha, by rw [List.getElem?_append_left ha, List.getElem?_eq_getElem ha, hget]⟩
  · have := fork_mem_later H N pid child h1
    rw [hp] at this
    cases this

end CallsOrder

section CallsTopology

theorem forked_pipeline (H N : Nat) :
    forked (pipeline_calls H N)
      = forked (first_pass_calls H N) ++ forked (second_pass_calls H N) := by
  have h := forked_cleanup H
  unfold forked at h ⊢
  unfold pipeline_calls
  rw [List.filterMap_append, List.filterMap_append, h, List.append_nil]

theorem forked_first_pass_get (H N i : Nat) (hi : i ≤ H + 1) :
    ∃ c, (forked (first_pass_calls H N))[i]? = some c
      ∧ c.write_fd = (if i ≤ H then some ⟨.forward_pipes i, 1⟩ else some ⟨.backward_pipe, 1⟩)
      ∧ c.read_fd = (if i = 0 then none else some ⟨.forward_pipes (i - 1), 0⟩) := by
  rw [forked_first_pass, three_part_get _ _ _ H (by simp)]
  by_cases c0 : i = 0
  · subst c0
    exact ⟨_, rfl, by rw [if_pos (Nat.zero_le _)]; rfl, rfl⟩
  · rw [if_neg c0]
    by_cases c1 : i ≤ H
    · rw [if_pos c1, List.getElem?_map, List.getElem?_range (by omega)]
      refine ⟨_, rfl, ?_, ?_⟩
      · rw [if_pos c1, StageCall.write_fd, show i - 1 + 1 = i by omega]
      · rw [if_neg c0, StageCall.read_fd]
    · have c2 : i = H + 1 := by omega
      subst c2
      rw [if_neg c1, if_pos rfl]
      refine ⟨_, rfl, ?_, ?_⟩
      · rw [if_neg c1, StageCall.write_fd]
      · rw [if_neg c0, StageCall.read_fd, Nat.add_sub_cancel]

theorem forked_second_pass_get (H N i : Nat) (hi : i ≤ H + 1) :
    ∃ c, (forked (second_pass_calls H N))[i]? = some c
      ∧ c.write_fd = (if i ≤ H then some ⟨.second_forward_pipes i, 1⟩ else none)
      ∧ c.read_fd = (if i = 0 then some ⟨.backward_pipe, 0⟩
          else some ⟨.second_forward_pipes (i - 1), 0⟩) := by
  rw [forked_second_pass, three_part_get _ _ _ H (by simp)]
  by_cases c0 : i = 0
  · subst c0
    exact ⟨_, rfl, by rw [if_pos (Nat.zero_le _)]; rfl, rfl⟩
  · rw [if_neg c0]
    by_cases c1 : i ≤ H
    · rw [if_pos c1, List.getElem?_map, List.getElem?_range (by omega)]
      refine ⟨_, rfl, ?_, ?_⟩
      · rw [if_pos c1, StageCall.write_fd, show i - 1 + 1 = i by omega]
      · rw [if_neg c0, StageCall.read_fd]
    · have c2 : i = H + 1 := by omega
      subst c2
      rw [if_neg c1, if_pos rfl]
      refine ⟨_, rfl, ?_, ?_⟩
      · rw [if_neg c1, StageCall.write_fd]
      · rw [if_neg c0, StageCall.read_fd, Nat.add_sub_cancel]

theorem last_pipes_unused (H N : Nat) (c : StageCall) (hc : c ∈ forked (pipeline_calls H N))
    (fd : Fd) (hfd : c.write_fd = some fd ∨ c.read_fd = some fd) :
    fd.pipe ≠ .forward_pipes (H + 1) ∧ fd.pipe ≠ .second_forward_pipes (H + 1) := by
  rw [forked_pipeline, forked_first_pass, forked_second_pass] at hc
  simp only [List.mem_append, List.mem_map, List.mem_range, List.mem_singleton] at hc
  rcases hc with ((rfl | ⟨i, hi, rfl⟩) | rfl) | ((rfl | ⟨i, hi, rfl⟩) | rfl)
  all_goals
    rcases hfd with hfd | hfd
    all_goals
      first
      | (simp only [StageCall.write_fd, StageCall.read_fd, reduceCtorEq] at hfd; done)
      | (simp only [StageCall.write_fd, StageCall.read_fd, Option.some.injEq] at hfd
         subst hfd
         refine ⟨fun h => ?_, fun h => ?_⟩ <;> simp at h <;> omega)

end CallsTopology

/-! ## The claims C21 to C30 -/

section ClaimsF

/-- C21. The function `main` accepts a configuration and goes on to build the
pipeline (it then makes the calls of `pipeline_calls`, which create pipes and
fork the stages, and runs both passes) if and only if the hidden-layer count
`H` satisfies `1 ≤ H ≤ 9` and the neurons-per-layer count `N` satisfies
`1 ≤ N ≤ 100`; for every other pair it exits with status 1 having made no
call at all: no pipe and no stage has been created. -/
theorem main_accepts_iff {α β σ : Type} [Zero α] [Add α] [Mul α] [Sub α] [Div α]
    [OfScientific α] (parse : Tokenizer σ α) (R : ObjRep α β) (file : σ)
    (layers_count neurons_count : Int) :
    ((main parse R file layers_count neurons_count).passes.isSome = true
      ↔ (1 ≤ layers_count ∧ layers_count ≤ 9 ∧ 1 ≤ neurons_count ∧ neurons_count ≤ 100))
    ∧ ((1 ≤ layers_count ∧ layers_count ≤ 9 ∧ 1 ≤ neurons_count ∧ neurons_count ≤ 100) →
        main_calls layers_count neurons_count
          = pipeline_calls layers_count.toNat neurons_count.toNat
        ∧ created (main_calls layers_count neurons_count) ≠ []
        ∧ forked (main_calls layers_count neurons_count) ≠ []
        ∧ (main parse R file layers_count neurons_count).passes
            = some (run_passes parse R file layers_count.toNat neurons_count.toNat))
    ∧ (¬ (1 ≤ layers_count ∧ layers_count ≤ 9 ∧ 1 ≤ neurons_count ∧ neurons_count ≤ 100) →
        (main parse R file layers_count neurons_count).status = 1
        ∧ (main parse R file layers_count neurons_count).passes = none
        ∧ main_calls layers_count neurons_count = []
        ∧ created (main_calls layers_count neurons_count) = []
        ∧ forked (main_calls layers_count neurons_count) = []) := by
  by_cases c1 : layers_count < 1 ∨ layers_count > 9
  · have hn : ¬ (1 ≤ layers_count ∧ layers_count ≤ 9 ∧ 1 ≤ neurons_count ∧ neurons_count ≤ 100) :=
      by omega
    have hm : main parse R file layers_count neurons_count = { status := 1, passes := none } := by
      unfold main; rw [if_pos c1]
    have hc : main_calls layers_count neurons_count = [] := by
      unfold main_calls; rw [if_pos c1]
    rw [hm, hc]
    exact ⟨⟨fun h => (by cases h), fun h => absurd h hn⟩, fun h => absurd h hn,
      fun _ => ⟨rfl, rfl, rfl, rfl, rfl⟩⟩
  · by_cases c2 : neurons_count < 1 ∨ neurons_count > 100
    · have hn : ¬ (1 ≤ layers_count ∧ layers_count ≤ 9 ∧ 1 ≤ neurons_count
          ∧ neurons_count ≤ 100) := by omega
      have hm : main parse R file layers_count neurons_count
          = { status := 1, passes := none } := by
        unfold main; rw [if_neg c1, if_pos c2]
      have hc : main_calls layers_count neurons_count = [] := by
        unfold main_calls; rw [if_neg c1, if_pos c2]
      rw [hm, hc]
      exact ⟨⟨fun h => (by cases h), fun h => absurd h hn⟩, fun h => absurd h hn,
        fun _ => ⟨rfl, rfl, rfl, rfl, rfl⟩⟩
    · have hy : 1 ≤ layers_count ∧ layers_count ≤ 9 ∧ 1 ≤ neurons_count
          ∧ neurons_count ≤ 100 := by omega
      have hm : main parse R file layers_count neurons_count
          = { status := 0,
              passes := some (run_passes parse R file layers_count.toNat
                neurons_count.toNat) } := by
        unfold main; rw [if_neg c1, if_neg c2]
      have hc : main_calls layers_count neurons_count
          = pipeline_calls layers_count.toNat neurons_count.toNat := by
        unfold main_calls; rw [if_neg c1, if_neg c2]
      rw [hm, hc]
      refine ⟨⟨fun _ => hy, fun _ => rfl⟩, fun _ => ⟨rfl, ?_, ?_, rfl⟩, fun h => absurd hy h⟩
      · rw [created_pipeline]
        simp
      · unfold pipeline_calls forked
        rw [List.filterMap_append, List.filterMap_append]
        have := forked_first_pass layers_count.toNat neurons_count.toNat
        unfold forked at this
        rw [this]
        simp

/-- C21, on the configuration `H = 3`, `N = 4`, which `main` accepts. -/
theorem main_accepts_iff_witness :
    main_calls 3 4 = pipeline_calls (3 : Int).toNat (4 : Int).toNat
      ∧ created (main_calls 3 4) ≠ []
      ∧ forked (main_calls 3 4) ≠ []
      ∧ (main (parse_double_with_comma (scan_decimal : Scanf ℚ))
          (ref_rep : ObjRep ℚ (RefByte ℚ)) "1 2".toList 3 4).passes
          = some (run_passes (parse_double_with_comma (scan_decimal : Scanf ℚ))
              (ref_rep : ObjRep ℚ (RefByte ℚ)) "1 2".toList (3 : Int).toNat (4 : Int).toNat) :=
  (main_accepts_iff (parse_double_with_comma (scan_decimal : Scanf ℚ))
    (ref_rep : ObjRep ℚ (RefByte ℚ)) "1 2".toList 3 4).2.1 (by decide)

/-- C22. For every `H`, every `N` from 1 to 100, every input pair `x0, x1` and
every source whose successive tokens are the two inputs and then a weight
sequence `W` of at least `T = 2N + (2H+3)*N^2` tokens, the run terminates
normally and its final output is the reference composition of the spec: the
first-pass output is `v = M_out * M_H * ... * M_1 * M_in * x`, the backward
vector is `u = fx1 v` elementwise, and the final output is
`M'_out * M'_H * ... * M'_1 * M'_in * u`, each matrix being the row-major
reading of the successive segment of `W` (exact arithmetic). -/
theorem final_output_is_reference_composition {β σ : Type} (parse : Tokenizer σ ℚ)
    (R : ObjRep ℚ β) (H N : Nat) (W : List ℚ) (x0 x1 : ℚ) (file fpe : σ)
    (hN : 1 ≤ N ∧ N ≤ 100) (hT : Tokens parse file (x0 :: x1 :: W) fpe)
    (hW : 2 * N + (2 * H + 3) * N ^ 2 ≤ W.length) :
    ∃ s1 s, (run_passes parse R file H N).1.output = .ok s1
      ∧ s1.output = List.ofFn (spec_pass1 W H N x0 x1)
      ∧ s1.backward_data = List.ofFn (spec_backward W H N x0 x1)
      ∧ (run_passes parse R file H N).2.output = .ok s
      ∧ s.output = List.ofFn (spec_final W H N x0 x1) := by
  have hsq : N ^ 2 = N * N := by ring
  rw [hsq] at hW
  have hW1 : 2 * N + (H + 1) * (N * N) ≤ W.length := by
    have : (H + 1) * (N * N) ≤ (2 * H + 3) * (N * N) := Nat.mul_le_mul_right _ (by omega)
    omega
  obtain ⟨_, _, _, fp', a4⟩ := pass1_spec parse R H N W x0 x1 file fpe hT (by omega) hW1 (β := β)
  obtain ⟨l1, _, _⟩ := last_stage_eq parse R H N W x0 x1 file fpe hT (by omega)
    (by
      have : (2 * H + 2) * (N * N) ≤ (2 * H + 3) * (N * N) := Nat.mul_le_mul_right _ (by omega)
      omega) (β := β)
  obtain ⟨s, hs, _, ho⟩ := last_stage_ok parse R H N W x0 x1 file fpe hT (by omega) hW (β := β)
  rw [l1] at hs
  refine ⟨_, s, a4, pass1_out_eq_spec W H N x0 x1, backward_eq_spec W H N x0 x1,
    Option.some.inj hs, ?_⟩
  rw [ho]
  exact pass2_out_eq_spec W H N x0 x1

/-- C22, on `H = 1`, `N = 1` and the source `1 2 3 4 5 6 7 8 9`. -/
theorem final_output_is_reference_composition_witness :
    ∃ s1 s, (run_passes (parse_double_with_comma (scan_decimal : Scanf ℚ))
        (ref_rep : ObjRep ℚ (RefByte ℚ)) "1 2 3 4 5 6 7 8 9".toList 1 1).1.output = .ok s1
      ∧ s1.output = List.ofFn (spec_pass1 [3, 4, 5, 6, 7, 8, 9] 1 1 1 2)
      ∧ s1.backward_data = List.ofFn (spec_backward [3, 4, 5, 6, 7, 8, 9] 1 1 1 2)
      ∧ (run_passes (parse_double_with_comma (scan_decimal : Scanf ℚ))
        (ref_rep : ObjRep ℚ (RefByte ℚ)) "1 2 3 4 5 6 7 8 9".toList 1 1).2.output = .ok s
      ∧ s.output = List.ofFn (spec_final [3, 4, 5, 6, 7, 8, 9] 1 1 1 2) :=
  final_output_is_reference_composition (parse_double_with_comma (scan_decimal : Scanf ℚ))
    (ref_rep : ObjRep ℚ (RefByte ℚ)) 1 1 [3, 4, 5, 6, 7, 8, 9] 1 2
    "1 2 3 4 5 6 7 8 9".toList [] (by decide)
    (Tokens_of_read_weights _ _ _ _ (by decide)) (by decide)

end ClaimsF

section ClaimsG

/-- C23. In a run, when a stage terminates with a fatal error (it has then
sent no frame), every later stage terminates with the fatal error of a failed
pipe read, having computed no output and appended no record.  The positions
are those of `all_stages`: `0..H+1` are the stages of the first pass and
`H+2..2H+3` those of the second, so this holds for the later stages of the
same pass, and for every stage of pass 2 when the first-pass output stage
(position `H+1`) fails before it sends the backward frame. -/
theorem failure_propagates_downstream {α β σ : Type} [Zero α] [Add α] [Mul α] [Sub α]
    [Div α] [OfScientific α] (parse : Tokenizer σ α) (R : ObjRep α β) (file : σ) (H N : Nat)
    (i j : Nat) (e : Fatal) (hij : i < j) (hj : j ≤ 2 * H + 3)
    (hi : (all_stages (run_passes parse R file H N))[i]? = some (.error e)) :
    (all_stages (run_passes parse R file H N))[j]? = some (.error .pipe_read) := by
  have := all_stages_cascade parse R file H N i e hi (j - (i + 1)) (by omega)
  rw [show i + 1 + (j - (i + 1)) = j by omega] at this
  exact this

/-- C23, on `H = 1`, `N = 1` and the source `1 2 3 4 5`: the first-pass
output stage finds no weight, and the second-pass input stage fails at its
pipe read. -/
theorem failure_propagates_downstream_witness :
    (all_stages (run_passes (parse_double_with_comma (scan_decimal : Scanf ℚ))
      (ref_rep : ObjRep ℚ (RefByte ℚ)) "1 2 3 4 5".toList 1 1))[3]?
      = some (.error .pipe_read) :=
  failure_propagates_downstream (parse_double_with_comma (scan_decimal : Scanf ℚ))
    (ref_rep : ObjRep ℚ (RefByte ℚ)) "1 2 3 4 5".toList 1 1 2 3 .insufficient_weights
    (by decide) (by decide) (by with_unfolding_all rfl)

/-- C24. In a run of `main` (`N` from 1 to 100), for every non-input stage
(position `i` from 1 to `2H + 3`) and every source on which one of the
`2 + 2N + (i - 1) N^2` calls of the stage's skip fails (the token is missing or
is not a parsable literal), the failure is propagated: the stage terminates
with a fatal error, that of a failed pipe read, and computes no output, its
predecessor having terminated with a fatal error and sent nothing. -/
theorem skipped_failure_is_fatal_in_a_run {α β σ : Type} [Zero α] [Add α] [Mul α] [Sub α]
    [Div α] [OfScientific α] (parse : Tokenizer σ α) (R : ObjRep α β) (file : σ) (H N : Nat)
    (i p : Nat) (hN : 1 ≤ N ∧ N ≤ 100) (hi : 1 ≤ i ∧ i ≤ 2 * H + 3)
    (hp : p < 2 + (2 * N + (i - 1) * (N * N)))
    (hfail : (parse ((discard parse)^[p] file)).1 = none) :
    (all_stages (run_passes parse R file H N))[i]? = some (.error .pipe_read)
    ∧ ∃ e, (all_stages (run_passes parse R file H N))[i - 1]? = some (.error e) := by
  obtain ⟨r, h3, h4⟩ := all_stages_succ parse R file H N i hi.1 hi.2
  cases r with
  | ok s' =>
    exact absurd hfail
      (all_stages_covered parse R file H N (by omega) (i - 1) (by omega) s' h3 p hp)
  | error e =>
    refine ⟨?_, e, h3⟩
    rw [h4, pipe_of_error, stage_at_no_frame parse R file H N i _ (read_from_pipe_nil_fails R)]

/-- C24, on `H = 1`, `N = 1` and the source `1 2 - 3 4 5`: the third call
fails on the lone sign, the first-pass input stage terminates at its weight
loop, and the hidden stage, whose skip makes that call too, fails at its pipe
read. -/
theorem skipped_failure_is_fatal_in_a_run_witness :
    (all_stages (run_passes (parse_double_with_comma scan_signed)
        (ref_rep : ObjRep ℚ (RefByte ℚ)) "1 2 - 3 4 5".toList 1 1))[1]?
        = some (.error .pipe_read)
    ∧ ∃ e, (all_stages (run_passes (parse_double_with_comma scan_signed)
        (ref_rep : ObjRep ℚ (RefByte ℚ)) "1 2 - 3 4 5".toList 1 1))[1 - 1]?
        = some (.error e) :=
  skipped_failure_is_fatal_in_a_run (parse_double_with_comma scan_signed)
    (ref_rep : ObjRep ℚ (RefByte ℚ)) "1 2 - 3 4 5".toList 1 1 1 2 (by decide) (by decide)
    (by decide) (by decide)

end ClaimsG

section ClaimsH

/-- C25 fails: with `H = 1`, `N = 1` and the source `1 2 3 4 5 6 7 8 9`, whose
first two tokens are `1` and `2`, the second-pass input stage terminates
normally with the input vector `[109231/2]`, of width 1: it is the vector of
the backward frame, `fx1 330`, and not the vector `[1, 2]` of the first two
tokens. -/
theorem second_input_vector_is_not_the_first_two_tokens :
    (parse_double_with_comma (scan_decimal : Scanf ℚ) "1 2 3 4 5 6 7 8 9".toList).1 = some 1
    ∧ (parse_double_with_comma (scan_decimal : Scanf ℚ)
        (discard (parse_double_with_comma (scan_decimal : Scanf ℚ))
          "1 2 3 4 5 6 7 8 9".toList)).1 = some 2
    ∧ ∃ s, (run_passes (parse_double_with_comma (scan_decimal : Scanf ℚ))
          (ref_rep : ObjRep ℚ (RefByte ℚ)) "1 2 3 4 5 6 7 8 9".toList 1 1).2.input = .ok s
        ∧ s.input_data = [109231 / 2] ∧ s.input_data ≠ [1, 2] :=
  ⟨by decide, by decide,
    { input_fp := "8 9".toList, input_data := [109231 / 2], weights := [7],
      output := [764617 / 2], backward_data := [],
      report := second_input_record [764617 / 2],
      sent := frame ref_rep [764617 / 2] },
    by with_unfolding_all rfl, rfl, by simp⟩

/-- C25 as amended. In a run with `N` from 1 to 100, the first-pass input stage
takes its input vector from the first two numeric tokens of the source, as a
vector of width 2, and not from a channel; every other stage, the second-pass
input stage included, takes its input vector from the channel frame that its
predecessor has sent: it has `N` values, which are the outputs of the
predecessor, and for the second-pass input stage (position `H + 2`) the
values of the backward frame, `fx1` of the outputs of the first-pass output
stage. -/
theorem input_vectors_by_stage {α β σ : Type} [Zero α] [Add α] [Mul α] [Sub α]
    [Div α] [OfScientific α] (parse : Tokenizer σ α) (R : ObjRep α β) (file : σ) (H N : Nat)
    (hN : 1 ≤ N ∧ N ≤ 100) :
    (∀ s, (run_passes parse R file H N).1.input = .ok s →
      ∃ v0 v1, (parse file).1 = some v0 ∧ (parse (discard parse file)).1 = some v1
        ∧ s.input_data = [v0, v1])
    ∧ ∀ i s, 1 ≤ i → i ≤ 2 * H + 3 →
        (all_stages (run_passes parse R file H N))[i]? = some (.ok s) →
        ∃ s', (all_stages (run_passes parse R file H N))[i - 1]? = some (.ok s')
          ∧ s'.sent = frame R s.input_data
          ∧ read_from_pipe R s'.sent = (some (s.input_data, N), [])
          ∧ s.input_data.length = N
          ∧ s.input_data = (if i = H + 2 then s'.output.map fx1 else s'.output) := by
  constructor
  · intro s hs
    obtain ⟨v0, v1, h0, h1, h2, _⟩ := input_layer_process_reads parse R N file s hs
    exact ⟨v0, v1, h0, h1, h2⟩
  · intro i s h1 h2 hs
    obtain ⟨s', a, b, c, d, _⟩ := all_stages_pred parse R file H N i s h1 h2 (by omega) hs
    have hlen : s.input_data.length = N := by
      rw [d]
      split
      · rw [List.length_map, b]
      · exact b
    have hread := read_from_pipe_frame R s.input_data [] (by omega)
    rw [List.append_nil, hlen] at hread
    exact ⟨s', a, c, by rw [c]; exact hread, hlen, d⟩

/-- C25 as amended, on `H = 1`, `N = 1` and the source `1 2 3 4 5 6 7 8 9`, at
the second-pass input stage (position 3). -/
theorem input_vectors_by_stage_witness :
    ∃ s', (all_stages (run_passes (parse_double_with_comma (scan_decimal : Scanf ℚ))
          (ref_rep : ObjRep ℚ (RefByte ℚ)) "1 2 3 4 5 6 7 8 9".toList 1 1))[3 - 1]?
          = some (.ok s')
      ∧ s'.sent = frame ref_rep [(109231 / 2 : ℚ)]
      ∧ read_from_pipe (ref_rep : ObjRep ℚ (RefByte ℚ)) s'.sent
          = (some ([(109231 / 2 : ℚ)], 1), [])
      ∧ [(109231 / 2 : ℚ)].length = 1
      ∧ [(109231 / 2 : ℚ)] = (if 3 = 1 + 2 then s'.output.map fx1 else s'.output) :=
  (input_vectors_by_stage (parse_double_with_comma (scan_decimal : Scanf ℚ))
    (ref_rep : ObjRep ℚ (RefByte ℚ)) "1 2 3 4 5 6 7 8 9".toList 1 1 (by decide)).2 3
    { input_fp := "8 9".toList, input_data := [109231 / 2], weights := [7],
      output := [764617 / 2], backward_data := [],
      report := second_input_record [764617 / 2],
      sent := frame ref_rep [764617 / 2] }
    (by decide) (by decide) (by with_unfolding_all rfl)

end ClaimsH

section ClaimsI

/-- C26 fails: for `H = 1` the output stage of the first pass (stage
`H + 1 = 2`) is given the write end of the backward pipe and no end of
`forward_pipes[2]`, the output stage of the second pass is given no
descriptor to write to, and the pipes `forward_pipes[2]` and
`second_forward_pipes[2]`, which `main` creates, are handed to no stage. -/
theorem last_forward_channel_is_not_used :
    ((forked (first_pass_calls 1 1))[2]?.bind StageCall.write_fd
        = some ⟨.backward_pipe, 1⟩)
    ∧ ((forked (second_pass_calls 1 1))[2]?.map StageCall.write_fd = some none)
    ∧ PipeId.forward_pipes 2 ∈ created (pipeline_calls 1 1)
    ∧ PipeId.second_forward_pipes 2 ∈ created (pipeline_calls 1 1)
    ∧ ∀ c ∈ forked (pipeline_calls 1 1), ∀ side,
        c.write_fd ≠ some ⟨.forward_pipes 2, side⟩
        ∧ c.read_fd ≠ some ⟨.forward_pipes 2, side⟩
        ∧ c.write_fd ≠ some ⟨.second_forward_pipes 2, side⟩
        ∧ c.read_fd ≠ some ⟨.second_forward_pipes 2, side⟩ := by
  refine ⟨by decide, by decide, by decide, by decide, ?_⟩
  intro c hc side
  have : forked (pipeline_calls 1 1) =
      [StageCall.input_layer_process 1 1 ⟨.forward_pipes 0, 1⟩ 0,
       StageCall.hidden_layer_process 1 1 ⟨.forward_pipes 0, 0⟩ ⟨.forward_pipes 1, 1⟩ 1,
       StageCall.output_layer_process 2 1 ⟨.forward_pipes 1, 0⟩ ⟨.backward_pipe, 1⟩ 1,
       StageCall.second_input_layer_process 1 1 ⟨.backward_pipe, 0⟩
         ⟨.second_forward_pipes 0, 1⟩ 1,
       StageCall.second_hidden_layer_process 1 1 ⟨.second_forward_pipes 0, 0⟩
         ⟨.second_forward_pipes 1, 1⟩ 1,
       StageCall.second_output_layer_process 2 1 ⟨.second_forward_pipes 1, 0⟩ 1] := by
    decide
  rw [this] at hc
  simp only [List.mem_cons, List.mem_singleton, List.not_mem_nil, or_false] at hc
  rcases hc with rfl | rfl | rfl | rfl | rfl | rfl <;>
    simp [StageCall.write_fd, StageCall.read_fd]

/-- C26 as amended. For every `H`, `main` creates `H + 2` forward pipes for
each pass and one backward pipe, and forks the `H + 2` stages of a pass
(numbered 0 for the input stage, `1..H` for the hidden stages, `H + 1` for the
output stage) so that stage `i` writes to forward pipe `i` for `i ≤ H`, and
reads from forward pipe `i - 1` for `i ≥ 1`.  The output stage of the first
pass writes to the backward pipe and the input stage of the second pass reads
from it; the input stage of the first pass reads no pipe, the output stage of
the second pass writes to none, and forward pipe `H + 1` of either pass is
handed to no stage.  With these descriptors every stage but the first reads
what the stage before it has sent: the children of the calls are the stages
of `run_passes`. -/
theorem channel_topology {α β σ : Type} [Zero α] [Add α] [Mul α] [Sub α] [Div α]
    [OfScientific α] (parse : Tokenizer σ α) (R : ObjRep α β) (file : σ) (H N : Nat) :
    created (pipeline_calls H N)
      = (List.range (H + 2)).map PipeId.forward_pipes ++ [PipeId.backward_pipe]
        ++ (List.range (H + 2)).map PipeId.second_forward_pipes
    ∧ forked (pipeline_calls H N)
        = forked (first_pass_calls H N) ++ forked (second_pass_calls H N)
    ∧ (forked (first_pass_calls H N)).length = H + 2
    ∧ (forked (second_pass_calls H N)).length = H + 2
    ∧ (∀ i, i ≤ H + 1 → ∃ c, (forked (first_pass_calls H N))[i]? = some c
        ∧ c.write_fd
            = (if i ≤ H then some ⟨.forward_pipes i, 1⟩ else some ⟨.backward_pipe, 1⟩)
        ∧ c.read_fd = (if i = 0 then none else some ⟨.forward_pipes (i - 1), 0⟩))
    ∧ (∀ i, i ≤ H + 1 → ∃ c, (forked (second_pass_calls H N))[i]? = some c
        ∧ c.write_fd = (if i ≤ H then some ⟨.second_forward_pipes i, 1⟩ else none)
        ∧ c.read_fd = (if i = 0 then some ⟨.backward_pipe, 0⟩
            else some ⟨.second_forward_pipes (i - 1), 0⟩))
    ∧ (∀ c ∈ forked (pipeline_calls H N), ∀ fd,
        (c.write_fd = some fd ∨ c.read_fd = some fd) →
        fd.pipe ≠ .forward_pipes (H + 1) ∧ fd.pipe ≠ .second_forward_pipes (H + 1))
    ∧ (run_calls parse R file (pipeline_calls H N)).exits.map Prod.snd
        = all_stages (run_passes parse R file H N) :=
  ⟨created_pipeline H N, forked_pipeline H N,
    by rw [forked_first_pass]; simp,
    by rw [forked_second_pass]; simp,
    forked_first_pass_get H N, forked_second_pass_get H N,
    last_pipes_unused H N, run_calls_stages parse R file H N⟩

/-- C26 as amended, on `H = 2`: the output stage of the first pass, stage 3. -/
theorem channel_topology_witness :
    ∃ c, (forked (first_pass_calls 2 1))[3]? = some c
      ∧ c.write_fd
          = (if 3 ≤ 2 then some ⟨.forward_pipes 3, 1⟩ else some ⟨.backward_pipe, 1⟩)
      ∧ c.read_fd = (if 3 = 0 then none else some ⟨.forward_pipes (3 - 1), 0⟩) :=
  (channel_topology (parse_double_with_comma (scan_decimal : Scanf ℚ))
    (ref_rep : ObjRep ℚ (RefByte ℚ)) "1 2".toList 2 1).2.2.2.2.1 3 (by decide)

/-- C27 fails: with `H = 1`, `N = 1` and the source `1 2 3 4 5` the output
stage of the first pass terminates with a fatal error (it finds no weight),
and `main` goes on all the same: its calls fork the stages of the second pass,
and the input stage of the second pass, the fourth child, runs and terminates
at its pipe read. -/
theorem second_pass_runs_after_a_failed_first_pass :
    (run_passes (parse_double_with_comma (scan_decimal : Scanf ℚ))
        (ref_rep : ObjRep ℚ (RefByte ℚ)) "1 2 3 4 5".toList 1 1).1.output
        = .error .insufficient_weights
    ∧ SysCall.fork Pid.second_input_pid
        (StageCall.second_input_layer_process 1 1 ⟨.backward_pipe, 0⟩
          ⟨.second_forward_pipes 0, 1⟩ 1) ∈ main_calls 1 1
    ∧ (run_calls (parse_double_with_comma (scan_decimal : Scanf ℚ))
        (ref_rep : ObjRep ℚ (RefByte ℚ)) "1 2 3 4 5".toList (main_calls 1 1)).exits[3]?
        = some (Pid.second_input_pid, .error .pipe_read)
    ∧ (main (parse_double_with_comma (scan_decimal : Scanf ℚ))
        (ref_rep : ObjRep ℚ (RefByte ℚ)) "1 2 3 4 5".toList 1 1).status = 0 := by
  have h2 : (run_passes (parse_double_with_comma (scan_decimal : Scanf ℚ))
      (ref_rep : ObjRep ℚ (RefByte ℚ)) "1 2 3 4 5".toList 1 1).2.input
      = .error .pipe_read := by with_unfolding_all rfl
  refine ⟨by with_unfolding_all rfl, by decide, ?_, rfl⟩
  have hc : main_calls 1 1 = pipeline_calls 1 1 := rfl
  obtain ⟨x, hx⟩ : ∃ x, (run_passes (parse_double_with_comma (scan_decimal : Scanf ℚ))
      (ref_rep : ObjRep ℚ (RefByte ℚ)) "1 2 3 4 5".toList 1 1).1.hidden = [x] :=
    List.length_eq_one.1 (run_passes_hidden_length _ _ _ 1 1).1
  rw [hc, run_calls_pipeline, hx, h2]
  rfl

/-- C27 as amended. In every execution of `main` that has accepted the
configuration, no stage of the second pass is forked before `main` has waited
for every stage of the first pass (input, all `H` hidden, output): every child
of the first pass has its `waitpid` before every fork of the second pass, so
it has terminated, successfully or not.  The waits pass `NULL` for the
status, and the second pass is started whatever the first pass has done: for
every source the children of the run are the `2H + 4` stages of both
passes. -/
theorem second_pass_follows_the_waits {α β σ : Type} [Zero α] [Add α] [Mul α] [Sub α]
    [Div α] [OfScientific α] (parse : Tokenizer σ α) (R : ObjRep α β) (file : σ) (H N : Nat)
    (pid : Pid) (child : StageCall)
    (hfork : SysCall.fork pid child ∈ pipeline_calls H N) (hpass : pid.pass = 1) :
    (∃ a, (pipeline_calls H N)[a]? = some (SysCall.waitpid pid)
      ∧ ∀ (b : Nat) (pid2 : Pid) (child2 : StageCall),
          (pipeline_calls H N)[b]? = some (SysCall.fork pid2 child2) → pid2.pass = 2 → a < b)
    ∧ (run_calls parse R file (pipeline_calls H N)).exits.map Prod.fst
        = [Pid.input_pid] ++ (List.range H).map Pid.hidden_pids ++ [Pid.output_pid]
          ++ [Pid.second_input_pid] ++ (List.range H).map Pid.second_hidden_pids
          ++ [Pid.second_output_pid]
    ∧ (run_calls parse R file (pipeline_calls H N)).exits.map Prod.snd
        = all_stages (run_passes parse R file H N) := by
  obtain ⟨a, ha, hget⟩ := first_wait_index H N pid child hfork hpass
  refine ⟨⟨a, hget, ?_⟩, run_calls_pids parse R file H N, run_calls_stages parse R file H N⟩
  intro b pid2 child2 hb hp2
  have := second_fork_index H N b pid2 child2 hb hp2
  omega

/-- C27 as amended, on `H = 1`, `N = 1` and the source `1 2 3 4 5`, for the
output stage of the first pass. -/
theorem second_pass_follows_the_waits_witness :
    ∃ a, (pipeline_calls 1 1)[a]? = some (SysCall.waitpid Pid.output_pid)
      ∧ ∀ (b : Nat) (pid2 : Pid) (child2 : StageCall),
          (pipeline_calls 1 1)[b]? = some (SysCall.fork pid2 child2) → pid2.pass = 2 → a < b :=
  (second_pass_follows_the_waits (parse_double_with_comma (scan_decimal : Scanf ℚ))
    (ref_rep : ObjRep ℚ (RefByte ℚ)) "1 2 3 4 5".toList 1 1 Pid.output_pid
    (StageCall.output_layer_process 2 1 ⟨.forward_pipes 1, 0⟩ ⟨.backward_pipe, 1⟩ 1)
    (by decide) rfl).1

end ClaimsI

section ClaimsJ

/-- C28. The two tokenizer variants agree: for every conversion `scanf`, every
character stream and every `k`, the `k`-th successive call (counted from 0)
of `parse_double_with_comma` of `project.cpp`, which consumes every trailing
comma, space and tab, and of `p.c`, which consumes at most one trailing comma,
return the same success flag and the same value; hence the successive calls
of one variant return the values `ts` if and only if those of the other do. -/
theorem tokenizer_variants_agree {α : Type} (scanf : Scanf α) (fp : List Char) :
    (∀ k : Nat,
      (parse_double_with_comma scanf ((discard (parse_double_with_comma scanf))^[k] fp)).1
        = (PC.parse_double_with_comma scanf
            ((discard (PC.parse_double_with_comma scanf))^[k] fp)).1)
    ∧ ∀ ts : List α, (∃ fp', Tokens (parse_double_with_comma scanf) fp ts fp')
        ↔ (∃ fp', Tokens (PC.parse_double_with_comma scanf) fp ts fp') :=
  ⟨fun k => (variants_step scanf _ _ (variants_states scanf fp k)).1,
   fun ts => ⟨variants_tokens scanf ts fp fp rfl, variants_tokens_conv scanf ts fp fp rfl⟩⟩

/-- C29. In exact arithmetic (any semiring) `launch_neuron_threads` is linear
in its input vector: for every weight array `W` of `n` rows of width `w`, all
input vectors `x` and `y` of length `w` and all scalars `a` and `b`, the
output for `a*x + b*y` is `a` times the output for `x` plus `b` times the
output for `y`; and the all-zero input gives the all-zero output of length
`n`. -/
theorem launch_neuron_threads_linear {α : Type} [Semiring α] (n w : Nat) (W x y : List α)
    (a b : α) (hW : W.length = n * w) (hx : x.length = w) (hy : y.length = w) :
    ∃ rx ry, launch_neuron_threads n w x W = some rx
      ∧ launch_neuron_threads n w y W = some ry
      ∧ rx.length = n ∧ ry.length = n
      ∧ launch_neuron_threads n w (List.zipWith (fun u v => a * u + b * v) x y) W
          = some (List.zipWith (fun u v => a * u + b * v) rx ry)
      ∧ launch_neuron_threads n w (List.replicate w 0) W = some (List.replicate n 0) := by
  refine ⟨_, _, launch_neuron_threads_eq n w x W hx hW, launch_neuron_threads_eq n w y W hy hW,
    by simp, by simp, ?_, ?_⟩
  · rw [launch_neuron_threads_eq n w _ W (by simp [hx, hy]) hW]
    congr 1
    apply List.ext_getElem
    · simp
    · intro i h1 h2
      simp only [List.length_map, List.length_range] at h1
      simp only [List.getElem_map, List.getElem_range, List.getElem_zipWith]
      exact dot_row_linear a b w x y W (by rw [hx, hy]) i
  · rw [launch_neuron_threads_eq n w _ W (by simp) hW]
    congr 1
    apply List.ext_getElem
    · simp
    · intro i h1 h2
      simp only [List.getElem_map, List.getElem_range, List.getElem_replicate]
      exact dot_row_zero w W i

/-- C29, on three rows of width 2, with `a = 2`, `b = -1`. -/
theorem launch_neuron_threads_linear_witness :
    ∃ rx ry, launch_neuron_threads 3 2 [(1 : ℤ), 2] [3, 4, 5, 6, 7, 8] = some rx
      ∧ launch_neuron_threads 3 2 [(5 : ℤ), -1] [3, 4, 5, 6, 7, 8] = some ry
      ∧ rx.length = 3 ∧ ry.length = 3
      ∧ launch_neuron_threads 3 2
          (List.zipWith (fun u v => (2 : ℤ) * u + (-1) * v) [(1 : ℤ), 2] [(5 : ℤ), -1])
          [3, 4, 5, 6, 7, 8]
          = some (List.zipWith (fun u v => (2 : ℤ) * u + (-1) * v) rx ry)
      ∧ launch_neuron_threads 3 2 (List.replicate 2 0) [(3 : ℤ), 4, 5, 6, 7, 8]
          = some (List.replicate 3 0) :=
  launch_neuron_threads_linear 3 2 [(3 : ℤ), 4, 5, 6, 7, 8] [1, 2] [5, -1] 2 (-1)
    (by decide) (by decide) (by decide)

/-- C30. In exact arithmetic, for every forward output value `v` the forwarded
backward value `fx1 v = (v*v + v + 1)/2` is at least `3/8`, with equality only
at `v = -1/2`, and `fx1 v - fx2 v = v + 1/2`; hence every component of the
input vector of the second-pass input stage is at least `3/8`, so strictly
positive, whatever the weights and the inputs of the first pass are. -/
theorem fx1_at_least_three_eighths {β σ : Type} (parse : Tokenizer σ ℚ) (R : ObjRep ℚ β)
    (file : σ) (H N : Nat) (s2 : StageExit ℚ β σ) (hN : 1 ≤ N ∧ N ≤ 100)
    (h2 : (run_passes parse R file H N).2.input = .ok s2) :
    (∀ v : ℚ, 3 / 8 ≤ fx1 v ∧ (fx1 v = 3 / 8 ↔ v = -1 / 2) ∧ fx1 v - fx2 v = v + 1 / 2)
    ∧ s2.input_data.length = N
    ∧ ∀ u ∈ s2.input_data, 3 / 8 ≤ u ∧ 0 < u := by
  have h1 : (1.0 : ℚ) = 1 := by norm_num
  have h20 : (2.0 : ℚ) = 2 := by norm_num
  have hf1 : ∀ v : ℚ, fx1 v = (v * v + v + 1) / 2 := fun v => by unfold fx1; rw [h1, h20]
  have hf2 : ∀ v : ℚ, fx2 v = (v * v - v) / 2 := fun v => by unfold fx2; rw [h20]
  have hbound : ∀ v : ℚ, 3 / 8 ≤ fx1 v := by
    intro v
    rw [hf1]
    nlinarith [sq_nonneg (2 * v + 1)]
  refine ⟨fun v => ⟨hbound v, ?_, ?_⟩, ?_⟩
  · rw [hf1]
    constructor
    · intro h
      have h3 : (2 * v + 1) ^ 2 = 0 := by nlinarith
      have h4 : 2 * v + 1 = 0 := pow_eq_zero_iff (two_ne_zero) |>.1 h3
      linarith
    · intro h
      rw [h]
      norm_num
  · rw [hf1, hf2]
    ring
  · have hin : (run_passes parse R file H N).2.input
        = second_input_layer_process parse R N
            (pipe_of (run_passes parse R file H N).1.output) file H := rfl
    rw [hin] at h2
    cases h1o : (run_passes parse R file H N).1.output with
    | error e =>
      rw [h1o] at h2
      simp only [pipe_of] at h2
      rw [second_input_layer_process_no_frame parse R N H [] file
        (read_from_pipe_nil_fails R)] at h2
      cases h2
    | ok s1 =>
      rw [h1o] at h2
      obtain ⟨hlen, _, _, hsent⟩ := output_layer_process_inv parse R N H _ file s1 h1o
      simp only [pipe_of, hsent] at h2
      have hdata := second_input_layer_process_inv parse R N H _ file s2
        (by rw [List.length_map, hlen]; omega) h2
      rw [hdata]
      refine ⟨by rw [List.length_map, hlen], ?_⟩
      intro u hu
      obtain ⟨v, _, hv⟩ := List.mem_map.1 hu
      rw [← hv]
      have := hbound v
      exact ⟨this, by linarith⟩

/-- C30, on `H = 1`, `N = 1` and the source `1 2 3 4 5 6 7 8 9`: the
second-pass input stage receives `fx1 330 = 109231/2`. -/
theorem fx1_at_least_three_eighths_witness :
    ([109231 / 2] : List ℚ).length = 1
      ∧ ∀ u ∈ ([109231 / 2] : List ℚ), 3 / 8 ≤ u ∧ 0 < u :=
  (fx1_at_least_three_eighths (parse_double_with_comma (scan_decimal : Scanf ℚ))
    (ref_rep : ObjRep ℚ (RefByte ℚ)) "1 2 3 4 5 6 7 8 9".toList 1 1
    { input_fp := "8 9".toList, input_data := [109231 / 2], weights := [7],
      output := [764617 / 2], backward_data := [],
      report := second_input_record [764617 / 2],
      sent := frame ref_rep [764617 / 2] }
    (by decide) (by with_unfolding_all rfl)).2

end ClaimsJ

end Pipeline
